import Mathlib

/-! songbook-client: chord diagram codec, song editor indentation and
highlighting, songbook files.

A shallow embedding of the text logic of `diagram.cc`, `song-code-editor.cc`
and `songbook.cc`.  A `QString` is a list of characters; line buffers are
lists of `QString`s, one per text block.
-/

namespace Songbook

/-- A `QString`, as the list of its characters. -/
abbrev QString := List Char

/-! ## QString helpers -/

/-- `QString::startsWith(pat)`. -/
def startsWith : QString → QString → Bool
  | _, [] => true
  | [], _ :: _ => false
  | c :: cs, p :: ps => c == p && startsWith cs ps

/-- `QString::contains(pat)` for a substring `pat`. -/
def containsStr (pat : QString) : QString → Bool
  | [] => startsWith [] pat
  | c :: cs => startsWith (c :: cs) pat || containsStr pat cs

/-- `QString::contains(ch)` for a single character. -/
def containsChar (ch : Char) : QString → Bool
  | [] => false
  | c :: cs => c == ch || containsChar ch cs

/-- `QString::split(sep)` for a separator of one character: the parts between
its occurrences, empty parts kept. -/
def splitSep (sep : Char) : QString → List QString
  | [] => [[]]
  | c :: cs =>
    if c == sep then [] :: splitSep sep cs
    else
      match splitSep sep cs with
      | [] => [[c]]
      | part :: parts => (c :: part) :: parts

/-- `QStringList::join(sep)`. -/
def joinSep (sep : QString) : List QString → QString
  | [] => []
  | [part] => part
  | part :: next :: parts => part ++ sep ++ joinSep sep (next :: parts)

/-- The character that ends a block in the text of a document. -/
def paragraphSeparator : Char := Char.ofNat 0x2029

/-! ## Chord diagrams (`diagram.hh`, `diagram.cc`) -/

/-- Modelled from the spec: the enumeration `ChordType` is declared in
`utils/utils.hh`, which is not part of the sources at hand; the spec gives the
instrument type as enumerated over guitar and ukulele. -/
inductive ChordType where
  | GuitarChord
  | UkuleleChord
  deriving DecidableEq, Repr

/-- The data members of `CDiagram`. -/
structure CDiagram where
  m_type : ChordType
  m_chord : QString
  m_fret : QString
  m_strings : QString
  m_important : Bool
  deriving DecidableEq, Repr

/-- `CDiagram::toString`. -/
def CDiagram.toString (d : CDiagram) : QString :=
  let str : QString :=
    match d.m_type with
    | ChordType.GuitarChord => "\\gtab".toList
    | ChordType.UkuleleChord => "\\utab".toList
  let str := if d.m_important then str ++ ['*'] else str
  let str := str ++ (['{'] ++ d.m_chord ++ ['}', '{'])
  let str := str ++ d.m_fret
  let str := if !d.m_fret.isEmpty then str ++ [':'] else str
  str ++ (d.m_strings ++ ['}'])

/-! ### The four regular expressions

`QRegExp::indexIn` reports the leftmost match; at a given start the
quantifiers are greedy.  Each expression is embedded as a function that tries
to match at the head of its input and returns the text of capture group 1;
`indexIn` then tries every start from left to right.  `\d` is taken as the
ASCII digits. -/

/-- The common head `\\[ug]tab[\*]?\{` of `reChord`, `reFret` and
`reStringsNoFret`, matched at the head of the input: the text after the
opening brace. -/
def matchTabOpen : QString → Option QString
  | '\\' :: c :: 't' :: 'a' :: 'b' :: rest =>
    if c = 'u' ∨ c = 'g' then
      match rest with
      | '*' :: '{' :: r => some r
      | '{' :: r => some r
      | _ => none
    else none
  | _ => none

/-- The capture group `([^\}]+)` at the end of an expression: the longest run
of characters other than the closing brace, which must not be empty. -/
def capNotBrace (s : QString) : Option QString :=
  let c := s.takeWhile (fun x => x != '}')
  if c.isEmpty then none else some c

/-- The tail `\{(\d):` after a greedy `.+`: the digit of the last place in the
input where an opening brace, a digit and a colon follow each other. -/
def lastBraceDigit : QString → Option Char
  | [] => none
  | c :: cs =>
    match lastBraceDigit cs with
    | some d => some d
    | none =>
      match c :: cs with
      | '{' :: d :: ':' :: _ => if d.isDigit then some d else none
      | _ => none

/-- The tail `\{([^\}]+)` after a greedy `.+`: the capture at the last opening
brace of the input that is followed by a character other than a closing
brace. -/
def lastBraceCap : QString → Option QString
  | [] => none
  | c :: cs =>
    match lastBraceCap cs with
    | some x => some x
    | none => if c = '{' then capNotBrace cs else none

/-- `reChord = \\[ug]tab[\*]?\{([^\}]+)` matched at the head of the input. -/
def reChordAt (s : QString) : Option QString :=
  match matchTabOpen s with
  | some r => capNotBrace r
  | none => none

/-- `reFret = \\[ug]tab[\*]?\{.+\{(\d):` matched at the head of the input;
`.+` takes at least one character. -/
def reFretAt (s : QString) : Option QString :=
  match matchTabOpen s with
  | some (_ :: r) =>
    match lastBraceDigit r with
    | some d => some [d]
    | none => none
  | _ => none

/-- `reStringsFret = :([^\}]+)` matched at the head of the input. -/
def reStringsFretAt : QString → Option QString
  | ':' :: r => capNotBrace r
  | _ => none

/-- `reStringsNoFret = \\[ug]tab[\*]?\{.+\{([^\}]+)` matched at the head of
the input; `.+` takes at least one character. -/
def reStringsNoFretAt (s : QString) : Option QString :=
  match matchTabOpen s with
  | some (_ :: r) => lastBraceCap r
  | _ => none

/-- `QRegExp::indexIn`: the capture of the leftmost start at which the
expression matches. -/
def indexIn (re : QString → Option QString) : QString → Option QString
  | [] => re []
  | c :: cs =>
    match re (c :: cs) with
    | some r => some r
    | none => indexIn re cs

/-- `re.indexIn(str)` followed by `re.cap(1)`: the empty string when the
expression matches nowhere. -/
def cap1 (re : QString → Option QString) (str : QString) : QString :=
  (indexIn re str).getD []

/-- `CDiagram::fromString`, run on a diagram whose type so far is
`self.m_type`. -/
def CDiagram.fromString (self : CDiagram) (str : QString) : CDiagram :=
  let type :=
    if containsStr "gtab".toList str then ChordType.GuitarChord
    else if containsStr "utab".toList str then ChordType.UkuleleChord
    else self.m_type
  let important := containsChar '*' str
  let chord := cap1 reChordAt str
  let fret := cap1 reFretAt str
  let strings :=
    if fret.isEmpty then cap1 reStringsNoFretAt str
    else cap1 reStringsFretAt str
  { m_type := type, m_chord := chord, m_fret := fret, m_strings := strings,
    m_important := important }

/-- The enumerators of `CDiagram::StringCount`. -/
def GuitarStringCount : Nat := 6

/-- The second enumerator of `CDiagram::StringCount`. -/
def UkuleleStringCount : Nat := 4

/-- The expression `StringCount()` of `CDiagram::isValidChord`: `StringCount`
names the enumeration type there (the class has no member function of that
name), so the expression is a value-initialised enumeration, which is zero. -/
def StringCountValue : Nat := 0

/-- `CDiagramWidget::stringCount`. -/
def stringCount (d : CDiagram) : Nat :=
  match d.m_type with
  | ChordType.GuitarChord => GuitarStringCount
  | ChordType.UkuleleChord => UkuleleStringCount

/-- `CDiagram::isValidChord`. -/
def CDiagram.isValidChord (d : CDiagram) : Bool :=
  (d.m_strings.length == StringCountValue) && !d.m_chord.isEmpty

/-! ## Song editor: indentation (`song-code-editor.cc`) -/

/-- `QChar::isSpace`: the characters 9 to 13, the next-line and no-break
space characters, and the Unicode separators. -/
def isSpace (c : Char) : Bool :=
  let n := c.toNat
  (9 ≤ n && n ≤ 13) || n == 32 || n == 0x85 || n == 0xA0 || n == 0x1680 ||
    (0x2000 ≤ n && n ≤ 0x200A) || n == 0x2028 || n == 0x2029 || n == 0x202F ||
    n == 0x205F || n == 0x3000

/-- The test `text.trimmed().isEmpty()`: every character is white space. -/
def isVoid (text : QString) : Bool := text.all isSpace

/-- A text cursor as seen by the indentation code: the block (line) it is in
and its column there.  Lines are not wrapped, so a visual line is a block. -/
structure QTextCursor where
  block : Nat
  column : Nat
  deriving DecidableEq, Repr

/-- `QTextCursor::atStart`: the cursor is at position 0 of the document. -/
def QTextCursor.atStart (c : QTextCursor) : Bool := c.block == 0 && c.column == 0

/-- The text of a block of the document. -/
def blockText (doc : List QString) (b : Nat) : QString := doc.getD b []

/-- What the loop "get the previous non void line" of `indentLine` ends with. -/
inductive PrevLine where
  /-- The loop left with this text in `prevLine`. -/
  | found (prevLine : QString)
  /-- The loop met the start of the document and `indentLine` returned. -/
  | atStart
  /-- The loop never ends: the cursor stays in a void first block, away
  from its first column, where `movePosition(Up)` moves nothing. -/
  | diverges
  deriving DecidableEq, Repr

/-- The `do ... while` loop of `indentLine`, for a cursor in block `b` at
column `col`.  `indentLine` runs inside the edit block that `indent` and
`indentSelection` open (`beginEditBlock`).  Inside an edit block a
`QTextCursor` computes no horizontal position for vertical moves, so
`movePosition(Up)` puts the cursor at the first column of the block above.  In
the first block the call fails and moves nothing. -/
def previousNonVoidLine (doc : List QString) : Nat → Nat → PrevLine
  | 0, col =>
    if col = 0 then PrevLine.atStart
    else if isVoid (blockText doc 0) then PrevLine.diverges
    else PrevLine.found (blockText doc 0)
  | b + 1, _ =>
    if isVoid (blockText doc b) then
      previousNonVoidLine doc b 0
    else PrevLine.found (blockText doc b)

/-- The loop `while (prevLine.startsWith(" ")) { prevLine.remove(0, 1); ++spaces; }`:
the text left and the count reached. -/
def stripSpaces : QString → Nat → QString × Nat
  | ' ' :: rest, spaces => stripSpaces rest (spaces + 1)
  | prevLine, spaces => (prevLine, spaces)

/-- The block text after the loop of `trimLine`, for a cursor at the start of
the block: `deleteChar` removes the first character as long as it is a space. -/
def trimText : QString → QString
  | ' ' :: rest => trimText rest
  | str => str

/-- `SongCodeEditor::trimLine` for a cursor at the start of block `b` (both
calls in `indentLine` have it there). -/
def trimLine (doc : List QString) (b : Nat) : List QString :=
  doc.set b (trimText (blockText doc b))

/-- The loop `for (i = 0; i < index; ++i) cursor.insertText("  ")` at the
start of a block. -/
def insertIndent : Nat → QString → QString
  | 0, text => text
  | index + 1, text => ' ' :: ' ' :: insertIndent index text

/-- The indentation level `index` that `indentLine` reaches for a line with
text `line` whose previous non void line is `prevLine`. -/
def indentIndex (prevLine line : QString) : Nat :=
  let stripped := stripSpaces prevLine 0
  let index := stripped.2 / 2
  let index := if startsWith stripped.1 "\\begin".toList then index + 1 else index
  if containsStr "\\end".toList line && index != 0 then index - 1 else index

/-- `SongCodeEditor::indentLine`; `none` stands for a call that never
returns. -/
def indentLine (doc : List QString) (cur : QTextCursor) : Option (List QString) :=
  if cur.atStart then some (trimLine doc cur.block)
  else
    match previousNonVoidLine doc cur.block cur.column with
    | PrevLine.atStart => some doc
    | PrevLine.diverges => none
    | PrevLine.found prevLine =>
      let index := indentIndex prevLine (blockText doc cur.block)
      let doc := trimLine doc cur.block
      some (doc.set cur.block (insertIndent index (blockText doc cur.block)))

/-- The loop of `indentSelection`: `it` is at the start of block `it`, the end
of the selection is in block `last` (the edits of `indentLine` move it inside
its block only, so `it <= cursor` compares the blocks).  Every round moves
`it` one block down, so `fuel` rounds are enough when `fuel` is above the
number of blocks; `none` stands for a call that does not return. -/
def indentSelectionLoop : Nat → List QString → Nat → Nat → Option (List QString)
  | 0, _, _, _ => none
  | fuel + 1, doc, it, last =>
    if it ≤ last then
      match indentLine doc { block := it, column := 0 } with
      | none => none
      | some doc1 =>
        if it + 1 < doc1.length then indentSelectionLoop fuel doc1 (it + 1) last
        else some doc1
    else some doc

/-- `SongCodeEditor::indentSelection` for a text cursor whose anchor is in
block `anchorBlock` and whose position is in block `positionBlock`. -/
def indentSelection (doc : List QString) (anchorBlock positionBlock : Nat) :
    Option (List QString) :=
  let it := min anchorBlock positionBlock
  let last := max anchorBlock positionBlock
  indentSelectionLoop (doc.length + 2) doc it last

/-! ## Song editor: environment highlighting -/

/-- Modelled from the spec: the enumeration `SongEnvironment` is declared in
`song-code-editor.hh`, which is not part of the sources at hand; the spec
names the environments verse, chorus, bridge and scripture. -/
inductive SongEnvironment where
  | Verse
  | Bridge
  | Chorus
  | Scripture
  deriving DecidableEq, Repr

/-- The background colours of extra selections. -/
inductive Background where
  | verseColor
  | bridgeColor
  | chorusColor
  | scriptureColor
  | currentLineColor
  deriving DecidableEq, Repr

/-- The cursor of `highlightEnvironments`, which starts at the start of the
document and is moved by `NextBlock` and `PreviousBlock` only: anchor and
position are starts of blocks, given by the block numbers. -/
structure BlockCursor where
  anchor : Nat
  position : Nat
  deriving DecidableEq, Repr

/-- `QTextCursor::MoveMode`. -/
inductive MoveMode where
  | MoveAnchor
  | KeepAnchor
  deriving DecidableEq, Repr

/-- `movePosition(QTextCursor::NextBlock, mode)` in a document of `n` blocks:
in the last block the call fails and the cursor is left as it is. -/
def BlockCursor.nextBlock (n : Nat) (c : BlockCursor) (mode : MoveMode) : BlockCursor :=
  if c.position + 1 < n then
    match mode with
    | MoveMode.MoveAnchor => { anchor := c.position + 1, position := c.position + 1 }
    | MoveMode.KeepAnchor => { anchor := c.anchor, position := c.position + 1 }
  else c

/-- `movePosition(QTextCursor::PreviousBlock, mode)`: in the first block the
call fails and the cursor is left as it is. -/
def BlockCursor.previousBlock (c : BlockCursor) (mode : MoveMode) : BlockCursor :=
  match c.position with
  | 0 => c
  | p + 1 =>
    match mode with
    | MoveMode.MoveAnchor => { anchor := p, position := p }
    | MoveMode.KeepAnchor => { anchor := c.anchor, position := p }

/-- A `QTextEdit::ExtraSelection`: a background and a cursor. -/
structure ExtraSelection where
  background : Background
  cursor : BlockCursor
  deriving DecidableEq, Repr

/-- `SongCodeEditor::environmentSelection`. -/
def environmentSelection (env : SongEnvironment) (cursor : BlockCursor) : ExtraSelection :=
  let backgroundColor :=
    match env with
    | SongEnvironment.Verse => Background.verseColor
    | SongEnvironment.Bridge => Background.bridgeColor
    | SongEnvironment.Chorus => Background.chorusColor
    | SongEnvironment.Scripture => Background.scriptureColor
  { background := backgroundColor, cursor := cursor }

/-- Modelled from the spec: `CodeEditor::currentLineSelection` belongs to
`code-editor.cc`, which is not part of the sources at hand; the spec has the
current cursor line receive a distinct current-line tag. -/
def currentLineSelection (textCursorBlock : Nat) : ExtraSelection :=
  { background := Background.currentLineColor,
    cursor := { anchor := textCursorBlock, position := textCursorBlock } }

/-- The blocks that a full-width extra selection paints: the block of the
cursor when nothing is selected, and otherwise every block that has a
character or its end-of-block separator inside the selected range. -/
def ExtraSelection.paints (s : ExtraSelection) (b : Nat) : Bool :=
  if s.cursor.anchor = s.cursor.position then b == s.cursor.position
  else (min s.cursor.anchor s.cursor.position ≤ b) &&
    (b < max s.cursor.anchor s.cursor.position)

/-- The local state of the loop of `highlightEnvironments`. -/
structure HighlightState where
  environment : Bool
  cursor : BlockCursor
  extraSelections : List ExtraSelection
  deriving DecidableEq, Repr

/-- One round of the `foreach` loop of `highlightEnvironments`, in a document
of `n` blocks. -/
def highlightStep (n : Nat) (st : HighlightState) (line : QString) : HighlightState :=
  let environment :=
    if containsStr "\\begin".toList line && !containsStr "repeatedchords".toList line then true
    else st.environment
  if environment && containsStr "\\end".toList line then
    let cursor := st.cursor.nextBlock n MoveMode.KeepAnchor
    let extraSelections :=
      if containsStr "verse".toList line then
        st.extraSelections ++ [environmentSelection SongEnvironment.Verse cursor]
      else if containsStr "chorus".toList line then
        st.extraSelections ++ [environmentSelection SongEnvironment.Chorus cursor]
      else if containsStr "bridge".toList line then
        st.extraSelections ++ [environmentSelection SongEnvironment.Bridge cursor]
      else if containsStr "scripture".toList line then
        st.extraSelections ++ [environmentSelection SongEnvironment.Scripture cursor]
      else st.extraSelections
    let cursor := cursor.previousBlock MoveMode.KeepAnchor
    { environment := false,
      cursor := cursor.nextBlock n MoveMode.MoveAnchor,
      extraSelections := extraSelections }
  else
    { environment := environment,
      cursor := st.cursor.nextBlock n
        (if environment then MoveMode.KeepAnchor else MoveMode.MoveAnchor),
      extraSelections := st.extraSelections }

/-- The state of `highlightEnvironments` before its loop. -/
def highlightInit : HighlightState :=
  { environment := false, cursor := { anchor := 0, position := 0 }, extraSelections := [] }

/-- The `foreach` loop of `highlightEnvironments` over some lines, in a
document of `n` blocks. -/
def highlightLoop (n : Nat) (st : HighlightState) (lines : List QString) : HighlightState :=
  lines.foldl (highlightStep n) st

/-- The character that breaks a line inside a block (U+2028). -/
def lineSeparator : Char := Char.ofNat 0x2028

/-- The replacement that `QTextDocument::toPlainText` makes for one character:
the separators of frames, blocks and lines become a line feed, the no-break
space becomes a space. -/
def toPlainChar (c : Char) : Char :=
  let n := c.toNat
  if n == 0xfdd0 || n == 0xfdd1 || n == 0x2029 || n == 0x2028 then '\n'
  else if n == 0xA0 then ' '
  else c

/-- `QPlainTextEdit::toPlainText` for a document with these blocks: the text
of the document, in which a paragraph separator stands between two blocks,
after the replacement of `toPlainChar`. -/
def toPlainText (blocks : List QString) : QString :=
  (joinSep [paragraphSeparator] blocks).map toPlainChar

/-- A character at which `toPlainText().split("\n")` ends a line. -/
def isLineBreak (c : Char) : Bool := toPlainChar c == '\n'

/-- No block holds a character at which `toPlainText().split("\n")` ends a
line, such as the line separator U+2028. -/
def oneLinePerBlock (blocks : List QString) : Bool :=
  blocks.all (fun b => b.all (fun c => !isLineBreak c))

/-- The part of a `SongCodeEditor` that highlighting reads and writes: the
texts of the blocks of the document, the block of the text cursor, the
setting `m_environmentsHighlighted` and the extra selections of the widget. -/
structure SongCodeEditor where
  blocks : List QString
  textCursorBlock : Nat
  m_environmentsHighlighted : Bool
  extraSelections : List ExtraSelection
  deriving DecidableEq, Repr

/-- The list `lines` of `highlightEnvironments`:
`toPlainText().split("\n")`. -/
def SongCodeEditor.lines (ed : SongCodeEditor) : List QString :=
  splitSep '\n' (toPlainText ed.blocks)

/-- `SongCodeEditor::highlightEnvironments`: the extra selections of the
widget after the call.  The loop runs over the lines, and its cursor moves
over the blocks of the document. -/
def highlightEnvironments (ed : SongCodeEditor) : List ExtraSelection :=
  if !ed.m_environmentsHighlighted then ed.extraSelections
  else
    (highlightLoop ed.blocks.length highlightInit ed.lines).extraSelections ++
      [currentLineSelection ed.textCursorBlock]

/-! ## Songbooks (`songbook.cc`) -/

/-- A `QVariant`, for the kinds of value that parameters and JSON values
take: no value at all, a string, an integer, a list of strings, and a map
with string members. -/
inductive QVariant where
  | invalid
  | string (s : QString)
  | int (n : Int)
  | stringList (l : List QString)
  | map (members : List (QString × QString))
  deriving DecidableEq, Repr

/-- `QVariant::toString`, for strings and values without a type. -/
def QVariant.toQString : QVariant → QString
  | QVariant.string s => s
  | _ => []

/-- `QVariant::toStringList`. -/
def QVariant.toStringList : QVariant → List QString
  | QVariant.stringList l => l
  | QVariant.string s => [s]
  | _ => []

/-- A `QJsonValue`, for the values that `CSongbook::save` writes: strings,
arrays of strings and objects with string members. -/
inductive QJsonValue where
  | Undefined
  | Null
  | String (s : QString)
  | Array (items : List QString)
  | Object (members : List (QString × QString))
  deriving DecidableEq, Repr

/-- `QJsonValue::isNull`: the type is `Null`; an undefined value is not null. -/
def QJsonValue.isNull : QJsonValue → Bool
  | QJsonValue.Null => true
  | _ => false

/-- `QJsonValue::isArray`. -/
def QJsonValue.isArray : QJsonValue → Bool
  | QJsonValue.Array _ => true
  | _ => false

/-- `QJsonValue::toString`: the empty string for a value that is no string. -/
def QJsonValue.toQString : QJsonValue → QString
  | QJsonValue.String s => s
  | _ => []

/-- `QJsonValue::toVariant`: an undefined value gives a variant of no type. -/
def QJsonValue.toVariant : QJsonValue → QVariant
  | QJsonValue.Undefined => QVariant.invalid
  | QJsonValue.Null => QVariant.invalid
  | QJsonValue.String s => QVariant.string s
  | QJsonValue.Array items => QVariant.stringList items
  | QJsonValue.Object members => QVariant.map members

/-- A `QJsonObject`: its members. -/
abbrev QJsonObject := List (QString × QJsonValue)

/-- `QJsonObject::insert`: the member replaces one of the same key. -/
def QJsonObject.insert (o : QJsonObject) (key : QString) (v : QJsonValue) : QJsonObject :=
  o.filter (fun m => m.1 != key) ++ [(key, v)]

/-- `QJsonObject::value`: an undefined value for a key that is not there. -/
def QJsonObject.value (o : QJsonObject) (key : QString) : QJsonValue :=
  match o.find? (fun m => m.1 == key) with
  | some m => m.2
  | none => QJsonValue.Undefined

/-- What a write call puts into a file: a serialised JSON document or text
of a `QTextStream`. -/
inductive Chunk where
  | json (o : QJsonObject)
  | text (t : QString)
  deriving DecidableEq, Repr

/-- A `QFile`: whether `open` succeeds on it, whether it is open, and what
has been written to it. -/
structure QFile where
  openable : Bool
  isOpen : Bool
  content : List Chunk
  deriving DecidableEq, Repr

/-- `QIODevice::write`, also at the end of a `QTextStream`: a device that is
not open takes nothing. -/
def QFile.write (f : QFile) (c : Chunk) : QFile :=
  if f.isOpen then { f with content := f.content ++ [c] } else f

/-- `QFile::close`. -/
def QFile.close (f : QFile) : QFile := { f with isOpen := false }

/-- `QFile::open(QIODevice::WriteOnly | QIODevice::Text)` where it succeeds:
the file is emptied. -/
def QFile.openWriteOnly (f : QFile) : QFile := { f with isOpen := true, content := [] }

/-- `QJsonDocument::fromJson(file.readAll()).object()`: the object of a file
that holds one JSON document, the empty object for anything else. -/
def QFile.readObject (f : QFile) : QJsonObject :=
  match f.content with
  | [Chunk.json o] => o
  | _ => []

/-- The types of template parameters, as `changeTemplate` assigns them. -/
inductive PropertyType where
  | String
  | Color
  | Int
  | Enum
  | Flag
  | FilePath
  | Unit
  deriving DecidableEq, Repr

/-- A `QtVariantProperty` with what its manager keeps for it: the type, the
value and the attribute `enumNames` or `flagNames`. -/
structure QtVariantProperty where
  propertyType : PropertyType
  value : QVariant
  names : List QString
  deriving DecidableEq, Repr

/-- The effect of `setValue` on a property: the property manager belongs to
`variant-manager.cc` and the property browser library, which are not part of
the sources at hand.  A variant of no type is ignored there
(`if (!propType) return;`); other conversions are not represented and the
value is stored as given. -/
def QtVariantProperty.setValue (p : QtVariantProperty) (v : QVariant) : QtVariantProperty :=
  match v with
  | QVariant.invalid => p
  | _ => { p with value := v }

/-- The part of the library singleton `CLibrary::instance()` that a songbook
reads: the directory, the templates and the relative path of every row. -/
structure CLibrary where
  directory : QString
  templates : List QString
  relativePaths : List QString
  deriving DecidableEq, Repr

/-- The data members of `CSongbook`; `m_parameters` is the parameter map in
the order of its keys. -/
structure CSongbook where
  m_filename : QString
  m_tmpl : QString
  m_selectedSongs : List Bool
  m_songs : List QString
  m_modified : Bool
  m_parameters : List (QString × QtVariantProperty)
  deriving DecidableEq, Repr

/-- `QString::endsWith`. -/
def endsWith (s pat : QString) : Bool := startsWith s.reverse pat.reverse

/-- `CSongbook::setFilename`. -/
def CSongbook.setFilename (sb : CSongbook) (filename : QString) : CSongbook :=
  if !endsWith filename ".sb".toList then { sb with m_filename := filename ++ ".sb".toList }
  else { sb with m_filename := filename }

/-- `CSongbook::setModified`. -/
def CSongbook.setModified (sb : CSongbook) (modified : Bool) : CSongbook :=
  { sb with m_modified := modified }

/-- `CSongbook::reset`. -/
def CSongbook.reset (sb : CSongbook) : CSongbook :=
  let sb := sb.setFilename []
  let parameters :=
    sb.m_parameters.map
      (fun (kv : QString × QtVariantProperty) => (kv.1, kv.2.setValue (QVariant.string [])))
  let sb := { sb with m_parameters := parameters }
  sb.setModified false

/-- `CSongbook::setTmpl`; `changeTemplate` reads a template file and runs a
script engine, and is taken as given. -/
def CSongbook.setTmpl (lib : CLibrary) (changeTemplate : CSongbook → QString → CSongbook)
    (sb : CSongbook) (tmpl : QString) : CSongbook :=
  if sb.m_tmpl ≠ tmpl ∧ tmpl ∈ lib.templates then
    (changeTemplate { sb with m_tmpl := tmpl } tmpl).setModified true
  else sb

/-- `CSongbook::setSongs`. -/
def CSongbook.setSongs (sb : CSongbook) (songs : List QString) : CSongbook :=
  if sb.m_songs ≠ songs then { sb.setModified true with m_songs := songs } else sb

/-- `CSongbook::uncheckAll`. -/
def CSongbook.uncheckAll (sb : CSongbook) : CSongbook :=
  { sb with m_selectedSongs := sb.m_selectedSongs.map (fun _ => false) }

/-- `CSongbook::songsFromSelection`: the relative paths of the checked rows;
a row without data has the empty path. -/
def CSongbook.songsFromSelection (lib : CLibrary) (sb : CSongbook) : CSongbook :=
  let songs :=
    ((List.range sb.m_selectedSongs.length).filter
      (fun i => sb.m_selectedSongs.getD i false)).map
      (fun i => lib.relativePaths.getD i [])
  { sb with m_songs := songs }

/-- `CSongbook::songsToSelection`; a row without data has the empty path. -/
def CSongbook.songsToSelection (lib : CLibrary) (sb : CSongbook) : CSongbook :=
  let sb := if sb.m_songs.isEmpty then sb.uncheckAll else sb
  let selected :=
    (List.range sb.m_selectedSongs.length).map
      (fun i => sb.m_songs.contains (lib.relativePaths.getD i []))
  { sb with m_selectedSongs := selected }

/-- The JSON document that `CSongbook::save` builds. -/
def CSongbook.saveJson (lib : CLibrary) (sb : CSongbook) : QJsonObject :=
  let json : QJsonObject := []
  let json :=
    if !sb.m_tmpl.isEmpty then json.insert "template".toList (QJsonValue.String sb.m_tmpl)
    else json.insert "template".toList (QJsonValue.String "default.tex".toList)
  let json := json.insert "lang".toList (QJsonValue.String "french".toList)
  let bookoptions := ["diagram".toList, "lilypond".toList, "pictures".toList]
  let json := json.insert "bookoptions".toList (QJsonValue.Array bookoptions)
  let authwords := [("sep".toList, [])]
  let json := json.insert "authwords".toList (QJsonValue.Object authwords)
  let json := json.insert "datadir".toList (QJsonValue.String lib.directory)
  json.insert "content".toList (QJsonValue.Array sb.m_songs)

/-- `CSongbook::save`.  `oldSystem sb` stands for the pieces of text that the
part after `file.close()` streams to the file, parameter values among them. -/
def CSongbook.save (lib : CLibrary) (oldSystem : CSongbook → List QString)
    (sb : CSongbook) (filename : QString) (file : QFile) : CSongbook × QFile :=
  let sb := sb.songsFromSelection lib
  if file.openable then
    let file := file.openWriteOnly
    let file := file.write (Chunk.json (sb.saveJson lib))
    let file := file.close
    let sb := sb.setModified false
    let sb := sb.setFilename filename
    let file := (oldSystem sb).foldl (fun f t => f.write (Chunk.text t)) file
    (sb, file)
  else (sb, file)

/-- `QStringList::indexOf`: -1 for a string that is not in the list. -/
def indexOf (l : List QString) (x : QString) : Int :=
  match l.indexOf? x with
  | some i => i
  | none => -1

/-- The loop of the flag branch of `CSongbook::load`: the bit mask of the
names of `flagValues` that are among `activatedFlags`. -/
def loadFlags (activatedFlags : List QString) : List QString → Nat → Nat → Nat
  | [], flags, _ => flags
  | name :: rest, flags, index =>
    loadFlags activatedFlags rest
      (if activatedFlags.contains name then flags ||| index else flags) (index * 2)

/-- The body of the loop of `CSongbook::load` over the parameters, for one
parameter. -/
def loadParameter (json : QJsonObject) (kv : QString × QtVariantProperty) :
    QString × QtVariantProperty :=
  let jsonvalue := json.value kv.1
  if !jsonvalue.isNull then
    let value := jsonvalue.toVariant
    let value :=
      match kv.2.propertyType with
      | PropertyType.Enum => QVariant.int (indexOf kv.2.names value.toQString)
      | PropertyType.Flag => QVariant.int (loadFlags value.toStringList kv.2.names 0 1)
      | _ => value
    (kv.1, kv.2.setValue value)
  else kv

/-- `CSongbook::load`. -/
def CSongbook.load (lib : CLibrary) (changeTemplate : CSongbook → QString → CSongbook)
    (sb : CSongbook) (filename : QString) (file : QFile) : CSongbook :=
  if file.openable then
    let json := file.readObject
    let sb :=
      if !json.isEmpty then
        let jsonvalue := json.value "template".toList
        let sb := if !jsonvalue.isNull then sb.setTmpl lib changeTemplate jsonvalue.toQString else sb
        let sb := { sb with m_parameters := sb.m_parameters.map (loadParameter json) }
        let jsonvalue := json.value "content".toList
        if !jsonvalue.isNull then
          let items :=
            match jsonvalue with
            | QJsonValue.Array l => l
            | _ => []
          sb.setSongs items
        else sb
      else sb
    let sb := sb.songsToSelection lib
    let sb := sb.setModified false
    sb.setFilename filename
  else sb

/-- The text that `indentLine` leaves in block `b` when its cursor is at the
start of that block. -/
def indentedText (doc : List QString) (b : Nat) : QString :=
  if b = 0 then trimText (blockText doc 0)
  else
    match previousNonVoidLine doc b 0 with
    | PrevLine.found prevLine =>
      insertIndent (indentIndex prevLine (blockText doc b)) (trimText (blockText doc b))
    | _ => blockText doc b

/-- The environment whose colour `highlightEnvironments` uses when it closes
an environment on `line`: the first of the keywords verse, chorus, bridge and
scripture that the line contains, as the chain of tests has it. -/
def closingEnvironment (line : QString) : Option SongEnvironment :=
  if containsStr "verse".toList line then some SongEnvironment.Verse
  else if containsStr "chorus".toList line then some SongEnvironment.Chorus
  else if containsStr "bridge".toList line then some SongEnvironment.Bridge
  else if containsStr "scripture".toList line then some SongEnvironment.Scripture
  else none

/-- The test of `highlightEnvironments` that opens an environment on `line`. -/
def opensEnvironment (line : QString) : Bool :=
  containsStr "\\begin".toList line && !containsStr "repeatedchords".toList line

/-- What holds of the loop state of `highlightEnvironments` before the round
for block `k`, when block `k` exists and is not past the end. -/
def HighlightInv (k : Nat) (st : HighlightState) : Prop :=
  st.cursor.position = k ∧ st.cursor.anchor ≤ k ∧
    (st.environment = false → st.cursor.anchor = k) ∧
    ∀ s ∈ st.extraSelections, s.cursor.anchor < s.cursor.position ∧ s.cursor.position ≤ k ∧
      s.background ≠ Background.currentLineColor

/-- A regular expression that begins with the head `\\[ug]tab[\*]?\{`: it
matches nowhere that the head does not match. -/
def Headed (re : QString → Option QString) : Prop :=
  ∀ s, matchTabOpen s = none → re s = none

/-- The first brace of a text, opening or closing. -/
def firstBrace (s : QString) : Option Char :=
  s.find? (fun ch => ch == '{' || ch == '}')

/-- The fret and the colon behind it, as `toString` writes them. -/
def fretPart (fret : QString) : QString :=
  if !fret.isEmpty then fret ++ [':'] else fret

/-! ## Songbook selection (`songbook.cc`) -/

/-- A `QModelIndex`: row and column. -/
structure QModelIndex where
  row : Nat
  column : Nat
  deriving DecidableEq, Repr

/-- `CSongbook::isChecked`, for a row of the selection array. -/
def CSongbook.isChecked (sb : CSongbook) (index : QModelIndex) : Bool :=
  sb.m_selectedSongs.getD index.row false

/-- `CSongbook::setChecked`, for a row of the selection array. -/
def CSongbook.setChecked (sb : CSongbook) (index : QModelIndex) (checked : Bool) : CSongbook :=
  if sb.isChecked index != checked then
    { sb with m_selectedSongs := sb.m_selectedSongs.set index.row checked }
  else sb

/-- `CSongbook::toggle`, for a row of the selection array. -/
def CSongbook.toggle (sb : CSongbook) (index : QModelIndex) : CSongbook :=
  { sb with m_selectedSongs :=
      sb.m_selectedSongs.set index.row (!sb.m_selectedSongs.getD index.row false) }

/-- The loop of `CSongbook::checkAll`. -/
def checkAllFrom : List Bool → List Bool
  | [] => []
  | _ :: rest => true :: checkAllFrom rest

/-- `CSongbook::checkAll`. -/
def CSongbook.checkAll (sb : CSongbook) : CSongbook :=
  { sb with m_selectedSongs := checkAllFrom sb.m_selectedSongs }

/-- The loop of `CSongbook::toggleAll`. -/
def toggleAllFrom : List Bool → List Bool
  | [] => []
  | b :: rest => (!b) :: toggleAllFrom rest

/-- `CSongbook::toggleAll`. -/
def CSongbook.toggleAll (sb : CSongbook) : CSongbook :=
  { sb with m_selectedSongs := toggleAllFrom sb.m_selectedSongs }

/-- `CSongbook::selectLanguages`; `rowLanguages` holds the data of the rows
for `CLibrary::LanguageRole`, a row without data has the empty language. -/
def CSongbook.selectLanguages (rowLanguages : List QString) (sb : CSongbook)
    (languages : List QString) : CSongbook :=
  let selected :=
    (List.range sb.m_selectedSongs.length).map
      (fun i => languages.contains (rowLanguages.getD i []))
  { sb with m_selectedSongs := selected }

/-- `CSongbook::setData`: for column 0 and the role `Qt::CheckStateRole` the
row of the selection array is set; any other call goes to the base class and
leaves the songbook as it is. -/
def CSongbook.setData (sb : CSongbook) (index : QModelIndex) (value : Bool)
    (checkStateRole : Bool) : CSongbook :=
  if index.column == 0 && checkStateRole then
    { sb with m_selectedSongs := sb.m_selectedSongs.set index.row value }
  else sb

/-- `CSongbook::sourceModelAboutToBeReset`. -/
def CSongbook.sourceModelAboutToBeReset (lib : CLibrary) (sb : CSongbook) : CSongbook :=
  sb.songsFromSelection lib

/-- The loop of `CSongbook::sourceModelReset` that appends `false` for every
row of the source model. -/
def appendFalse : Nat → List Bool → List Bool
  | 0, selected => selected
  | rows + 1, selected => appendFalse rows (selected ++ [false])

/-- `CSongbook::sourceModelReset`, with `lib` the library after its reset:
its row count is the number of its songs. -/
def CSongbook.sourceModelReset (lib : CLibrary) (sb : CSongbook) : CSongbook :=
  let cleared := { sb with m_selectedSongs := appendFalse lib.relativePaths.length [] }
  cleared.songsToSelection lib

/-- The selection operations of a songbook, with their arguments. -/
inductive SelectionOp where
  | setChecked (index : QModelIndex) (checked : Bool)
  | toggle (index : QModelIndex)
  | checkAll
  | uncheckAll
  | toggleAll
  | selectLanguages (rowLanguages languages : List QString)
  | songsToSelection
  | setData (index : QModelIndex) (value checkStateRole : Bool)
  deriving DecidableEq, Repr

/-- One selection operation on a songbook over the library `lib`. -/
def SelectionOp.apply (lib : CLibrary) (sb : CSongbook) : SelectionOp → CSongbook
  | SelectionOp.setChecked index checked => sb.setChecked index checked
  | SelectionOp.toggle index => sb.toggle index
  | SelectionOp.checkAll => sb.checkAll
  | SelectionOp.uncheckAll => sb.uncheckAll
  | SelectionOp.toggleAll => sb.toggleAll
  | SelectionOp.selectLanguages rowLanguages languages => sb.selectLanguages rowLanguages languages
  | SelectionOp.songsToSelection => sb.songsToSelection lib
  | SelectionOp.setData index value checkStateRole => sb.setData index value checkStateRole

/-! ## Template parameters (`CSongbook::changeTemplate`) -/

/-- One element of the array that the script engine makes of the schema
text, as `changeTemplate` reads it: the properties name, description, type,
default, values and mandatory. -/
structure ScriptParameter where
  /-- The text of `property("name")`. -/
  name : QString
  /-- The text of `property("description")`. -/
  description : QString
  /-- The text of `property("type")`. -/
  type : QString
  /-- The value of `property("default").toVariant()`, without a type when
  the property is not valid. -/
  defaultValue : QVariant
  /-- The sequence that `qScriptValueToSequence` makes of the default. -/
  defaultSequence : List QString
  /-- The sequence that `qScriptValueToSequence` makes of `property("values")`. -/
  values : List QString
  /-- The test `svMandatory.isValid() && svMandatory.toBool()`. -/
  mandatory : Bool
  deriving DecidableEq, Repr

/-- What `changeTemplate` takes from outside of the songbook: the lines of
the template files that can be opened, the syntax check and the evaluation of
the script engine (an array of parameters, or nothing when the value is not a
valid array), and the value that the property manager gives a new property. -/
structure TemplateEnv where
  templateLines : QString → Option (List QString)
  checkSyntax : QString → Bool
  evaluate : QString → Option (List ScriptParameter)
  initialValue : PropertyType → QVariant

/-- An entry of `m_mandatoryParameters`: a parameter, by its name, or the
group "Advanced Parameters" with the names of its sub properties. -/
inductive PropertyItem where
  | parameter (name : QString)
  | advancedParameters (subProperties : List QString)
  deriving DecidableEq, Repr

/-- The data members of `CSongbook` that `changeTemplate` reads and writes. -/
structure TemplateParameters where
  m_parameters : List (QString × QtVariantProperty)
  m_mandatoryParameters : List PropertyItem
  m_advancedParameters : List QString
  deriving DecidableEq, Repr

/-- The schema text that `changeTemplate` collects from the lines of the
template file: the lines that start with `%%:`, without this marker and each
with a line feed behind it, between parentheses. -/
def schemaText (lines : List QString) : QString :=
  "(".toList ++
    ((lines.filter (fun line => startsWith line "%%:".toList)).map
      (fun line => line.drop 3 ++ ['\n'])).flatten ++ ")".toList

/-- The order of the keys of a `QMap` with `QString` keys. -/
def keyLess : QString → QString → Bool
  | [], [] => false
  | [], _ :: _ => true
  | _ :: _, [] => false
  | a :: s, b :: t => a.toNat < b.toNat || (a == b && keyLess s t)

/-- `QMap::insert`: the value takes the place of one with the same key, and
the keys stay in order. -/
def mapInsert (key : QString) (item : QtVariantProperty) :
    List (QString × QtVariantProperty) → List (QString × QtVariantProperty)
  | [] => [(key, item)]
  | (k, v) :: rest =>
    if k == key then (key, item) :: rest
    else if keyLess key k then (key, item) :: (k, v) :: rest
    else (k, v) :: mapInsert key item rest

/-- The chain of tests "determine property type" of `changeTemplate`. -/
def propertyTypeOf (type : QString) : PropertyType :=
  if type == "string".toList then PropertyType.String
  else if type == "color".toList then PropertyType.Color
  else if type == "enum".toList then PropertyType.Enum
  else if type == "flag".toList then PropertyType.Flag
  else if type == "font".toList then PropertyType.Unit
  else if type == "file".toList then PropertyType.FilePath
  else PropertyType.String

/-- The local state of the loop of `changeTemplate` over the parameters. -/
structure TemplateLoop where
  parameters : TemplateParameters
  advancedParameters : Bool
  deriving DecidableEq, Repr

/-- One round of the loop of `changeTemplate` over the parameters of the
schema; `oldValues` holds the values that the parameters had before. -/
def changeTemplateStep (env : TemplateEnv) (oldValues : List (QString × QVariant))
    (st : TemplateLoop) (sv : ScriptParameter) : TemplateLoop :=
  if ["name".toList, "template".toList, "content".toList].contains sv.name then st
  else
    let propertyType := propertyTypeOf sv.type
    let item : QtVariantProperty :=
      { propertyType := propertyType, value := env.initialValue propertyType, names := [] }
    let oldValue : QVariant :=
      match oldValues.find? (fun kv => kv.1 == sv.name) with
      | some kv => kv.2
      | none => sv.defaultValue
    let item : QtVariantProperty :=
      match propertyType with
      | PropertyType.Enum => { item with names := sv.values }
      | PropertyType.Flag => { item with names := sv.values }
      | _ => item
    let oldValue : QVariant :=
      match propertyType, oldValue with
      | PropertyType.Enum, QVariant.string s => QVariant.int (indexOf sv.values s)
      | PropertyType.Flag, QVariant.stringList _ =>
        QVariant.int (loadFlags sv.defaultSequence sv.values 0 1)
      | _, v => v
    let item := item.setValue oldValue
    let parameters := mapInsert sv.name item st.parameters.m_parameters
    if sv.mandatory then
      { st with parameters :=
          { st.parameters with
            m_parameters := parameters,
            m_mandatoryParameters :=
              st.parameters.m_mandatoryParameters ++ [PropertyItem.parameter sv.name] } }
    else
      { parameters :=
          { st.parameters with
            m_parameters := parameters,
            m_advancedParameters := st.parameters.m_advancedParameters ++ [sv.name] },
        advancedParameters := true }

/-- `CSongbook::changeTemplate`, on the members that it reads and writes. -/
def changeTemplate (env : TemplateEnv) (sb : TemplateParameters) (filename : QString) :
    TemplateParameters :=
  let templateFilename := if !filename.isEmpty then filename else "patacrep.tmpl".toList
  let json : QString :=
    match env.templateLines templateFilename with
    | some lines => schemaText lines
    | none => []
  if !env.checkSyntax json then sb
  else
    match env.evaluate json with
    | none => sb
    | some parameters =>
      let oldValues := sb.m_parameters.map (fun kv => (kv.1, kv.2.value))
      let start : TemplateLoop :=
        { parameters :=
            { m_parameters := [], m_mandatoryParameters := [], m_advancedParameters := [] },
          advancedParameters := false }
      let st := parameters.foldl (changeTemplateStep env oldValues) start
      if st.advancedParameters then
        { st.parameters with
          m_mandatoryParameters :=
            st.parameters.m_mandatoryParameters ++
              [PropertyItem.advancedParameters st.parameters.m_advancedParameters] }
      else st.parameters

/-! ## Song editor: completion (`song-code-editor.cc`) -/

/-- A `QTextCursor` as the completion code sees it: anchor and position are
character positions of the document, whose blocks are separated by the
paragraph separator. -/
structure TextCursor where
  anchor : Nat
  position : Nat
  deriving DecidableEq, Repr

/-- `QTextDocument::characterAt`: the null character outside of the text. -/
def characterAt (doc : QString) (pos : Nat) : Char := doc.getD pos (Char.ofNat 0)

/-- `QTextCursor::atBlockStart` for a cursor at `pos`. -/
def atBlockStart (doc : QString) : Nat → Bool
  | 0 => true
  | pos + 1 => characterAt doc pos == paragraphSeparator

/-- The set `delimiters` of `textUnderCursor`. -/
def isDelimiter (ch : Char) : Bool :=
  ch == ',' || ch == '!' || ch == '?' || ch == '.' || ch == ';' || ch == '{' || ch == '}'

/-- The loop of `textUnderCursor` for a cursor whose position is the
argument: the position that the cursor has when the loop is left.
`movePosition(Left, KeepAnchor)` moves the position one character back. -/
def textUnderCursorLoop (doc : QString) : Nat → Nat
  | 0 => 0
  | pos + 1 =>
    let ch := characterAt doc pos
    if isSpace ch || isDelimiter ch then pos + 1
    else if atBlockStart doc (pos + 1) then pos + 1
    else textUnderCursorLoop doc pos

/-- `QTextCursor::selectedText`: the text between anchor and position. -/
def selectedText (doc : QString) (tc : TextCursor) : QString :=
  (doc.drop (min tc.anchor tc.position)).take
    (max tc.anchor tc.position - min tc.anchor tc.position)

/-- `QString::trimmed`: without white space at the start and at the end. -/
def trimmed (s : QString) : QString :=
  ((s.dropWhile isSpace).reverse.dropWhile isSpace).reverse

/-- `SongCodeEditor::textUnderCursor` for the text cursor `tc`; the call
`tc.anchor()` reads the anchor and changes nothing. -/
def textUnderCursor (doc : QString) (tc : TextCursor) : QString :=
  if atBlockStart doc tc.position then []
  else
    trimmed (selectedText doc
      { anchor := tc.anchor, position := textUnderCursorLoop doc tc.position })

/-- `QString::right(n)`: the `n` last characters, and the whole string when
`n` is negative or not below the size. -/
def right (s : QString) (n : Int) : QString :=
  if n < 0 ∨ (s.length : Int) ≤ n then s else s.drop (s.length - n.toNat)

/-- `QTextCursor::insertText`: the selected text is removed, the text is put
at its place and the cursor stands behind it, without a selection. -/
def insertText (doc : QString) (tc : TextCursor) (text : QString) : QString × TextCursor :=
  let first := min tc.anchor tc.position
  let last := max tc.anchor tc.position
  (doc.take first ++ text ++ doc.drop last,
    { anchor := first + text.length, position := first + text.length })

/-- The text that `insertCompletion` hands to `insertText`. -/
def completionText (completion completionPrefix : QString) : QString :=
  let extra : Int := (completion.length : Int) - (completionPrefix.length : Int)
  right completion extra

/-- `SongCodeEditor::insertCompletion`: the document and the text cursor
after the call, with `completionPrefix` the prefix of the completer. -/
def insertCompletion (doc : QString) (tc : TextCursor) (completionPrefix completion : QString) :
    QString × TextCursor :=
  insertText doc tc (completionText completion completionPrefix)

/-- The number of space characters at the head of a line. -/
def leadingSpaces (line : QString) : Nat := (stripSpaces line 0).2

/-! ## Song editor: indentation of the whole document -/

/-- The text as `QTextCursor::insertText` lays it into the document: at a
line feed a new block starts. -/
def lineFeedsToBlocks (text : QString) : QString :=
  text.map (fun c => if c == '\n' then paragraphSeparator else c)

/-- The list `commentedSelection` that `commentSelection` builds from the
selected text. -/
def commentedSelection (selection : QString) : List QString :=
  (splitSep paragraphSeparator selection).map (fun line => '%' :: line)

/-- `SongCodeEditor::commentSelection`: the document and the text cursor after
the call. -/
def commentSelection (doc : QString) (tc : TextCursor) : QString × TextCursor :=
  insertText doc tc
    (lineFeedsToBlocks (joinSep "\n".toList (commentedSelection (selectedText doc tc))))

/-- The list `uncommentedSelection` that `uncommentSelection` builds from the
selected text; `remove(0, 1)` takes the first character away. -/
def uncommentedSelection (selection : QString) : List QString :=
  (splitSep paragraphSeparator selection).map (fun line =>
    if startsWith (trimmed line) "%".toList then (trimmed line).drop 1 else line)

/-- `SongCodeEditor::uncommentSelection`: the document and the text cursor
after the call. -/
def uncommentSelection (doc : QString) (tc : TextCursor) : QString × TextCursor :=
  insertText doc tc
    (lineFeedsToBlocks (joinSep "\n".toList (uncommentedSelection (selectedText doc tc))))

/-- A line without the white space at its end. -/
def withoutTrailingSpace (line : QString) : QString :=
  (line.reverse.dropWhile isSpace).reverse

/-- The last character of the line is white space. -/
def endsWithSpace (line : QString) : Bool :=
  match line.getLast? with
  | some c => isSpace c
  | none => false

/-! ## Songbook: flag parameters (`songbook.cc`) -/

/-- The loop of the flag branch of `CSongbook::save`: the names of `flagValues`
whose bit is set in `flags`; `index` is the bit of the first name. -/
def saveFlags : List QString → Nat → Nat → List QString
  | [], _, _ => []
  | name :: rest, flags, index =>
    if flags &&& index != 0 then name :: saveFlags rest flags (index * 2)
    else saveFlags rest flags (index * 2)

/-! ## Theorems -/

/-! ### Splitting and joining texts -/

theorem splitSep_ne_nil (sep : Char) (s : QString) : splitSep sep s ≠ [] := by
  induction s with
  | nil => simp [splitSep]
  | cons c cs ih =>
    simp only [splitSep]
    split
    · simp
    · split <;> simp

theorem splitSep_cons_eq (sep : Char) (cs : QString) :
    splitSep sep (sep :: cs) = [] :: splitSep sep cs := by
  simp [splitSep]

theorem splitSep_cons_ne (sep c : Char) (cs : QString) (h : c ≠ sep) :
    ∃ part parts, splitSep sep cs = part :: parts ∧
      splitSep sep (c :: cs) = (c :: part) :: parts := by
  cases hs : splitSep sep cs with
  | nil => exact absurd hs (splitSep_ne_nil sep cs)
  | cons part parts =>
    refine ⟨part, parts, rfl, ?_⟩
    simp [splitSep, h, hs]

theorem mem_splitSep (sep : Char) (s : QString) : ∀ l ∈ splitSep sep s, sep ∉ l := by
  induction s with
  | nil => intro l hl; simp [splitSep] at hl; subst hl; simp
  | cons c cs ih =>
    intro l hl
    by_cases hc : c = sep
    · subst hc
      rw [splitSep_cons_eq] at hl
      rcases List.mem_cons.1 hl with hl | hl
      · subst hl; simp
      · exact ih l hl
    · obtain ⟨part, parts, h1, h2⟩ := splitSep_cons_ne sep c cs hc
      rw [h2] at hl
      rw [h1] at ih
      rcases List.mem_cons.1 hl with hl | hl
      · subst hl
        intro hm
        rcases List.mem_cons.1 hm with hm | hm
        · exact hc hm.symm
        · exact ih part (List.mem_cons_self _ _) hm
      · exact ih l (List.mem_cons_of_mem _ hl)

theorem joinSep_cons_cons (sep part next : QString) (parts : List QString) :
    joinSep sep (part :: next :: parts) = part ++ sep ++ joinSep sep (next :: parts) := rfl

theorem joinSep_splitSep (sep : Char) (s : QString) : joinSep [sep] (splitSep sep s) = s := by
  induction s with
  | nil => rfl
  | cons c cs ih =>
    by_cases hc : c = sep
    · subst hc
      rw [splitSep_cons_eq]
      cases hs : splitSep c cs with
      | nil => exact absurd hs (splitSep_ne_nil c cs)
      | cons part parts =>
        rw [joinSep_cons_cons, ← hs, ih]; rfl
    · obtain ⟨part, parts, h1, h2⟩ := splitSep_cons_ne sep c cs hc
      rw [h2]
      rw [h1] at ih
      cases parts with
      | nil =>
        have : part = cs := ih
        rw [this]; rfl
      | cons q qs =>
        rw [joinSep_cons_cons] at ih ⊢
        rw [← ih]; simp

theorem splitSep_of_not_mem (sep : Char) (l : QString) (h : sep ∉ l) : splitSep sep l = [l] := by
  induction l with
  | nil => rfl
  | cons c l ih =>
    have hc : c ≠ sep := fun e => h (by rw [e]; exact List.mem_cons_self _ _)
    have hl : sep ∉ l := fun e => h (List.mem_cons_of_mem _ e)
    simp [splitSep, hc, ih hl]

theorem splitSep_append_sep (sep : Char) (l rest : QString) (h : sep ∉ l) :
    splitSep sep (l ++ sep :: rest) = l :: splitSep sep rest := by
  induction l with
  | nil => exact splitSep_cons_eq sep rest
  | cons c l ih =>
    have hc : c ≠ sep := fun e => h (by rw [e]; exact List.mem_cons_self _ _)
    have hl : sep ∉ l := fun e => h (List.mem_cons_of_mem _ e)
    simp [splitSep, hc, ih hl]

theorem splitSep_joinSep (sep : Char) (ls : List QString) (hne : ls ≠ [])
    (h : ∀ l ∈ ls, sep ∉ l) : splitSep sep (joinSep [sep] ls) = ls := by
  induction ls with
  | nil => exact absurd rfl hne
  | cons l rest ih =>
    cases rest with
    | nil => exact splitSep_of_not_mem sep l (h l (List.mem_cons_self _ _))
    | cons next parts =>
      rw [joinSep_cons_cons, List.append_assoc, List.singleton_append,
        splitSep_append_sep sep l _ (h l (List.mem_cons_self _ _)),
        ih (by simp) (fun x hx => h x (List.mem_cons_of_mem _ hx))]


/-! ### Indentation -/

theorem blockText_set_eq (doc : List QString) (b : Nat) (x : QString) (h : b < doc.length) :
    blockText (doc.set b x) b = x := by
  simp [blockText, List.getD_eq_getElem?_getD, h]

theorem blockText_set_ne (doc : List QString) (b k : Nat) (x : QString) (h : b ≠ k) :
    blockText (doc.set b x) k = blockText doc k := by
  simp [blockText, List.getD_eq_getElem?_getD, List.getElem?_set_ne h]

theorem set_blockText_self (doc : List QString) (b : Nat) :
    doc.set b (blockText doc b) = doc := by
  induction doc generalizing b with
  | nil => rfl
  | cons a l ih =>
    cases b with
    | zero => rfl
    | succ b => simp only [List.set_cons_succ]; congr 1; exact ih b

theorem set_of_length_le (doc : List QString) (b : Nat) (x : QString) (h : doc.length ≤ b) :
    doc.set b x = doc := by
  induction doc generalizing b with
  | nil => rfl
  | cons a l ih =>
    cases b with
    | zero => simp at h
    | succ b => simp only [List.set_cons_succ]; congr 1; exact ih b (by simpa using h)

theorem previousNonVoidLine_zero_col (doc : List QString) (b : Nat) :
    previousNonVoidLine doc b 0 ≠ PrevLine.diverges := by
  induction b with
  | zero => simp [previousNonVoidLine]
  | succ b ih =>
    simp only [previousNonVoidLine]
    split
    · simpa using ih
    · simp

theorem previousNonVoidLine_congr (doc doc1 : List QString) (b : Nat)
    (h : ∀ k, k < b → blockText doc1 k = blockText doc k) :
    previousNonVoidLine doc1 b 0 = previousNonVoidLine doc b 0 := by
  induction b with
  | zero => simp [previousNonVoidLine]
  | succ b ih =>
    simp only [previousNonVoidLine, h b (Nat.lt_succ_self b), Nat.zero_min]
    rw [ih (fun k hk => h k (Nat.lt_succ_of_lt hk))]

theorem previousNonVoidLine_found (doc : List QString) (b j : Nat) (hj : j < b)
    (hnv : isVoid (blockText doc j) = false)
    (hvoid : ∀ k, j < k → k < b → isVoid (blockText doc k) = true) (col : Nat) :
    previousNonVoidLine doc b col = PrevLine.found (blockText doc j) := by
  induction b generalizing col with
  | zero => omega
  | succ b ih =>
    simp only [previousNonVoidLine]
    by_cases hjb : j = b
    · subst hjb; simp [hnv]
    · have hlt : j < b := by omega
      rw [if_pos (hvoid b hlt (Nat.lt_succ_self b))]
      exact ih hlt (fun k h1 h2 => hvoid k h1 (Nat.lt_succ_of_lt h2)) _

theorem trimText_eq_dropWhile (s : QString) : trimText s = s.dropWhile (fun c => c == ' ') := by
  induction s with
  | nil => rfl
  | cons c s ih =>
    by_cases hc : c = ' '
    · subst hc; simp [trimText, ih]
    · have : trimText (c :: s) = c :: s := by
        unfold trimText
        split
        · rename_i h; simp at h; exact absurd h.1 hc
        · rfl
      simp [this, List.dropWhile_cons, hc]

theorem indentLine_at_block_start (doc : List QString) (b : Nat) :
    indentLine doc { block := b, column := 0 } = some (doc.set b (indentedText doc b)) := by
  cases b with
  | zero => simp [indentLine, QTextCursor.atStart, trimLine, indentedText]
  | succ b =>
    have hd := previousNonVoidLine_zero_col doc (b + 1)
    simp only [indentLine, QTextCursor.atStart, indentedText]
    cases hp : previousNonVoidLine doc (b + 1) 0 with
    | diverges => exact absurd hp hd
    | atStart => simp [set_blockText_self]
    | found p =>
      simp only [trimLine]
      by_cases hlen : b + 1 < doc.length
      · simp [blockText_set_eq doc (b + 1) _ hlen]
      · have hle : doc.length ≤ b + 1 := by omega
        simp [set_of_length_le doc (b + 1) _ hle]

theorem containsStr_space_cons (s : QString) :
    containsStr "\\end".toList (' ' :: s) = containsStr "\\end".toList s := by
  simp [containsStr, startsWith]

theorem containsStr_trimText (s : QString) :
    containsStr "\\end".toList (trimText s) = containsStr "\\end".toList s := by
  induction s with
  | nil => rfl
  | cons c s ih =>
    by_cases hc : c = ' '
    · subst hc
      rw [containsStr_space_cons]
      simpa [trimText] using ih
    · have : trimText (c :: s) = c :: s := by
        rw [trimText_eq_dropWhile]; simp [List.dropWhile_cons, hc]
      rw [this]

theorem containsStr_insertIndent (n : Nat) (s : QString) :
    containsStr "\\end".toList (insertIndent n s) = containsStr "\\end".toList s := by
  induction n with
  | zero => rfl
  | succ n ih => simp only [insertIndent, containsStr_space_cons, ih]

theorem trimText_insertIndent (n : Nat) (s : QString) :
    trimText (insertIndent n s) = trimText s := by
  induction n with
  | zero => rfl
  | succ n ih => simp only [insertIndent, trimText, ih]

theorem trimText_trimText (s : QString) : trimText (trimText s) = trimText s := by
  induction s with
  | nil => rfl
  | cons c s ih =>
    by_cases hc : c = ' '
    · subst hc; simpa [trimText] using ih
    · have : trimText (c :: s) = c :: s := by
        rw [trimText_eq_dropWhile]; simp [List.dropWhile_cons, hc]
      rw [this, this]

theorem indentIndex_congr (p s t : QString)
    (h : containsStr "\\end".toList s = containsStr "\\end".toList t) :
    indentIndex p s = indentIndex p t := by
  simp only [indentIndex, h]

theorem indentedText_congr (doc doc1 : List QString) (b : Nat)
    (h : ∀ k, k ≤ b → blockText doc1 k = blockText doc k) :
    indentedText doc1 b = indentedText doc b := by
  have hp := previousNonVoidLine_congr doc doc1 b (fun k hk => h k (Nat.le_of_lt hk))
  simp only [indentedText, hp, h b (Nat.le_refl b), h 0 (Nat.zero_le b)]

theorem indentedText_zero (doc : List QString) :
    indentedText doc 0 = trimText (blockText doc 0) := by
  simp [indentedText]

theorem indentedText_succ (doc : List QString) (b : Nat) :
    indentedText doc (b + 1) =
      match previousNonVoidLine doc (b + 1) 0 with
      | PrevLine.found prevLine =>
        insertIndent (indentIndex prevLine (blockText doc (b + 1)))
          (trimText (blockText doc (b + 1)))
      | _ => blockText doc (b + 1) := by
  simp [indentedText]

theorem indentedText_stable (doc : List QString) (b : Nat) (hb : b < doc.length) :
    indentedText (doc.set b (indentedText doc b)) b = indentedText doc b := by
  have hp := previousNonVoidLine_congr doc (doc.set b (indentedText doc b)) b
    (fun k hk => blockText_set_ne doc b k _ (by omega))
  have hx := blockText_set_eq doc b (indentedText doc b) hb
  cases b with
  | zero =>
    rw [indentedText_zero, hx, indentedText_zero, trimText_trimText]
  | succ b =>
    rw [indentedText_succ, hp, hx]
    rw [indentedText_succ]
    cases hq : previousNonVoidLine doc (b + 1) 0 with
    | diverges => rfl
    | atStart => rfl
    | found p =>
      simp only [trimText_insertIndent, trimText_trimText]
      rw [indentIndex_congr p _ (blockText doc (b + 1))]
      rw [containsStr_insertIndent, containsStr_trimText]

theorem indentSelectionLoop_twice (fuel : Nat) :
    ∀ (doc : List QString) (it last : Nat), 1 ≤ fuel → doc.length ≤ fuel + it →
      ∃ d, indentSelectionLoop fuel doc it last = some d ∧
        indentSelectionLoop fuel d it last = some d ∧
        d.length = doc.length ∧ ∀ k, k < it → blockText d k = blockText doc k := by
  induction fuel with
  | zero => intro doc it last h; omega
  | succ fuel ih =>
    intro doc it last _ hlen
    by_cases hle : it ≤ last
    · simp only [indentSelectionLoop, hle, if_true, indentLine_at_block_start]
      by_cases hnext : it + 1 < doc.length
      · have hnext1 : it + 1 < (doc.set it (indentedText doc it)).length := by simpa using hnext
        obtain ⟨d, h1, h2, h3, h4⟩ := ih (doc.set it (indentedText doc it)) (it + 1) last
          (by omega) (by simp; omega)
        have hdlen : d.length = doc.length := by simpa using h3
        have hagree : ∀ k, k ≤ it → blockText d k = blockText (doc.set it (indentedText doc it)) k :=
          fun k hk => h4 k (by omega)
        have hit : it < doc.length := by omega
        have hstab : d.set it (indentedText d it) = d := by
          rw [indentedText_congr _ d it hagree, indentedText_stable doc it hit]
          rw [← blockText_set_eq doc it (indentedText doc it) hit, ← hagree it (Nat.le_refl it)]
          exact set_blockText_self d it
        refine ⟨d, ?_, ?_, hdlen, ?_⟩
        · simp only [hnext1, if_true, h1]
        · simp only [hstab, hdlen, hnext, if_true, h2]
        · intro k hk
          rw [h4 k (by omega), blockText_set_ne doc it k _ (by omega)]
      · have hnext1 : ¬ it + 1 < (doc.set it (indentedText doc it)).length := by simpa using hnext
        refine ⟨doc.set it (indentedText doc it), ?_, ?_, by simp, ?_⟩
        · simp only [hnext1, if_false]
        · have hstab : (doc.set it (indentedText doc it)).set it
              (indentedText (doc.set it (indentedText doc it)) it) =
              doc.set it (indentedText doc it) := by
            by_cases hit : it < doc.length
            · rw [indentedText_stable doc it hit]; simp
            · rw [set_of_length_le _ it _ (by simp; omega)]
          simp only [hstab, hnext1, if_false]
        · intro k hk
          exact blockText_set_ne doc it k _ (by omega)
    · refine ⟨doc, ?_, ?_, rfl, fun _ _ => rfl⟩ <;> simp [indentSelectionLoop, hle]

theorem highlightStep_no_end (n : Nat) (st : HighlightState) (line : QString)
    (h : containsStr "\\end".toList line = false) :
    (highlightStep n st line).extraSelections = st.extraSelections := by
  simp only [highlightStep, h, Bool.and_false, Bool.false_eq_true, if_false]

theorem highlightLoop_no_end (n : Nat) (lines : List QString) :
    ∀ st : HighlightState, (∀ l ∈ lines, containsStr "\\end".toList l = false) →
      (highlightLoop n st lines).extraSelections = st.extraSelections := by
  induction lines with
  | nil => intro st _; rfl
  | cons l ls ih =>
    intro st h
    simp only [highlightLoop, List.foldl_cons]
    have := ih (highlightStep n st l) (fun x hx => h x (List.mem_cons_of_mem _ hx))
    simp only [highlightLoop] at this
    rw [this, highlightStep_no_end n st l (h l (List.mem_cons_self _ _))]

theorem highlightStep_close (n k : Nat) (st : HighlightState) (line : QString)
    (hpos : st.cursor.position = k) (hk : k + 1 < n)
    (hopen : st.environment = true ∨ opensEnvironment line = true)
    (hend : containsStr "\\end".toList line = true) :
    (highlightStep n st line).extraSelections = st.extraSelections ++
      (match closingEnvironment line with
       | some env => [environmentSelection env { anchor := st.cursor.anchor, position := k + 1 }]
       | none => []) ∧
    (highlightStep n st line).environment = false ∧
    (highlightStep n st line).cursor = { anchor := k + 1, position := k + 1 } := by
  have henv : (if containsStr "\\begin".toList line && !containsStr "repeatedchords".toList line
      then true else st.environment) = true := by
    rcases hopen with h | h
    · simp only [h, ite_self]
    · simp only [opensEnvironment] at h; simp only [h, if_true]
  have hk1 : st.cursor.position + 1 < n := by omega
  simp only [highlightStep, henv, hend, Bool.and_self, if_true, BlockCursor.nextBlock, hk1,
    BlockCursor.previousBlock, closingEnvironment, hpos]
  refine ⟨?_, trivial, ?_⟩
  · split_ifs <;> simp
  · simp only [Nat.add_sub_cancel, hk, if_true]

theorem highlightStep_inv (n k : Nat) (st : HighlightState) (line : QString)
    (hk : k + 1 < n) (h : HighlightInv k st) : HighlightInv (k + 1) (highlightStep n st line) := by
  obtain ⟨hpos, hanc, hout, hsel⟩ := h
  have hsel1 : ∀ s ∈ st.extraSelections, s.cursor.anchor < s.cursor.position ∧
      s.cursor.position ≤ k + 1 ∧ s.background ≠ Background.currentLineColor :=
    fun s hs => ⟨(hsel s hs).1, Nat.le_succ_of_le (hsel s hs).2.1, (hsel s hs).2.2⟩
  by_cases hend : containsStr "\\end".toList line = true
  · by_cases hopen : st.environment = true ∨ opensEnvironment line = true
    · obtain ⟨h1, h2, h3⟩ := highlightStep_close n k st line hpos hk hopen hend
      refine ⟨by rw [h3], by rw [h3], fun _ => by rw [h3], ?_⟩
      rw [h1]
      intro s hs
      rcases List.mem_append.1 hs with hs | hs
      · exact hsel1 s hs
      · cases hc : closingEnvironment line with
        | none => rw [hc] at hs; simp at hs
        | some env =>
          rw [hc] at hs
          simp only [List.mem_singleton] at hs
          subst hs
          refine ⟨?_, ?_, ?_⟩
          · simp only [environmentSelection]; omega
          · simp only [environmentSelection]; omega
          · cases env <;> simp [environmentSelection]
    · have he : st.environment = false := by
        cases h : st.environment with
        | true => exact absurd (Or.inl h) hopen
        | false => rfl
      have ho : (containsStr "\\begin".toList line &&
          !containsStr "repeatedchords".toList line) = false := by
        cases h : opensEnvironment line with
        | true => exact absurd (Or.inr h) hopen
        | false => simpa only [opensEnvironment] using h
      have hk1 : st.cursor.position + 1 < n := by omega
      simp only [highlightStep, ho, he, Bool.false_eq_true, if_false, Bool.false_and,
        BlockCursor.nextBlock, hk1, if_true]
      exact ⟨by simp [hpos], by simp [hpos], fun _ => by simp [hpos], hsel1⟩
  · have hend1 : containsStr "\\end".toList line = false := by simpa using hend
    have hk1 : st.cursor.position + 1 < n := by omega
    simp only [highlightStep, hend1, Bool.and_false, Bool.false_eq_true, if_false,
      BlockCursor.nextBlock, hk1, if_true]
    generalize (if (containsStr "\\begin".toList line &&
      !containsStr "repeatedchords".toList line) = true then true else st.environment) = e
    cases e with
    | true => exact ⟨by simp [hpos], by simp; omega, fun he => by simp at he, hsel1⟩
    | false => exact ⟨by simp [hpos], by simp [hpos], fun _ => by simp [hpos], hsel1⟩

theorem highlightLoop_inv (n : Nat) (lines : List QString) :
    ∀ (k : Nat) (st : HighlightState), k + lines.length < n → HighlightInv k st →
      HighlightInv (k + lines.length) (highlightLoop n st lines) := by
  induction lines with
  | nil => intro k st _ h; simpa [highlightLoop] using h
  | cons l ls ih =>
    intro k st hk h
    simp only [List.length_cons] at hk
    have h1 := highlightStep_inv n k st l (by omega) h
    have h2 := ih (k + 1) (highlightStep n st l) (by omega) h1
    simp only [highlightLoop, List.foldl_cons, List.length_cons] at h2 ⊢
    have e : k + (ls.length + 1) = k + 1 + ls.length := by omega
    rw [e]; exact h2

theorem highlightInit_inv : HighlightInv 0 highlightInit := by
  simp [HighlightInv, highlightInit]

theorem highlightLoop_inside (n : Nat) (body : List QString) :
    ∀ (k : Nat) (st : HighlightState), st.cursor.position = k → k + body.length < n →
      st.environment = true → (∀ l ∈ body, containsStr "\\end".toList l = false) →
      (highlightLoop n st body).cursor = { anchor := st.cursor.anchor, position := k + body.length } ∧
      (highlightLoop n st body).environment = true ∧
      (highlightLoop n st body).extraSelections = st.extraSelections := by
  induction body with
  | nil =>
    intro k st hpos _ he _
    refine ⟨?_, he, rfl⟩
    simp only [highlightLoop, List.foldl_nil, List.length_nil, Nat.add_zero, ← hpos]
  | cons l ls ih =>
    intro k st hpos hk he hno
    simp only [List.length_cons] at hk
    have hl := hno l (List.mem_cons_self _ _)
    have hk1 : st.cursor.position + 1 < n := by omega
    have hstep : highlightStep n st l =
        { environment := true,
          cursor := { anchor := st.cursor.anchor, position := k + 1 },
          extraSelections := st.extraSelections } := by
      have hk2 : k + 1 < n := by omega
      simp only [highlightStep, hl, he, Bool.and_false, Bool.false_eq_true, if_false, ite_self,
        if_true, BlockCursor.nextBlock, hk1, hpos, hk2]
    have := ih (k + 1) (highlightStep n st l) (by rw [hstep]) (by omega) (by rw [hstep])
      (fun x hx => hno x (List.mem_cons_of_mem _ hx))
    simp only [highlightLoop, List.foldl_cons, List.length_cons] at this ⊢
    rw [hstep] at this ⊢
    have e : k + (ls.length + 1) = k + 1 + ls.length := by omega
    rw [e]; exact this

theorem highlightStep_open (n k : Nat) (st : HighlightState) (line : QString)
    (hpos : st.cursor.position = k) (hk : k + 1 < n)
    (hopen : opensEnvironment line = true)
    (hend : containsStr "\\end".toList line = false) :
    highlightStep n st line =
      { environment := true,
        cursor := { anchor := st.cursor.anchor, position := k + 1 },
        extraSelections := st.extraSelections } := by
  have hk1 : st.cursor.position + 1 < n := by omega
  simp only [opensEnvironment] at hopen
  simp only [highlightStep, hend, hopen, Bool.and_false, Bool.false_eq_true, if_false,
    if_true, BlockCursor.nextBlock, hk1, hpos, hk]

theorem highlightLoop_append (n : Nat) (st : HighlightState) (xs ys : List QString) :
    highlightLoop n st (xs ++ ys) = highlightLoop n (highlightLoop n st xs) ys := by
  simp [highlightLoop, List.foldl_append]

theorem highlightStep_selections_grow (n : Nat) (st : HighlightState) (line : QString) :
    ∃ more, (highlightStep n st line).extraSelections = st.extraSelections ++ more := by
  unfold highlightStep
  dsimp only
  split_ifs <;> first | exact ⟨_, rfl⟩ | exact ⟨[], (List.append_nil _).symm⟩

theorem highlightLoop_selections_grow (n : Nat) (lines : List QString) :
    ∀ st : HighlightState,
      ∃ more, (highlightLoop n st lines).extraSelections = st.extraSelections ++ more := by
  induction lines with
  | nil => intro st; exact ⟨[], by simp [highlightLoop]⟩
  | cons l ls ih =>
    intro st
    obtain ⟨m1, h1⟩ := highlightStep_selections_grow n st l
    obtain ⟨m2, h2⟩ := ih (highlightStep n st l)
    refine ⟨m1 ++ m2, ?_⟩
    simp only [highlightLoop, List.foldl_cons] at h2 ⊢
    rw [h2, h1, List.append_assoc]

/-- The loop of `highlightEnvironments` over a block of lines `body ++ [e]`
that starts outside of any environment: its first line opens an environment,
no line before `e` has an end marker, and `e` has one and is not the last
line of the document. -/
theorem highlightLoop_environment (n : Nat) (st : HighlightState) (body : List QString)
    (e : QString) (k : Nat) (hinv : HighlightInv k st) (hout : st.environment = false)
    (hk : k + body.length + 1 < n)
    (hfirst : ∀ l ∈ (body ++ [e]).head?, opensEnvironment l = true)
    (hbody : ∀ l ∈ body, containsStr "\\end".toList l = false)
    (hend : containsStr "\\end".toList e = true) :
    (highlightLoop n st (body ++ [e])).extraSelections = st.extraSelections ++
      (match closingEnvironment e with
       | some env => [environmentSelection env { anchor := k, position := k + body.length + 1 }]
       | none => []) := by
  obtain ⟨hpos, _, hanc, _⟩ := hinv
  have ha : st.cursor.anchor = k := hanc hout
  cases body with
  | nil =>
    have ho : opensEnvironment e = true := hfirst e (by simp)
    have := (highlightStep_close n k st e hpos (by simpa using hk) (Or.inr ho) hend).1
    simpa [highlightLoop, ha] using this
  | cons b body =>
    have ho : opensEnvironment b = true := hfirst b (by simp)
    simp only [List.length_cons] at hk
    have hb := hbody b (List.mem_cons_self _ _)
    have hstep := highlightStep_open n k st b hpos (by omega) ho hb
    have hin := highlightLoop_inside n body (k + 1) (highlightStep n st b) (by rw [hstep])
      (by omega) (by rw [hstep]) (fun x hx => hbody x (List.mem_cons_of_mem _ hx))
    obtain ⟨hc, he, hs⟩ := hin
    have hclose := (highlightStep_close n (k + 1 + body.length)
      (highlightLoop n (highlightStep n st b) body) e (by rw [hc]) (by omega) (Or.inl he) hend).1
    have hl : highlightLoop n st (b :: body ++ [e]) =
        highlightStep n (highlightLoop n (highlightStep n st b) body) e := by
      simp [highlightLoop, List.foldl_append]
    rw [hl, hclose, hs, hc, hstep]
    simp only [List.length_cons, ha]
    have e1 : k + 1 + body.length + 1 = k + (body.length + 1) + 1 := by omega
    rw [e1]

theorem map_joinSep (f : Char → Char) (sep : Char) (ls : List QString) :
    (joinSep [sep] ls).map f = joinSep [f sep] (ls.map (List.map f)) := by
  induction ls with
  | nil => rfl
  | cons l rest ih =>
    cases rest with
    | nil => rfl
    | cons next parts =>
      rw [joinSep_cons_cons, List.map_cons, List.map_cons, joinSep_cons_cons, ← List.map_cons,
        ← ih]
      simp

theorem lines_of_blocks (blocks : List QString) (hne : blocks ≠ [])
    (h : oneLinePerBlock blocks = true) :
    splitSep '\n' (toPlainText blocks) = blocks.map (List.map toPlainChar) := by
  have hps : toPlainChar paragraphSeparator = '\n' := by decide
  simp only [toPlainText, map_joinSep, hps]
  apply splitSep_joinSep
  · simpa using hne
  · intro l hl hm
    simp only [List.mem_map] at hl hm
    obtain ⟨b, hb, rfl⟩ := hl
    simp only [List.mem_map] at hm
    obtain ⟨c, hc, hcn⟩ := hm
    simp only [oneLinePerBlock, List.all_eq_true] at h
    have := h b hb c hc
    simp [isLineBreak, hcn] at this

theorem lines_of_editor (ed : SongCodeEditor) (h : oneLinePerBlock ed.blocks = true)
    (hl : ed.lines ≠ [[]]) :
    ed.lines = ed.blocks.map (List.map toPlainChar) ∧ ed.blocks.length = ed.lines.length := by
  have hne : ed.blocks ≠ [] := by
    intro he
    apply hl
    simp only [SongCodeEditor.lines, he]
    rfl
  have := lines_of_blocks ed.blocks hne h
  simp only [SongCodeEditor.lines, this, List.length_map, and_self]

/-- C6 (counterexample): an environment opened by `\begin{verse}` and closed
by `\end{chorus}` is given the chorus colour, not the verse colour; and in a
document whose first block holds a line separator, the selection of a chorus
in the blocks 1 to 3 covers the blocks 2 to 4, so that the begin line is left
without colour. -/
theorem highlightEnvironments_colour_counterexample :
    highlightEnvironments
      ⟨["\\begin{verse}".toList, "la".toList, "\\end{chorus}".toList, []], 0, true, []⟩ =
      [⟨Background.chorusColor, ⟨0, 3⟩⟩, currentLineSelection 0] ∧
    highlightEnvironments
      ⟨[['x', lineSeparator, 'y'], "\\begin{chorus}".toList, "la".toList,
        "\\end{chorus}".toList, [], []], 0, true, []⟩ =
      [⟨Background.chorusColor, ⟨2, 5⟩⟩, currentLineSelection 0] ∧
    (⟨Background.chorusColor, ⟨2, 5⟩⟩ : ExtraSelection).paints 1 = false ∧
    (⟨Background.chorusColor, ⟨2, 5⟩⟩ : ExtraSelection).paints 4 = true := by
  decide

/-- C6 (amended): in a document in which no block holds a line break
character, the lines of the loop are the blocks (with a no-break space read
as a space).  When the highlighter is outside of any environment before a
block of lines whose first line opens an environment and whose last line `e` is
the first one with an end marker, and `e` is not the last line of the
document, the selection that is added runs from the begin line to the end
line inclusive and has the colour of the first keyword among verse, chorus,
bridge and scripture that the end line `e` contains. -/
theorem highlightEnvironments_colour_of_end_line (ed : SongCodeEditor)
    (pre body post : List QString) (e : QString) (env : SongEnvironment)
    (hon : ed.m_environmentsHighlighted = true)
    (hplain : oneLinePerBlock ed.blocks = true)
    (hlines : ed.lines = pre ++ (body ++ [e]) ++ post)
    (hpost : post ≠ [])
    (hout : (highlightLoop ed.blocks.length highlightInit pre).environment = false)
    (hfirst : ∀ l ∈ (body ++ [e]).head?, opensEnvironment l = true)
    (hbody : ∀ l ∈ body, containsStr "\\end".toList l = false)
    (hend : containsStr "\\end".toList e = true)
    (hc : closingEnvironment e = some env) :
    ed.lines = ed.blocks.map (List.map toPlainChar) ∧
    environmentSelection env ⟨pre.length, pre.length + body.length + 1⟩ ∈
        highlightEnvironments ed ∧
      ∀ j, (environmentSelection env ⟨pre.length, pre.length + body.length + 1⟩).paints j = true ↔
        pre.length ≤ j ∧ j ≤ pre.length + body.length := by
  have hpl : 0 < post.length := List.length_pos.2 hpost
  have hlen0 : ed.lines.length = pre.length + (body.length + 1) + post.length := by
    rw [hlines]; simp; omega
  obtain ⟨hmap, hn⟩ := lines_of_editor ed hplain (by
    intro h
    rw [h] at hlen0
    simp only [List.length_singleton] at hlen0
    omega)
  refine ⟨hmap, ?_⟩
  have hlen : ed.blocks.length = pre.length + (body.length + 1) + post.length := by
    rw [hn, hlen0]
  have hun : highlightEnvironments ed =
      (highlightLoop ed.blocks.length highlightInit ed.lines).extraSelections ++
        [currentLineSelection ed.textCursorBlock] := by
    simp only [highlightEnvironments, hon, Bool.not_true, Bool.false_eq_true, if_false]
  generalize ed.blocks.length = n at hlen hout hun
  have hinv := highlightLoop_inv n pre 0 highlightInit (by omega) highlightInit_inv
  simp only [Nat.zero_add] at hinv
  have hblock := highlightLoop_environment n
    (highlightLoop n highlightInit pre) body e pre.length hinv hout (by omega)
    hfirst hbody hend
  rw [hc] at hblock
  constructor
  · obtain ⟨more, hmore⟩ := highlightLoop_selections_grow n post
      (highlightLoop n (highlightLoop n highlightInit pre) (body ++ [e]))
    have hall : (highlightLoop n highlightInit ed.lines).extraSelections =
        (highlightLoop n highlightInit pre).extraSelections ++
          [environmentSelection env ⟨pre.length, pre.length + body.length + 1⟩] ++ more := by
      rw [hlines, highlightLoop_append, highlightLoop_append, hmore, hblock]
    rw [hun, hall]
    simp
  · intro j
    have hne : pre.length ≠ pre.length + body.length + 1 := by omega
    simp only [ExtraSelection.paints, environmentSelection, hne, if_false, Bool.and_eq_true,
      decide_eq_true_eq]
    omega

/-- C6 (witness): a verse opened on the second line and closed by
`\end{chorus}` on the third of four lines. -/
theorem highlightEnvironments_colour_of_end_line_witness :
    (SongCodeEditor.mk ["x".toList, "\\begin{verse}".toList, "\\end{chorus}".toList, []]
        0 true []).lines =
      (SongCodeEditor.mk ["x".toList, "\\begin{verse}".toList, "\\end{chorus}".toList, []]
        0 true []).blocks.map (List.map toPlainChar) ∧
    environmentSelection SongEnvironment.Chorus ⟨1, 1 + 1 + 1⟩ ∈
        highlightEnvironments
          ⟨["x".toList, "\\begin{verse}".toList, "\\end{chorus}".toList, []], 0, true, []⟩ ∧
      ∀ j, (environmentSelection SongEnvironment.Chorus ⟨1, 1 + 1 + 1⟩).paints j = true ↔
        1 ≤ j ∧ j ≤ 1 + 1 :=
  highlightEnvironments_colour_of_end_line
    ⟨["x".toList, "\\begin{verse}".toList, "\\end{chorus}".toList, []], 0, true, []⟩
    ["x".toList] ["\\begin{verse}".toList] [[]] "\\end{chorus}".toList SongEnvironment.Chorus
    rfl (by decide) (by decide) (by decide) (by decide) (by decide) (by decide) (by decide)
    (by decide)

/-- C7: with `\end{chorus}` on the last line of the document the selection
stops before the end line, which is left without the chorus colour. -/
theorem highlightEnvironments_last_line :
    highlightEnvironments
      ⟨["\\begin{chorus}".toList, "la".toList, "\\end{chorus}".toList], 0, true, []⟩ =
      [⟨Background.chorusColor, ⟨0, 2⟩⟩, currentLineSelection 0] ∧
    (⟨Background.chorusColor, ⟨0, 2⟩⟩ : ExtraSelection).paints 2 = false := by
  decide

/-- C10 (counterexample): an environment closed before an unbalanced
`\begin{verse}` keeps its selection; and in a document whose first block holds
a line separator, the selection of a chorus closed before covers the block of
the unbalanced `\begin{verse}`, which is block 3. -/
theorem highlightEnvironments_unbalanced_counterexample :
    highlightEnvironments
      ⟨["\\begin{chorus}".toList, "\\end{chorus}".toList, "\\begin{verse}".toList, "la".toList],
        0, true, []⟩ =
      [⟨Background.chorusColor, ⟨0, 2⟩⟩, currentLineSelection 0] ∧
    highlightEnvironments
      ⟨["\\begin{chorus}".toList, "\\end{chorus}".toList, "\\begin{verse}".toList, "la".toList],
        0, true, []⟩ ≠ [currentLineSelection 0] ∧
    highlightEnvironments
      ⟨[['x', lineSeparator, 'y'], "\\begin{chorus}".toList, "\\end{chorus}".toList,
        "\\begin{verse}".toList, "la".toList, []], 0, true, []⟩ =
      [⟨Background.chorusColor, ⟨2, 4⟩⟩, currentLineSelection 0] ∧
    (⟨Background.chorusColor, ⟨2, 4⟩⟩ : ExtraSelection).paints 3 = true := by
  decide

/-- C10 (amended): when the line `b` contains `\begin{verse}` and neither it
nor any later line contains `\end`, the extra selections are those that the
lines before `b` gave, in their order, followed by the current-line selection:
nothing is added for `b` or a later line, and the environments closed before
keep their selections.  If no earlier line contains `\end` either, the extra
selections are the current-line selection alone.  In a document in which no
block holds a line break character, no environment selection paints `b` or a
later line. -/
theorem highlightEnvironments_unbalanced (ed : SongCodeEditor) (pre post : List QString)
    (b : QString) (hon : ed.m_environmentsHighlighted = true)
    (hlines : ed.lines = pre ++ b :: post)
    (hb : containsStr "\\begin{verse}".toList b = true)
    (hno : ∀ l ∈ b :: post, containsStr "\\end".toList l = false) :
    highlightEnvironments ed =
      (highlightLoop ed.blocks.length highlightInit pre).extraSelections ++
        [currentLineSelection ed.textCursorBlock] ∧
    ((∀ l ∈ pre, containsStr "\\end".toList l = false) →
      highlightEnvironments ed = [currentLineSelection ed.textCursorBlock]) ∧
    (oneLinePerBlock ed.blocks = true →
      ∀ s ∈ highlightEnvironments ed, s.background ≠ Background.currentLineColor →
        ∀ j, pre.length ≤ j → s.paints j = false) := by
  have hlen0 : ed.lines.length = pre.length + (post.length + 1) := by
    rw [hlines]; simp
  have hun : highlightEnvironments ed =
      (highlightLoop ed.blocks.length highlightInit ed.lines).extraSelections ++
        [currentLineSelection ed.textCursorBlock] := by
    simp only [highlightEnvironments, hon, Bool.not_true, Bool.false_eq_true, if_false]
  have hall : (highlightLoop ed.blocks.length highlightInit ed.lines).extraSelections =
      (highlightLoop ed.blocks.length highlightInit pre).extraSelections := by
    rw [hlines, highlightLoop_append]
    exact highlightLoop_no_end _ _ _ hno
  have hres : highlightEnvironments ed =
      (highlightLoop ed.blocks.length highlightInit pre).extraSelections ++
        [currentLineSelection ed.textCursorBlock] := by
    rw [hun, hall]
  refine ⟨hres, ?_, ?_⟩
  · intro hpre
    rw [hres, highlightLoop_no_end _ pre highlightInit hpre]
    rfl
  · intro hplain s hs hbg j hj
    have hne : ed.lines ≠ [[]] := by
      intro h
      rw [hlines] at h
      cases pre with
      | nil =>
        simp only [List.nil_append, List.cons.injEq] at h
        rw [h.1] at hb
        revert hb; decide
      | cons a pre => simp at h
    obtain ⟨_, hn⟩ := lines_of_editor ed hplain hne
    have hlen : ed.blocks.length = pre.length + (post.length + 1) := by rw [hn, hlen0]
    rw [hres] at hs
    generalize ed.blocks.length = n at hlen hs
    have hinv := highlightLoop_inv n pre 0 highlightInit (by omega) highlightInit_inv
    simp only [Nat.zero_add] at hinv
    simp only [List.mem_append, List.mem_singleton] at hs
    rcases hs with hs | hs
    · obtain ⟨h1, h2, _⟩ := hinv.2.2.2 s hs
      have hne : s.cursor.anchor ≠ s.cursor.position := by omega
      simp only [ExtraSelection.paints, hne, if_false]
      simp
      omega
    · subst hs
      exact absurd rfl hbg

/-- C10 (witness): a closed chorus before an unbalanced `\begin{verse}` keeps
its selection, which paints neither the line of `\begin{verse}` nor a later
one; without the chorus the current-line selection is alone. -/
theorem highlightEnvironments_unbalanced_witness :
    highlightEnvironments
        ⟨["\\begin{chorus}".toList, "\\end{chorus}".toList, "\\begin{verse}".toList,
          "la".toList], 0, true, []⟩ =
      [⟨Background.chorusColor, ⟨0, 2⟩⟩, currentLineSelection 0] ∧
    (∀ s ∈ highlightEnvironments
          ⟨["\\begin{chorus}".toList, "\\end{chorus}".toList, "\\begin{verse}".toList,
            "la".toList], 0, true, []⟩,
        s.background ≠ Background.currentLineColor →
        ∀ j, [("\\begin{chorus}".toList), "\\end{chorus}".toList].length ≤ j →
          s.paints j = false) ∧
    highlightEnvironments ⟨["x".toList, "\\begin{verse}".toList, "la".toList], 0, true, []⟩ =
      [currentLineSelection 0] :=
  ⟨(highlightEnvironments_unbalanced
      ⟨["\\begin{chorus}".toList, "\\end{chorus}".toList, "\\begin{verse}".toList, "la".toList],
        0, true, []⟩
      ["\\begin{chorus}".toList, "\\end{chorus}".toList] ["la".toList] "\\begin{verse}".toList
      rfl (by decide) (by decide) (by decide)).1.trans (by decide),
    (highlightEnvironments_unbalanced
      ⟨["\\begin{chorus}".toList, "\\end{chorus}".toList, "\\begin{verse}".toList, "la".toList],
        0, true, []⟩
      ["\\begin{chorus}".toList, "\\end{chorus}".toList] ["la".toList] "\\begin{verse}".toList
      rfl (by decide) (by decide) (by decide)).2.2 (by decide),
    (highlightEnvironments_unbalanced
      ⟨["x".toList, "\\begin{verse}".toList, "la".toList], 0, true, []⟩
      ["x".toList] ["la".toList] "\\begin{verse}".toList
      rfl (by decide) (by decide) (by decide)).2.1 (by decide)⟩

/-! ### Claims settled by evaluation -/

/-- C2: for a guitar diagram named Am with the six-character fingering
X02210 the fingering length equals the string count of the instrument and the
name is not empty, and `isValidChord` is false. -/
theorem isValidChord_six_strings :
    stringCount ⟨ChordType.GuitarChord, "Am".toList, [], "X02210".toList, false⟩ = 6 ∧
    "X02210".toList.length = 6 ∧
    CDiagram.isValidChord ⟨ChordType.GuitarChord, "Am".toList, [], "X02210".toList, false⟩ =
      false := by
  decide

/-- C5: the file that `save` writes for the parameters mainfontsize = 12 and
title = Test is the file it writes after `reset` has emptied both values, and
`load` of that file into the reset songbook leaves both values empty. -/
theorem save_load_loses_parameters (oldSystem : CSongbook → List QString)
    (changeTemplate : CSongbook → QString → CSongbook) :
    let lib : CLibrary := ⟨"/songs".toList, ["patacrep.tmpl".toList], ["a.sg".toList]⟩
    let sb : CSongbook := ⟨"book.sb".toList, "patacrep.tmpl".toList, [true], [], true,
      [("mainfontsize".toList, ⟨PropertyType.Unit, QVariant.string "12".toList, []⟩),
       ("title".toList, ⟨PropertyType.String, QVariant.string "Test".toList, []⟩)]⟩
    let file : QFile := ⟨true, false, []⟩
    (CSongbook.save lib oldSystem sb "book.sb".toList file).2 =
      (CSongbook.save lib oldSystem sb.reset "book.sb".toList file).2 ∧
    (CSongbook.load lib changeTemplate sb.reset "book.sb".toList
        (CSongbook.save lib oldSystem sb "book.sb".toList file).2).m_parameters =
      [("mainfontsize".toList, ⟨PropertyType.Unit, QVariant.string [], []⟩),
       ("title".toList, ⟨PropertyType.String, QVariant.string [], []⟩)] := by
  have hw : ∀ (l : List QString) (f : QFile), f.isOpen = false →
      l.foldl (fun f t => f.write (Chunk.text t)) f = f := by
    intro l
    induction l with
    | nil => intro f _; rfl
    | cons t l ih =>
      intro f hf
      have hwr : f.write (Chunk.text t) = f := by simp [QFile.write, hf]
      rw [List.foldl_cons, hwr]
      exact ih f hf
  intro lib sb file
  have h1 : (CSongbook.save lib oldSystem sb "book.sb".toList file).2 =
      ⟨true, false, [Chunk.json (CSongbook.saveJson lib (sb.songsFromSelection lib))]⟩ :=
    hw _ _ rfl
  have h2 : (CSongbook.save lib oldSystem sb.reset "book.sb".toList file).2 =
      ⟨true, false, [Chunk.json (CSongbook.saveJson lib (sb.reset.songsFromSelection lib))]⟩ :=
    hw _ _ rfl
  rw [h1, h2]
  refine ⟨by decide, ?_⟩
  have ht : (QJsonObject.value (QFile.readObject ⟨true, false,
      [Chunk.json (CSongbook.saveJson lib (sb.songsFromSelection lib))]⟩)
      "template".toList).toQString = sb.reset.m_tmpl := by decide
  have hs : CSongbook.setTmpl lib changeTemplate sb.reset
      (QJsonObject.value (QFile.readObject ⟨true, false,
        [Chunk.json (CSongbook.saveJson lib (sb.songsFromSelection lib))]⟩)
        "template".toList).toQString = sb.reset := by
    rw [ht]; simp [CSongbook.setTmpl]
  have hl : CSongbook.load lib changeTemplate sb.reset "book.sb".toList
      ⟨true, false, [Chunk.json (CSongbook.saveJson lib (sb.songsFromSelection lib))]⟩ =
      CSongbook.load lib (fun s _ => s) sb.reset "book.sb".toList
      ⟨true, false, [Chunk.json (CSongbook.saveJson lib (sb.songsFromSelection lib))]⟩ := by
    have hs2 : CSongbook.setTmpl lib (fun s _ => s) sb.reset
        (QJsonObject.value (QFile.readObject ⟨true, false,
          [Chunk.json (CSongbook.saveJson lib (sb.songsFromSelection lib))]⟩)
          "template".toList).toQString = sb.reset := by
      rw [ht]; simp [CSongbook.setTmpl]
    simp only [CSongbook.load, hs, hs2]
  rw [hl]
  decide

/-- C8: after `\begin{verse}`, a line that has `\end` behind other text is
given the level 0, the same as a line that begins with `\end`. -/
theorem indentLine_end_inside_line :
    indentIndex "\\begin{verse}".toList "la la \\end{verse}".toList = 0 ∧
    indentIndex "\\begin{verse}".toList "la la".toList = 1 ∧
    indentLine ["\\begin{verse}".toList, "  la la \\end{verse}".toList] ⟨1, 0⟩ =
      some ["\\begin{verse}".toList, "la la \\end{verse}".toList] := by
  decide

/-- C1 (counterexample): a fret of two digits is not read back, and neither
is a star in the chord name of a diagram that is not important. -/
theorem fromString_toString_counterexample :
    CDiagram.fromString
        ⟨ChordType.GuitarChord, "Am".toList, "10".toList, "X02220".toList, false⟩
        (CDiagram.toString
          ⟨ChordType.GuitarChord, "Am".toList, "10".toList, "X02220".toList, false⟩) =
      ⟨ChordType.GuitarChord, "Am".toList, [], "10:X02220".toList, false⟩ ∧
    CDiagram.fromString
        ⟨ChordType.GuitarChord, "A*".toList, "1".toList, "X02220".toList, false⟩
        (CDiagram.toString
          ⟨ChordType.GuitarChord, "A*".toList, "1".toList, "X02220".toList, false⟩) =
      ⟨ChordType.GuitarChord, "A*".toList, "1".toList, "X02220".toList, true⟩ := by
  decide

/-- C3 (counterexample): the text `\gtab{Am}{1:X{2:Y}{3:Z}` decodes to fret 3
and fingering `X{2:Y`; the encoding of that diagram decodes to fret 2. -/
theorem fromString_decoded_counterexample :
    CDiagram.fromString ⟨ChordType.GuitarChord, [], [], [], false⟩
        "\\gtab\x7bAm\x7d\x7b1:X\x7b2:Y\x7d\x7b3:Z\x7d".toList =
      ⟨ChordType.GuitarChord, "Am".toList, "3".toList, "X\x7b2:Y".toList, false⟩ ∧
    CDiagram.toString ⟨ChordType.GuitarChord, "Am".toList, "3".toList, "X\x7b2:Y".toList, false⟩ =
      "\\gtab\x7bAm\x7d\x7b3:X\x7b2:Y\x7d".toList ∧
    CDiagram.fromString ⟨ChordType.GuitarChord, [], [], [], false⟩ "\\gtab\x7bAm\x7d\x7b3:X\x7b2:Y\x7d".toList =
      ⟨ChordType.GuitarChord, "Am".toList, "2".toList, "X\x7b2:Y".toList, false⟩ := by
  decide

/-! ### The chord codec -/

theorem toString_eq (d : CDiagram) :
    d.toString =
      '\\' :: (match d.m_type with
        | ChordType.GuitarChord => 'g'
        | ChordType.UkuleleChord => 'u') :: 't' :: 'a' :: 'b' ::
        ((if d.m_important then ['*'] else []) ++
          '{' :: (d.m_chord ++ '}' :: '{' :: (fretPart d.m_fret ++ (d.m_strings ++ ['}'])))) := by
  obtain ⟨ty, c, f, s, imp⟩ := d
  cases ty <;> cases imp <;> cases f <;> simp [CDiagram.toString, fretPart]

theorem matchTabOpen_spec (s r : QString) (h : matchTabOpen s = some r) :
    ∃ x, (x = 'u' ∨ x = 'g') ∧
      (s = '\\' :: x :: 't' :: 'a' :: 'b' :: '{' :: r ∨
       s = '\\' :: x :: 't' :: 'a' :: 'b' :: '*' :: '{' :: r) := by
  unfold matchTabOpen at h
  split at h
  · rename_i c rest
    split at h
    · rename_i hc
      split at h
      · simp only [Option.some.injEq] at h; subst h
        exact ⟨c, hc, Or.inr rfl⟩
      · simp only [Option.some.injEq] at h; subst h
        exact ⟨c, hc, Or.inl rfl⟩
      · simp at h
    · simp at h
  · simp at h

theorem matchTabOpen_cons_ne (x : Char) (s : QString) (hx : x ≠ '\\') :
    matchTabOpen (x :: s) = none := by
  cases h : matchTabOpen (x :: s) with
  | none => rfl
  | some r =>
    obtain ⟨y, _, h1 | h1⟩ := matchTabOpen_spec _ _ h
    · simp only [List.cons.injEq] at h1; exact absurd h1.1 hx
    · simp only [List.cons.injEq] at h1; exact absurd h1.1 hx

theorem matchTabOpen_firstBrace (s r : QString) (h : matchTabOpen s = some r) :
    firstBrace s = some '{' := by
  obtain ⟨x, hx, h1 | h1⟩ := matchTabOpen_spec s r h
  · subst h1; rcases hx with hx | hx <;> subst hx <;> rfl
  · subst h1; rcases hx with hx | hx <;> subst hx <;> rfl

theorem firstBrace_append_close (c rest : QString) (h1 : '{' ∉ c) (h2 : '}' ∉ c) :
    firstBrace (c ++ '}' :: rest) = some '}' := by
  induction c with
  | nil => rfl
  | cons a c ih =>
    have ha1 : a ≠ '{' := fun h => h1 (by simp [h])
    have ha2 : a ≠ '}' := fun h => h2 (by simp [h])
    have := ih (fun h => h1 (List.mem_cons_of_mem _ h)) (fun h => h2 (List.mem_cons_of_mem _ h))
    simp only [firstBrace] at this ⊢
    simp [List.find?_cons, ha1, ha2, this]

theorem matchTabOpen_append_close (c rest : QString) (h1 : '{' ∉ c) (h2 : '}' ∉ c) :
    matchTabOpen (c ++ '}' :: rest) = none := by
  cases h : matchTabOpen (c ++ '}' :: rest) with
  | none => rfl
  | some r =>
    have := matchTabOpen_firstBrace _ _ h
    rw [firstBrace_append_close c rest h1 h2] at this
    simp at this

theorem headed_reChordAt : Headed reChordAt := by
  intro s h; simp [reChordAt, h]

theorem headed_reFretAt : Headed reFretAt := by
  intro s h; simp [reFretAt, h]

theorem headed_reStringsNoFretAt : Headed reStringsNoFretAt := by
  intro s h; simp [reStringsNoFretAt, h]

theorem indexIn_cons_of_none (re : QString → Option QString) (x : Char) (s : QString)
    (h : re (x :: s) = none) : indexIn re (x :: s) = indexIn re s := by
  simp [indexIn, h]

theorem indexIn_cons_ne (re : QString → Option QString) (hre : Headed re) (x : Char)
    (s : QString) (hx : x ≠ '\\') : indexIn re (x :: s) = indexIn re s :=
  indexIn_cons_of_none re x s (hre _ (matchTabOpen_cons_ne x s hx))

theorem indexIn_append_close (re : QString → Option QString) (hre : Headed re)
    (c rest : QString) (h1 : '{' ∉ c) (h2 : '}' ∉ c) :
    indexIn re (c ++ '}' :: rest) = indexIn re rest := by
  induction c with
  | nil => exact indexIn_cons_ne re hre '}' rest (by decide)
  | cons a c ih =>
    have hc1 : '{' ∉ c := fun h => h1 (List.mem_cons_of_mem _ h)
    have hc2 : '}' ∉ c := fun h => h2 (List.mem_cons_of_mem _ h)
    have := hre _ (matchTabOpen_append_close (a :: c) rest h1 h2)
    rw [List.cons_append] at this ⊢
    rw [indexIn_cons_of_none re a _ this]
    exact ih hc1 hc2

theorem indexIn_nil (re : QString → Option QString) (hre : Headed re) : indexIn re [] = none := by
  simp only [indexIn]; exact hre [] rfl

theorem digit_or_X_ne (x : Char) (h : x = 'X' ∨ x.isDigit = true) :
    x ≠ '{' ∧ x ≠ '}' ∧ x ≠ ':' ∧ x ≠ '*' ∧ x ≠ 'g' := by
  rcases h with h | h
  · subst h; decide
  · refine ⟨?_, ?_, ?_, ?_, ?_⟩ <;> (intro hx; subst hx; exact absurd h (by decide))

theorem capNotBrace_append_close (c rest : QString) (h : '}' ∉ c) :
    capNotBrace (c ++ '}' :: rest) = if c.isEmpty then none else some c := by
  have ht : (c ++ '}' :: rest).takeWhile (fun x => x != '}') = c := by
    induction c with
    | nil => simp
    | cons a c ih =>
      have ha : a ≠ '}' := fun e => h (by simp [e])
      simp [List.takeWhile_cons, ha, ih (fun e => h (List.mem_cons_of_mem _ e))]
  simp only [capNotBrace, ht]

theorem lastBraceDigit_none (s : QString) (h : '{' ∉ s) : lastBraceDigit s = none := by
  induction s with
  | nil => rfl
  | cons a s ih =>
    have ha : a ≠ '{' := fun e => h (by simp [e])
    simp only [lastBraceDigit, ih (fun e => h (List.mem_cons_of_mem _ e))]
    split
    · rename_i heq; simp only [List.cons.injEq] at heq; exact absurd heq.1 ha
    · rfl

theorem lastBraceDigit_append (p q : QString) (h : '{' ∉ p) :
    lastBraceDigit (p ++ q) = lastBraceDigit q := by
  induction p with
  | nil => rfl
  | cons a p ih =>
    have ha : a ≠ '{' := fun e => h (by simp [e])
    rw [List.cons_append]
    simp only [lastBraceDigit, ih (fun e => h (List.mem_cons_of_mem _ e))]
    cases lastBraceDigit q with
    | some d => rfl
    | none =>
      simp only
      split
      · rename_i heq; simp only [List.cons.injEq] at heq; exact absurd heq.1 ha
      · rfl

theorem lastBraceCap_none (s : QString) (h : '{' ∉ s) : lastBraceCap s = none := by
  induction s with
  | nil => rfl
  | cons a s ih =>
    have ha : a ≠ '{' := fun e => h (by simp [e])
    simp [lastBraceCap, ih (fun e => h (List.mem_cons_of_mem _ e)), ha]

theorem lastBraceCap_append (p q : QString) (h : '{' ∉ p) :
    lastBraceCap (p ++ q) = lastBraceCap q := by
  induction p with
  | nil => rfl
  | cons a p ih =>
    have ha : a ≠ '{' := fun e => h (by simp [e])
    rw [List.cons_append]
    simp only [lastBraceCap, ih (fun e => h (List.mem_cons_of_mem _ e))]
    cases lastBraceCap q with
    | some d => rfl
    | none => simp [ha]

/-- The shape of an encoded diagram with type letter `y`, star part `star`,
chord name `c` and the text `F` of fret and fingering between the last
braces. -/
theorem indexIn_encoded (re : QString → Option QString) (hre : Headed re)
    (y : Char) (star c F : QString) (hy : y = 'g' ∨ y = 'u') (hstar : star = [] ∨ star = ['*'])
    (hc1 : '{' ∉ c) (hc2 : '}' ∉ c) (hF1 : '{' ∉ F) (hF2 : '}' ∉ F) :
    indexIn re ('\\' :: y :: 't' :: 'a' :: 'b' :: (star ++ '{' :: (c ++ '}' :: '{' :: (F ++ ['}'])))) =
      re ('\\' :: y :: 't' :: 'a' :: 'b' :: (star ++ '{' :: (c ++ '}' :: '{' :: (F ++ ['}'])))) := by
  have htail : indexIn re (y :: 't' :: 'a' :: 'b' ::
      (star ++ '{' :: (c ++ '}' :: '{' :: (F ++ ['}'])))) = none := by
    have hy' : y ≠ '\\' := by rcases hy with h | h <;> subst h <;> decide
    rw [indexIn_cons_ne re hre y _ hy', indexIn_cons_ne re hre 't' _ (by decide),
      indexIn_cons_ne re hre 'a' _ (by decide), indexIn_cons_ne re hre 'b' _ (by decide)]
    have hrest : indexIn re ('{' :: (c ++ '}' :: '{' :: (F ++ ['}']))) = none := by
      rw [indexIn_cons_ne re hre '{' _ (by decide), indexIn_append_close re hre c _ hc1 hc2,
        indexIn_cons_ne re hre '{' _ (by decide), indexIn_append_close re hre F _ hF1 hF2]
      exact indexIn_nil re hre
    rcases hstar with h | h
    · subst h; simpa using hrest
    · subst h
      rw [List.singleton_append, indexIn_cons_ne re hre '*' _ (by decide)]
      exact hrest
  simp only [indexIn]
  cases hr : re ('\\' :: y :: 't' :: 'a' :: 'b' ::
      (star ++ '{' :: (c ++ '}' :: '{' :: (F ++ ['}'])))) with
  | some r => rfl
  | none => exact htail

theorem matchTabOpen_encoded (y : Char) (star rest : QString) (hy : y = 'g' ∨ y = 'u')
    (hstar : star = [] ∨ star = ['*']) :
    matchTabOpen ('\\' :: y :: 't' :: 'a' :: 'b' :: (star ++ '{' :: rest)) = some rest := by
  rcases hy with h | h <;> subst h <;> rcases hstar with h | h <;> subst h <;>
    simp [matchTabOpen]

theorem reChordAt_encoded (y : Char) (star c F : QString) (hy : y = 'g' ∨ y = 'u')
    (hstar : star = [] ∨ star = ['*']) (hc2 : '}' ∉ c) :
    reChordAt ('\\' :: y :: 't' :: 'a' :: 'b' :: (star ++ '{' :: (c ++ '}' :: '{' :: (F ++ ['}'])))) =
      if c.isEmpty then none else some c := by
  simp only [reChordAt, matchTabOpen_encoded y star _ hy hstar, capNotBrace_append_close c _ hc2]

theorem tail_after_name (c rest : QString) (hc1 : '{' ∉ c) :
    ∃ a r, c ++ '}' :: rest = a :: r ∧
      lastBraceDigit r = lastBraceDigit rest ∧ lastBraceCap r = lastBraceCap rest := by
  cases c with
  | nil => exact ⟨'}', rest, rfl, rfl, rfl⟩
  | cons a c =>
    have hc : '{' ∉ c ++ ['}'] := by
      intro h
      rcases List.mem_append.1 h with h | h
      · exact hc1 (List.mem_cons_of_mem _ h)
      · simp at h
    refine ⟨a, c ++ '}' :: rest, rfl, ?_, ?_⟩
    · have := lastBraceDigit_append (c ++ ['}']) rest hc
      simpa using this
    · have := lastBraceCap_append (c ++ ['}']) rest hc
      simpa using this

theorem reFretAt_encoded (y : Char) (star c F : QString) (hy : y = 'g' ∨ y = 'u')
    (hstar : star = [] ∨ star = ['*']) (hc1 : '{' ∉ c) :
    reFretAt ('\\' :: y :: 't' :: 'a' :: 'b' :: (star ++ '{' :: (c ++ '}' :: '{' :: (F ++ ['}'])))) =
      match lastBraceDigit ('{' :: (F ++ ['}'])) with
      | some d => some [d]
      | none => none := by
  obtain ⟨a, r, h1, h2, _⟩ := tail_after_name c ('{' :: (F ++ ['}'])) hc1
  simp only [reFretAt, matchTabOpen_encoded y star _ hy hstar, h1, h2]

theorem reStringsNoFretAt_encoded (y : Char) (star c F : QString) (hy : y = 'g' ∨ y = 'u')
    (hstar : star = [] ∨ star = ['*']) (hc1 : '{' ∉ c) :
    reStringsNoFretAt
        ('\\' :: y :: 't' :: 'a' :: 'b' :: (star ++ '{' :: (c ++ '}' :: '{' :: (F ++ ['}'])))) =
      lastBraceCap ('{' :: (F ++ ['}'])) := by
  obtain ⟨a, r, h1, _, h3⟩ := tail_after_name c ('{' :: (F ++ ['}'])) hc1
  simp only [reStringsNoFretAt, matchTabOpen_encoded y star _ hy hstar, h1, h3]

theorem not_mem_append_close (s : QString) (h : '{' ∉ s) : '{' ∉ s ++ ['}'] := by
  intro h'
  rcases List.mem_append.1 h' with h' | h'
  · exact h h'
  · simp at h'

theorem lastBraceDigit_fret (x : Char) (s : QString) (hx : x.isDigit = true) (hs : '{' ∉ s) :
    lastBraceDigit ('{' :: ((x :: ':' :: s) ++ ['}'])) = some x := by
  have hx1 : x ≠ '{' := (digit_or_X_ne x (Or.inr hx)).1
  have hn : lastBraceDigit ((x :: ':' :: s) ++ ['}']) = none := by
    apply lastBraceDigit_none
    apply not_mem_append_close
    intro h
    simp only [List.mem_cons] at h
    rcases h with h | h | h
    · exact hx1 h.symm
    · exact absurd h (by decide)
    · exact hs h
  have hn2 : lastBraceDigit (x :: ':' :: (s ++ ['}'])) = none := hn
  have hu : lastBraceDigit ('{' :: x :: ':' :: (s ++ ['}'])) =
      match lastBraceDigit (x :: ':' :: (s ++ ['}'])) with
      | some d => some d
      | none => if x.isDigit then some x else none := rfl
  show lastBraceDigit ('{' :: x :: ':' :: (s ++ ['}'])) = some x
  rw [hu, hn2]
  simp [hx]

theorem lastBraceDigit_no_fret (s : QString) (hs : ∀ x ∈ s, x = 'X' ∨ x.isDigit = true) :
    lastBraceDigit ('{' :: (s ++ ['}'])) = none := by
  have hs1 : '{' ∉ s := fun h => (digit_or_X_ne _ (hs _ h)).1 rfl
  simp only [lastBraceDigit, lastBraceDigit_none _ (not_mem_append_close s hs1)]
  split
  · rename_i d tl heq
    simp only [List.cons.injEq, true_and] at heq
    cases s with
    | nil => simp at heq
    | cons a s =>
      cases s with
      | nil => simp at heq
      | cons b s =>
        simp at heq
        have := (digit_or_X_ne b (hs b (by simp))).2.2.1
        exact absurd heq.2.1 this
  · rfl

theorem lastBraceCap_strings (s : QString) (hs1 : '{' ∉ s) (hs2 : '}' ∉ s) :
    lastBraceCap ('{' :: (s ++ ['}'])) = if s.isEmpty then none else some s := by
  simp only [lastBraceCap, lastBraceCap_none _ (not_mem_append_close s hs1)]
  simp [capNotBrace_append_close s [] hs2]

theorem indexIn_reStringsFretAt_append (p q : QString) (h : ':' ∉ p) :
    indexIn reStringsFretAt (p ++ q) = indexIn reStringsFretAt q := by
  induction p with
  | nil => rfl
  | cons a p ih =>
    have ha : a ≠ ':' := fun e => h (by simp [e])
    have hr : reStringsFretAt (a :: (p ++ q)) = none := by
      unfold reStringsFretAt
      split
      · rename_i heq; simp only [List.cons.injEq] at heq; exact absurd heq.1 ha
      · rfl
    rw [List.cons_append, indexIn_cons_of_none _ _ _ hr]
    exact ih (fun e => h (List.mem_cons_of_mem _ e))

theorem indexIn_reStringsFretAt_colon (s : QString) (hs2 : '}' ∉ s) :
    (indexIn reStringsFretAt (':' :: (s ++ ['}']))).getD [] = s := by
  cases s with
  | nil => simp [indexIn, reStringsFretAt, capNotBrace]
  | cons a s =>
    have := capNotBrace_append_close (a :: s) [] hs2
    simp only [indexIn, reStringsFretAt, this]
    simp

theorem containsChar_iff (ch : Char) (s : QString) : containsChar ch s = true ↔ ch ∈ s := by
  induction s with
  | nil => simp [containsChar]
  | cons a s ih =>
    simp only [containsChar, Bool.or_eq_true, beq_iff_eq, ih, List.mem_cons]
    constructor
    · rintro (h | h)
      · exact Or.inl h.symm
      · exact Or.inr h
    · rintro (h | h)
      · exact Or.inl h.symm
      · exact Or.inr h

theorem startsWith_append_sep (p : QString) (sep : Char) (hsep : sep ∉ p) :
    ∀ (s rest : QString), startsWith (s ++ sep :: rest) p = startsWith s p := by
  induction p with
  | nil => intro s rest; cases s <;> simp [startsWith]
  | cons q p ih =>
    intro s rest
    have hq : sep ≠ q := fun e => hsep (by simp [e])
    cases s with
    | nil => simp [startsWith, hq]
    | cons a s =>
      have := ih (fun e => hsep (List.mem_cons_of_mem _ e)) s rest
      show (a == q && startsWith (s ++ sep :: rest) p) = (a == q && startsWith s p)
      rw [this]

theorem containsStr_append_sep (q : Char) (p : QString) (sep : Char) (hsep : sep ∉ q :: p)
    (s rest : QString) :
    containsStr (q :: p) (s ++ sep :: rest) =
      (containsStr (q :: p) s || containsStr (q :: p) rest) := by
  have hq : sep ≠ q := fun e => hsep (by simp [e])
  induction s with
  | nil => simp [containsStr, startsWith, hq]
  | cons a s ih =>
    have h1 := startsWith_append_sep (q :: p) sep hsep (a :: s) rest
    simp only [List.cons_append] at h1 ⊢
    simp only [containsStr, h1, ih, Bool.or_assoc]

theorem containsStr_of_not_mem (q : Char) (p s : QString) (h : q ∉ s) :
    containsStr (q :: p) s = false := by
  induction s with
  | nil => simp [containsStr, startsWith]
  | cons a s ih =>
    have ha : a ≠ q := fun e => h (by simp [e])
    simp [containsStr, startsWith, ha, ih (fun e => h (List.mem_cons_of_mem _ e))]

theorem containsStr_cons_ne (q : Char) (p : QString) (a : Char) (s : QString) (h : a ≠ q) :
    containsStr (q :: p) (a :: s) = containsStr (q :: p) s := by
  simp [containsStr, startsWith, h]

/-- The characters of fret and fingering between the last braces of an
encoded diagram. -/
theorem fret_strings_chars (f s : QString)
    (hf : f = [] ∨ ∃ x, x.isDigit = true ∧ f = [x])
    (hs : ∀ x ∈ s, x = 'X' ∨ x.isDigit = true) :
    ∀ x ∈ fretPart f ++ s, x ≠ '{' ∧ x ≠ '}' ∧ x ≠ '*' ∧ x ≠ 'g' := by
  intro x hx
  rcases List.mem_append.1 hx with h | h
  · rcases hf with hf | ⟨d, hd, hf⟩
    · subst hf; simp [fretPart] at h
    · subst hf
      simp [fretPart] at h
      rcases h with h | h
      · subst h
        have := digit_or_X_ne x (Or.inr hd)
        exact ⟨this.1, this.2.1, this.2.2.2.1, this.2.2.2.2⟩
      · subst h; decide
  · have := digit_or_X_ne x (hs x h)
    exact ⟨this.1, this.2.1, this.2.2.2.1, this.2.2.2.2⟩

theorem containsStr_gtab_encoded (y : Char) (star c F : QString) (hy : y = 'g' ∨ y = 'u')
    (hstar : star = [] ∨ star = ['*']) (hF : 'g' ∉ F) :
    containsStr "gtab".toList
        ('\\' :: y :: 't' :: 'a' :: 'b' :: (star ++ '{' :: (c ++ '}' :: '{' :: (F ++ ['}'])))) =
      (decide (y = 'g') || containsStr "gtab".toList c) := by
  have hrest : containsStr ('g' :: "tab".toList) ('{' :: (c ++ '}' :: '{' :: (F ++ ['}']))) =
      containsStr ('g' :: "tab".toList) c := by
    rw [containsStr_cons_ne _ _ _ _ (by decide),
      containsStr_append_sep 'g' _ '}' (by decide),
      containsStr_of_not_mem 'g' _ ('{' :: (F ++ ['}']))]
    · simp
    · intro h
      simp only [List.mem_cons, List.mem_append, List.mem_singleton] at h
      rcases h with h | h | h
      · exact absurd h (by decide)
      · exact hF h
      · rcases h with h | h
        · exact absurd h (by decide)
        · simp at h
  have hstar' : containsStr ('g' :: "tab".toList) (star ++ '{' :: (c ++ '}' :: '{' :: (F ++ ['}']))) =
      containsStr ('g' :: "tab".toList) c := by
    rcases hstar with h | h
    · subst h; simpa using hrest
    · subst h
      rw [List.singleton_append, containsStr_cons_ne _ _ _ _ (by decide)]
      exact hrest
  show containsStr ('g' :: "tab".toList) _ = _
  rcases hy with h | h
  · subst h
    simp [containsStr, startsWith]
  · subst h
    rw [containsStr_cons_ne _ _ _ _ (by decide), containsStr_cons_ne _ _ _ _ (by decide),
      containsStr_cons_ne _ _ _ _ (by decide), containsStr_cons_ne _ _ _ _ (by decide),
      containsStr_cons_ne _ _ _ _ (by decide), hstar']
    simp

theorem containsStr_utab_encoded (rest : QString) :
    containsStr "utab".toList ('\\' :: 'u' :: 't' :: 'a' :: 'b' :: rest) = true := by
  simp [containsStr, startsWith]

/-- Decoding an encoded diagram gives the diagram back when the chord name
has no brace and no colon, has a star only in an important diagram and the
text gtab only in a guitar diagram, the fret is empty or one digit, and the
fingering is made of X and digits. -/
theorem fromString_toString_of_regular (d d0 : CDiagram)
    (hc1 : '{' ∉ d.m_chord) (hc2 : '}' ∉ d.m_chord) (hc3 : ':' ∉ d.m_chord)
    (hstar : '*' ∈ d.m_chord → d.m_important = true)
    (hg : containsStr "gtab".toList d.m_chord = true → d.m_type = ChordType.GuitarChord)
    (hf : d.m_fret = [] ∨ ∃ x, x.isDigit = true ∧ d.m_fret = [x])
    (hs : ∀ x ∈ d.m_strings, x = 'X' ∨ x.isDigit = true) :
    CDiagram.fromString d0 d.toString = d := by
  obtain ⟨ty, c, f, s, imp⟩ := d
  simp only at hc1 hc2 hc3 hstar hg hf hs
  have hF := fret_strings_chars f s hf hs
  have hF1 : '{' ∉ fretPart f ++ s := fun h => (hF _ h).1 rfl
  have hF2 : '}' ∉ fretPart f ++ s := fun h => (hF _ h).2.1 rfl
  have hF3 : '*' ∉ fretPart f ++ s := fun h => (hF _ h).2.2.1 rfl
  have hF4 : 'g' ∉ fretPart f ++ s := fun h => (hF _ h).2.2.2 rfl
  have hs1 : '{' ∉ s := fun h => (digit_or_X_ne _ (hs _ h)).1 rfl
  have hs2 : '}' ∉ s := fun h => (digit_or_X_ne _ (hs _ h)).2.1 rfl
  rw [toString_eq]
  simp only [List.append_assoc]
  generalize hy : (match ty with
    | ChordType.GuitarChord => 'g'
    | ChordType.UkuleleChord => 'u') = y
  generalize hst : (if imp = true then ['*'] else []) = star
  have hy' : y = 'g' ∨ y = 'u' := by cases ty <;> simp at hy <;> simp [← hy]
  have hst' : star = [] ∨ star = ['*'] := by cases imp <;> simp at hst <;> simp [← hst]
  rw [← List.append_assoc (fretPart f) s ['}']]
  -- the five fields
  have htype : (if containsStr "gtab".toList
        ('\\' :: y :: 't' :: 'a' :: 'b' :: (star ++ '{' :: (c ++ '}' :: '{' :: (fretPart f ++ s ++ ['}']))))
      then ChordType.GuitarChord
      else if containsStr "utab".toList
        ('\\' :: y :: 't' :: 'a' :: 'b' :: (star ++ '{' :: (c ++ '}' :: '{' :: (fretPart f ++ s ++ ['}']))))
      then ChordType.UkuleleChord else d0.m_type) = ty := by
    rw [containsStr_gtab_encoded y star c _ hy' hst' hF4]
    cases ty with
    | GuitarChord => simp at hy; subst hy; simp
    | UkuleleChord =>
      simp at hy; subst hy
      have : containsStr "gtab".toList c = false := by
        cases h : containsStr "gtab".toList c with
        | false => rfl
        | true => exact absurd (hg h) (by simp)
      rw [this, containsStr_utab_encoded]
      simp
  have himp : containsChar '*'
      ('\\' :: y :: 't' :: 'a' :: 'b' :: (star ++ '{' :: (c ++ '}' :: '{' :: (fretPart f ++ s ++ ['}'])))) =
      imp := by
    have hy2 : y ≠ '*' := by rcases hy' with h | h <;> subst h <;> decide
    cases himp : imp with
    | true =>
      subst himp; simp at hst; subst hst
      rw [containsChar_iff]; simp
    | false =>
      subst himp; simp at hst; subst hst
      have hcs : '*' ∉ c := fun h => by simpa using hstar h
      cases hcc : containsChar '*' ('\\' :: y :: 't' :: 'a' :: 'b' ::
          ([] ++ '{' :: (c ++ '}' :: '{' :: (fretPart f ++ s ++ ['}'])))) with
      | false => rfl
      | true =>
        rw [containsChar_iff] at hcc
        simp only [List.nil_append, List.mem_cons, List.mem_append, List.mem_singleton] at hcc
        rcases hcc with h | h | h | h | h | h | h | h | h | h | h
        · exact absurd h (by decide)
        · exact absurd h.symm hy2
        · exact absurd h (by decide)
        · exact absurd h (by decide)
        · exact absurd h (by decide)
        · exact absurd h (by decide)
        · exact absurd h hcs
        · exact absurd h (by decide)
        · exact absurd h (by decide)
        · exact absurd (List.mem_append.2 h) hF3
        · exact absurd h (by decide)
  have hchord : cap1 reChordAt
      ('\\' :: y :: 't' :: 'a' :: 'b' :: (star ++ '{' :: (c ++ '}' :: '{' :: (fretPart f ++ s ++ ['}'])))) =
      c := by
    rw [cap1, indexIn_encoded reChordAt headed_reChordAt y star c _ hy' hst' hc1 hc2 hF1 hF2,
      reChordAt_encoded y star c _ hy' hst' hc2]
    cases c <;> simp
  have hfret : cap1 reFretAt
      ('\\' :: y :: 't' :: 'a' :: 'b' :: (star ++ '{' :: (c ++ '}' :: '{' :: (fretPart f ++ s ++ ['}'])))) =
      f := by
    rw [cap1, indexIn_encoded reFretAt headed_reFretAt y star c _ hy' hst' hc1 hc2 hF1 hF2,
      reFretAt_encoded y star c _ hy' hst' hc1]
    rcases hf with hf | ⟨x, hx, hf⟩
    · subst hf
      have : fretPart [] ++ s = s := by simp [fretPart]
      rw [this, lastBraceDigit_no_fret s hs]
      rfl
    · subst hf
      have : fretPart [x] ++ s = x :: ':' :: s := by simp [fretPart]
      rw [this, lastBraceDigit_fret x s hx hs1]
      rfl
  have hstr : (if f.isEmpty then cap1 reStringsNoFretAt
        ('\\' :: y :: 't' :: 'a' :: 'b' :: (star ++ '{' :: (c ++ '}' :: '{' :: (fretPart f ++ s ++ ['}']))))
      else cap1 reStringsFretAt
        ('\\' :: y :: 't' :: 'a' :: 'b' :: (star ++ '{' :: (c ++ '}' :: '{' :: (fretPart f ++ s ++ ['}']))))) =
      s := by
    rcases hf with hf | ⟨x, hx, hf⟩
    · subst hf
      have hfp : fretPart [] ++ s = s := by simp [fretPart]
      rw [hfp] at hF1 hF2
      simp only [List.isEmpty_nil, if_true, hfp]
      rw [cap1, indexIn_encoded reStringsNoFretAt headed_reStringsNoFretAt y star c _ hy' hst'
        hc1 hc2 hF1 hF2, reStringsNoFretAt_encoded y star c _ hy' hst' hc1,
        lastBraceCap_strings s hs1 hs2]
      cases s <;> simp
    · subst hf
      have hfp : fretPart [x] ++ s = x :: ':' :: s := by simp [fretPart]
      simp only [List.isEmpty_cons, Bool.false_eq_true, if_false, hfp]
      have hx3 : x ≠ ':' := (digit_or_X_ne x (Or.inr hx)).2.2.1
      have hy3 : y ≠ ':' := by rcases hy' with h | h <;> subst h <;> decide
      have hsplit : '\\' :: y :: 't' :: 'a' :: 'b' ::
          (star ++ '{' :: (c ++ '}' :: '{' :: (x :: ':' :: s ++ ['}']))) =
          ('\\' :: y :: 't' :: 'a' :: 'b' :: (star ++ '{' :: (c ++ ['}', '{', x]))) ++
            (':' :: (s ++ ['}'])) := by simp
      have hno : ':' ∉ '\\' :: y :: 't' :: 'a' :: 'b' :: (star ++ '{' :: (c ++ ['}', '{', x])) := by
        intro h
        simp only [List.mem_cons, List.mem_append, List.mem_singleton] at h
        rcases h with h | h | h | h | h | h | h | h | h | h | h | h
        · exact absurd h (by decide)
        · exact absurd h.symm hy3
        · exact absurd h (by decide)
        · exact absurd h (by decide)
        · exact absurd h (by decide)
        · rcases hst' with e | e <;> subst e <;> simp at h
        · exact absurd h (by decide)
        · exact absurd h hc3
        · exact absurd h (by decide)
        · exact absurd h (by decide)
        · exact absurd h.symm hx3
        · simp at h
      rw [cap1, hsplit, indexIn_reStringsFretAt_append _ _ hno]
      exact indexIn_reStringsFretAt_colon s hs2
  simp only [CDiagram.fromString]
  rw [hfret, hstr, htype, himp, hchord]

/-- C1 (amended): decoding the encoding of a diagram gives back its type,
chord name, fret, fingering and importance flag when the chord name contains
no brace, colon or star (and, in a ukulele diagram, not the text gtab), the
fret is absent or a single decimal digit, and the fingering is a string over
X and the digits. -/
theorem fromString_toString_round_trip (d d0 : CDiagram)
    (hname : ∀ x ∈ d.m_chord, x ≠ '{' ∧ x ≠ '}' ∧ x ≠ ':' ∧ x ≠ '*')
    (hg : d.m_type = ChordType.UkuleleChord → containsStr "gtab".toList d.m_chord = false)
    (hf : d.m_fret = [] ∨ ∃ x, x.isDigit = true ∧ d.m_fret = [x])
    (hs : ∀ x ∈ d.m_strings, x = 'X' ∨ x.isDigit = true) :
    CDiagram.fromString d0 d.toString = d := by
  apply fromString_toString_of_regular d d0
  · exact fun h => (hname _ h).1 rfl
  · exact fun h => (hname _ h).2.1 rfl
  · exact fun h => (hname _ h).2.2.1 rfl
  · exact fun h => absurd rfl (hname _ h).2.2.2
  · intro h
    cases ht : d.m_type with
    | GuitarChord => rfl
    | UkuleleChord => rw [hg ht] at h; simp at h
  · exact hf
  · exact hs

/-- C1 (witness): an important ukulele diagram Am with fret 1. -/
theorem fromString_toString_round_trip_witness :
    CDiagram.fromString ⟨ChordType.GuitarChord, [], [], [], false⟩
        (CDiagram.toString
          ⟨ChordType.UkuleleChord, "Am".toList, "1".toList, "2000".toList, true⟩) =
      ⟨ChordType.UkuleleChord, "Am".toList, "1".toList, "2000".toList, true⟩ :=
  fromString_toString_round_trip
    ⟨ChordType.UkuleleChord, "Am".toList, "1".toList, "2000".toList, true⟩
    ⟨ChordType.GuitarChord, [], [], [], false⟩
    (by decide) (by decide) (Or.inr ⟨'1', by decide, rfl⟩) (by decide)

theorem startsWith_append (p : QString) : ∀ (s post : QString),
    startsWith s p = true → startsWith (s ++ post) p = true := by
  induction p with
  | nil => intro s post _; cases s <;> cases post <;> simp [startsWith]
  | cons q p ih =>
    intro s post h
    cases s with
    | nil => simp [startsWith] at h
    | cons a s =>
      simp only [startsWith, Bool.and_eq_true] at h
      have := ih s post h.2
      show (a == q && startsWith (s ++ post) p) = true
      rw [this, h.1]; rfl

theorem containsStr_append_right (p s post : QString) (h : containsStr p s = true) :
    containsStr p (s ++ post) = true := by
  induction s with
  | nil =>
    have hp : p = [] := by
      cases p with
      | nil => rfl
      | cons q p => simp [containsStr, startsWith] at h
    subst hp
    cases post <;> simp [containsStr, startsWith]
  | cons a s ih =>
    simp only [containsStr, Bool.or_eq_true] at h
    rw [List.cons_append]
    simp only [containsStr, Bool.or_eq_true]
    rcases h with h | h
    · exact Or.inl (startsWith_append p (a :: s) post h)
    · exact Or.inr (ih h)

theorem containsStr_append_left (p pre s : QString) (h : containsStr p s = true) :
    containsStr p (pre ++ s) = true := by
  induction pre with
  | nil => exact h
  | cons a pre ih =>
    rw [List.cons_append]
    simp only [containsStr, Bool.or_eq_true]
    exact Or.inr ih

theorem indexIn_some (re : QString → Option QString) (t c : QString)
    (h : indexIn re t = some c) : ∃ pre s, t = pre ++ s ∧ re s = some c := by
  induction t with
  | nil => exact ⟨[], [], rfl, by simpa [indexIn] using h⟩
  | cons a t ih =>
    simp only [indexIn] at h
    cases hr : re (a :: t) with
    | some r =>
      rw [hr] at h
      simp only [Option.some.injEq] at h
      subst h
      exact ⟨[], a :: t, rfl, hr⟩
    | none =>
      rw [hr] at h
      obtain ⟨pre, s, h1, h2⟩ := ih h
      exact ⟨a :: pre, s, by rw [h1]; rfl, h2⟩

theorem capNotBrace_some (r c : QString) (h : capNotBrace r = some c) :
    '}' ∉ c ∧ ∃ post, r = c ++ post := by
  simp only [capNotBrace] at h
  split at h
  · simp at h
  · simp only [Option.some.injEq] at h
    subst h
    constructor
    · intro hm
      have := List.mem_takeWhile_imp hm
      simp at this
    · exact ⟨r.dropWhile (fun x => x != '}'), (List.takeWhile_append_dropWhile _ r).symm⟩

theorem reChordAt_some (s c : QString) (h : reChordAt s = some c) :
    '}' ∉ c ∧ ∃ pre post, s = pre ++ c ++ post := by
  simp only [reChordAt] at h
  cases hm : matchTabOpen s with
  | none => rw [hm] at h; simp at h
  | some r =>
    rw [hm] at h
    obtain ⟨h1, post, h2⟩ := capNotBrace_some r c h
    refine ⟨h1, ?_⟩
    obtain ⟨x, _, hx | hx⟩ := matchTabOpen_spec s r hm
    · exact ⟨['\\', x, 't', 'a', 'b', '{'], post, by rw [hx, h2]; simp⟩
    · exact ⟨['\\', x, 't', 'a', 'b', '*', '{'], post, by rw [hx, h2]; simp⟩

theorem cap1_reChordAt (t : QString) :
    '}' ∉ cap1 reChordAt t ∧ ∃ pre post, t = pre ++ cap1 reChordAt t ++ post := by
  simp only [cap1]
  cases h : indexIn reChordAt t with
  | none => exact ⟨by simp, [], t, by simp⟩
  | some c =>
    obtain ⟨pre, s, h1, h2⟩ := indexIn_some reChordAt t c h
    obtain ⟨h3, pre2, post, h4⟩ := reChordAt_some s c h2
    exact ⟨h3, pre ++ pre2, post, by rw [h1, h4]; simp⟩

theorem lastBraceDigit_isDigit (s : QString) (d : Char) (h : lastBraceDigit s = some d) :
    d.isDigit = true := by
  induction s with
  | nil => simp [lastBraceDigit] at h
  | cons a s ih =>
    simp only [lastBraceDigit] at h
    cases hl : lastBraceDigit s with
    | some x =>
      rw [hl] at h
      simp only [Option.some.injEq] at h
      subst h
      exact ih hl
    | none =>
      rw [hl] at h
      simp only at h
      split at h
      · split at h
        · rename_i hd
          simp only [Option.some.injEq] at h
          subst h; exact hd
        · simp at h
      · simp at h

theorem cap1_reFretAt (t : QString) :
    cap1 reFretAt t = [] ∨ ∃ x, x.isDigit = true ∧ cap1 reFretAt t = [x] := by
  simp only [cap1]
  cases h : indexIn reFretAt t with
  | none => exact Or.inl rfl
  | some c =>
    obtain ⟨pre, s, _, h2⟩ := indexIn_some reFretAt t c h
    simp only [reFretAt] at h2
    split at h2
    · split at h2
      · rename_i d hd
        simp only [Option.some.injEq] at h2
        subst h2
        exact Or.inr ⟨d, lastBraceDigit_isDigit _ d hd, rfl⟩
      · simp at h2
    · simp at h2

/-- C3 (amended): when the chord name decoded from a text has no opening
brace and no colon, and the decoded fingering is a string over X and the
digits, decoding the encoding of the decoded diagram gives it back. -/
theorem fromString_decoded_round_trip (d0 d1 : CDiagram) (t : QString)
    (hc1 : '{' ∉ (CDiagram.fromString d0 t).m_chord)
    (hc3 : ':' ∉ (CDiagram.fromString d0 t).m_chord)
    (hs : ∀ x ∈ (CDiagram.fromString d0 t).m_strings, x = 'X' ∨ x.isDigit = true) :
    CDiagram.fromString d1 (CDiagram.fromString d0 t).toString = CDiagram.fromString d0 t := by
  obtain ⟨hc2, pre, post, hinf⟩ := cap1_reChordAt t
  apply fromString_toString_of_regular _ d1 hc1
  · exact hc2
  · exact hc3
  · intro h
    show containsChar '*' t = true
    rw [containsChar_iff, hinf]
    exact List.mem_append.2 (Or.inl (List.mem_append.2 (Or.inr h)))
  · intro h
    have hg : containsStr "gtab".toList t = true := by
      rw [hinf]
      exact containsStr_append_right _ _ _ (containsStr_append_left _ _ _ h)
    simp only [CDiagram.fromString, hg, if_true]
  · exact cap1_reFretAt t
  · exact hs

/-- C3 (witness): a ukulele macro with text before and behind it. -/
theorem fromString_decoded_round_trip_witness :
    CDiagram.fromString ⟨ChordType.UkuleleChord, [], [], [], false⟩
        (CDiagram.fromString ⟨ChordType.GuitarChord, [], [], [], false⟩
          "x \\utab*{B&m}{2:X0222} y".toList).toString =
      CDiagram.fromString ⟨ChordType.GuitarChord, [], [], [], false⟩
        "x \\utab*{B&m}{2:X0222} y".toList :=
  fromString_decoded_round_trip ⟨ChordType.GuitarChord, [], [], [], false⟩
    ⟨ChordType.UkuleleChord, [], [], [], false⟩ "x \\utab*{B&m}{2:X0222} y".toList
    (by decide) (by decide) (by decide)

/-! ### Encoding and decoding of well-formed macros -/

/-- C11: `toString` writes the instrument tag, a star for an important
diagram, the chord name in braces, an opening brace, the fret with a colon
behind it when the fret is not empty, the fingering and a closing brace, in
this order; the two examples of the claim. -/
theorem toString_fixed_order :
    (∀ d : CDiagram, d.toString =
      (match d.m_type with
        | ChordType.GuitarChord => "\\gtab".toList
        | ChordType.UkuleleChord => "\\utab".toList) ++
      (if d.m_important then ['*'] else []) ++
      (['{'] ++ d.m_chord ++ ['}']) ++ ['{'] ++
      (if d.m_fret = [] then [] else d.m_fret ++ [':']) ++
      d.m_strings ++ ['}']) ∧
    CDiagram.toString ⟨ChordType.GuitarChord, "Am".toList, "1".toList, "X0222".toList, false⟩ =
      "\\gtab{Am}{1:X0222}".toList ∧
    CDiagram.toString ⟨ChordType.GuitarChord, "Am".toList, [], "X0222".toList, false⟩ =
      "\\gtab{Am}{X0222}".toList := by
  refine ⟨?_, by decide, by decide⟩
  intro d
  obtain ⟨ty, c, f, s, imp⟩ := d
  cases ty <;> cases imp <;> cases f <;> simp [CDiagram.toString]

/-- C12: a text made of the tag `\gtab` or `\utab`, an optional star, a name
in braces and the fingering in braces, with or without a fret digit and a
colon before the fingering, decodes to the type of the tag, the importance of
the star, the name, the fret digit (or no fret) and the fingering, when the
name is not empty and has no brace, colon, star, gtab or utab in it and the
fingering is a non-empty string over X and the digits. -/
theorem fromString_well_formed (d0 : CDiagram) (ty : ChordType) (important : Bool)
    (name fingering : QString) (fret : Char)
    (_hname : name ≠ [])
    (hchars : ∀ c ∈ name, c ≠ '{' ∧ c ≠ '}' ∧ c ≠ ':' ∧ c ≠ '*')
    (hg : containsStr "gtab".toList name = false)
    (_hu : containsStr "utab".toList name = false)
    (hfret : fret.isDigit = true)
    (_hfing : fingering ≠ [])
    (hs : ∀ c ∈ fingering, c = 'X' ∨ c.isDigit = true) :
    CDiagram.fromString d0
        ((match ty with
          | ChordType.GuitarChord => "\\gtab".toList
          | ChordType.UkuleleChord => "\\utab".toList) ++
          (if important then ['*'] else []) ++
          ['{'] ++ name ++ ['}', '{'] ++ fingering ++ ['}']) =
      ⟨ty, name, [], fingering, important⟩ ∧
    CDiagram.fromString d0
        ((match ty with
          | ChordType.GuitarChord => "\\gtab".toList
          | ChordType.UkuleleChord => "\\utab".toList) ++
          (if important then ['*'] else []) ++
          ['{'] ++ name ++ ['}', '{', fret, ':'] ++ fingering ++ ['}']) =
      ⟨ty, name, [fret], fingering, important⟩ := by
  constructor
  · have h1 : (match ty with
          | ChordType.GuitarChord => "\\gtab".toList
          | ChordType.UkuleleChord => "\\utab".toList) ++
          (if important then ['*'] else []) ++
          ['{'] ++ name ++ ['}', '{'] ++ fingering ++ ['}'] =
        CDiagram.toString ⟨ty, name, [], fingering, important⟩ := by
      cases ty <;> cases important <;> simp [CDiagram.toString]
    rw [h1]
    exact fromString_toString_of_regular ⟨ty, name, [], fingering, important⟩ d0
      (fun h => (hchars _ h).1 rfl) (fun h => (hchars _ h).2.1 rfl)
      (fun h => (hchars _ h).2.2.1 rfl) (fun h => absurd rfl (hchars _ h).2.2.2)
      (fun h => by simp only at h; rw [hg] at h; simp at h) (Or.inl rfl) hs
  · have h2 : (match ty with
          | ChordType.GuitarChord => "\\gtab".toList
          | ChordType.UkuleleChord => "\\utab".toList) ++
          (if important then ['*'] else []) ++
          ['{'] ++ name ++ ['}', '{', fret, ':'] ++ fingering ++ ['}'] =
        CDiagram.toString ⟨ty, name, [fret], fingering, important⟩ := by
      cases ty <;> cases important <;> simp [CDiagram.toString]
    rw [h2]
    exact fromString_toString_of_regular ⟨ty, name, [fret], fingering, important⟩ d0
      (fun h => (hchars _ h).1 rfl) (fun h => (hchars _ h).2.1 rfl)
      (fun h => (hchars _ h).2.2.1 rfl) (fun h => absurd rfl (hchars _ h).2.2.2)
      (fun h => by simp only at h; rw [hg] at h; simp at h) (Or.inr ⟨fret, hfret, rfl⟩) hs

/-- C12 (witness): the macro `\gtab{Am}{1:X0222}` of the claim, and the same
macro without its fret. -/
theorem fromString_well_formed_witness :
    CDiagram.fromString ⟨ChordType.UkuleleChord, [], [], [], true⟩ "\\gtab{Am}{X0222}".toList =
      ⟨ChordType.GuitarChord, "Am".toList, [], "X0222".toList, false⟩ ∧
    CDiagram.fromString ⟨ChordType.UkuleleChord, [], [], [], true⟩ "\\gtab{Am}{1:X0222}".toList =
      ⟨ChordType.GuitarChord, "Am".toList, "1".toList, "X0222".toList, false⟩ :=
  fromString_well_formed ⟨ChordType.UkuleleChord, [], [], [], true⟩ ChordType.GuitarChord false
    "Am".toList "X0222".toList '1' (by decide) (by decide) (by decide) (by decide) (by decide)
    (by decide) (by decide)

/-! ### The selection array -/

theorem appendFalse_length (rows : Nat) : ∀ selected : List Bool,
    (appendFalse rows selected).length = selected.length + rows := by
  induction rows with
  | zero => intro s; rfl
  | succ n ih => intro s; simp only [appendFalse, ih, List.length_append, List.length_singleton]; omega

theorem checkAllFrom_length (l : List Bool) : (checkAllFrom l).length = l.length := by
  induction l with
  | nil => rfl
  | cons b l ih => simp [checkAllFrom, ih]

theorem toggleAllFrom_length (l : List Bool) : (toggleAllFrom l).length = l.length := by
  induction l with
  | nil => rfl
  | cons b l ih => simp [toggleAllFrom, ih]

theorem songsToSelection_length (lib : CLibrary) (sb : CSongbook) :
    (sb.songsToSelection lib).m_selectedSongs.length = sb.m_selectedSongs.length := by
  simp only [CSongbook.songsToSelection, List.length_map, List.length_range]
  split <;> simp [CSongbook.uncheckAll]

theorem sourceModelReset_length (lib : CLibrary) (sb : CSongbook) :
    (sb.sourceModelReset lib).m_selectedSongs.length = lib.relativePaths.length := by
  simp only [CSongbook.sourceModelReset, songsToSelection_length, appendFalse_length]
  simp

theorem selectionOp_length (lib : CLibrary) (sb : CSongbook) (op : SelectionOp) :
    (op.apply lib sb).m_selectedSongs.length = sb.m_selectedSongs.length := by
  cases op with
  | setChecked index checked =>
    simp only [SelectionOp.apply, CSongbook.setChecked]
    split <;> simp
  | toggle index => simp [SelectionOp.apply, CSongbook.toggle]
  | checkAll => simp [SelectionOp.apply, CSongbook.checkAll, checkAllFrom_length]
  | uncheckAll => simp [SelectionOp.apply, CSongbook.uncheckAll]
  | toggleAll => simp [SelectionOp.apply, CSongbook.toggleAll, toggleAllFrom_length]
  | selectLanguages rowLanguages languages => simp [SelectionOp.apply, CSongbook.selectLanguages]
  | songsToSelection => exact songsToSelection_length lib sb
  | setData index value role =>
    simp only [SelectionOp.apply, CSongbook.setData]
    split <;> simp

/-- C13: `sourceModelReset` leaves a selection array as long as the library
has rows, every selection operation keeps the length of the array, and so the
length is the row count after any run of selection operations that follows a
reset. -/
theorem selection_length_invariant (lib : CLibrary) (sb : CSongbook) :
    (sb.sourceModelReset lib).m_selectedSongs.length = lib.relativePaths.length ∧
    (∀ (s : CSongbook) (op : SelectionOp),
      (op.apply lib s).m_selectedSongs.length = s.m_selectedSongs.length) ∧
    ∀ ops : List SelectionOp,
      (ops.foldl (SelectionOp.apply lib) (sb.sourceModelReset lib)).m_selectedSongs.length =
        lib.relativePaths.length := by
  refine ⟨sourceModelReset_length lib sb, selectionOp_length lib, ?_⟩
  intro ops
  have h : ∀ (ops : List SelectionOp) (s : CSongbook),
      (ops.foldl (SelectionOp.apply lib) s).m_selectedSongs.length = s.m_selectedSongs.length := by
    intro ops
    induction ops with
    | nil => intro s; rfl
    | cons op ops ih =>
      intro s
      rw [List.foldl_cons, ih, selectionOp_length]
  rw [h, sourceModelReset_length]

/-! ### Template parameters and the songbook file -/

/-- C14: when the schema text that `changeTemplate` collects from the
template file fails the syntax check, the parameter map with its values, the
list of mandatory parameters and the advanced group are returned as they
were. -/
theorem changeTemplate_syntax_error (env : TemplateEnv) (sb : TemplateParameters)
    (filename : QString)
    (h : env.checkSyntax
      (match env.templateLines (if !filename.isEmpty then filename else "patacrep.tmpl".toList) with
       | some lines => schemaText lines
       | none => []) = false) :
    changeTemplate env sb filename = sb := by
  simp only [changeTemplate, h, Bool.not_false, if_true]

/-- C14 (witness): a template whose schema lines open a bracket that they do
not close, for an engine that would give the parameter title a new type. -/
theorem changeTemplate_syntax_error_witness :
    changeTemplate
      { templateLines := fun _ => some ["%%:[".toList, "\\documentclass".toList],
        checkSyntax := fun s => s.count '[' == s.count ']',
        evaluate := fun _ => some [⟨"title".toList, "Title".toList, "enum".toList,
          QVariant.invalid, [], ["a".toList], true⟩],
        initialValue := fun _ => QVariant.invalid }
      ⟨[("title".toList, ⟨PropertyType.String, QVariant.string "Test".toList, []⟩)],
        [PropertyItem.parameter "title".toList], []⟩
      "patacrep.tmpl".toList =
    ⟨[("title".toList, ⟨PropertyType.String, QVariant.string "Test".toList, []⟩)],
      [PropertyItem.parameter "title".toList], []⟩ :=
  changeTemplate_syntax_error _ _ _ (by decide)

theorem write_closed (texts : List QString) : ∀ f : QFile, f.isOpen = false →
    texts.foldl (fun f t => f.write (Chunk.text t)) f = f := by
  induction texts with
  | nil => intro f _; rfl
  | cons t l ih =>
    intro f hf
    have hwr : f.write (Chunk.text t) = f := by simp [QFile.write, hf]
    rw [List.foldl_cons, hwr]
    exact ih f hf

/-- C15: for a songbook with the parameters mainfontsize = 12 and
title = Test, the file that `save` writes holds one JSON object whose keys
are template, lang, bookoptions, authwords, datadir and content; it has no
member for mainfontsize or title. -/
theorem save_json_without_parameters (oldSystem : CSongbook → List QString) :
    let lib : CLibrary := ⟨"/songs".toList, ["patacrep.tmpl".toList], ["a.sg".toList]⟩
    let sb : CSongbook := ⟨"book.sb".toList, "patacrep.tmpl".toList, [true], [], true,
      [("mainfontsize".toList, ⟨PropertyType.Unit, QVariant.string "12".toList, []⟩),
       ("title".toList, ⟨PropertyType.String, QVariant.string "Test".toList, []⟩)]⟩
    let file : QFile := ⟨true, false, []⟩
    (CSongbook.save lib oldSystem sb "book.sb".toList file).2.content =
      [Chunk.json (CSongbook.saveJson lib (sb.songsFromSelection lib))] ∧
    (CSongbook.saveJson lib (sb.songsFromSelection lib)).map Prod.fst =
      ["template".toList, "lang".toList, "bookoptions".toList, "authwords".toList,
        "datadir".toList, "content".toList] ∧
    QJsonObject.value (CSongbook.saveJson lib (sb.songsFromSelection lib)) "title".toList =
      QJsonValue.Undefined ∧
    QJsonObject.value (CSongbook.saveJson lib (sb.songsFromSelection lib)) "mainfontsize".toList =
      QJsonValue.Undefined := by
  intro lib sb file
  have h1 : (CSongbook.save lib oldSystem sb "book.sb".toList file).2 =
      ⟨true, false, [Chunk.json (CSongbook.saveJson lib (sb.songsFromSelection lib))]⟩ :=
    write_closed _ _ rfl
  rw [h1]
  exact ⟨rfl, by decide, by decide, by decide⟩

/-! ### Completion -/

/-- C16: in the document `foo bar` with the text cursor at the end and its
anchor at the start (the whole text selected), `textUnderCursor` gives `foo`,
which does not end at the cursor; without the selection it gives `bar`. -/
theorem textUnderCursor_with_selection :
    textUnderCursor "foo bar".toList ⟨0, 7⟩ = "foo".toList ∧
    textUnderCursor "foo bar".toList ⟨7, 7⟩ = "bar".toList := by
  decide

theorem right_of_append (p rest : QString) :
    right (p ++ rest) (((p ++ rest).length : Int) - (p.length : Int)) = rest := by
  simp only [right, List.length_append, Nat.cast_add, add_sub_cancel_left]
  by_cases hp : p = []
  · subst hp; simp
  · have hlen : 0 < p.length := List.length_pos.2 hp
    have h1 : ¬ ((rest.length : Int) < 0 ∨ (p.length : Int) + (rest.length : Int) ≤ rest.length) := by
      omega
    rw [if_neg h1]
    simp

/-- C17: when the prefix of the completer is a prefix of the completion,
`insertCompletion` hands the rest of the completion to `insertText` (its last
characters, as many as the completion is longer than the prefix), prefix and
inserted text make the completion, and a document with the prefix before a
text cursor without selection has the completion there afterwards. -/
theorem insertCompletion_completes (completion completionPrefix : QString)
    (h : ∃ rest, completion = completionPrefix ++ rest) :
    completionText completion completionPrefix = completion.drop completionPrefix.length ∧
    completionPrefix ++ completionText completion completionPrefix = completion ∧
    ∀ before behind : QString,
      (insertCompletion (before ++ completionPrefix ++ behind)
        ⟨(before ++ completionPrefix).length, (before ++ completionPrefix).length⟩
        completionPrefix completion).1 = before ++ completion ++ behind := by
  obtain ⟨rest, hrest⟩ := h
  subst hrest
  have ht : completionText (completionPrefix ++ rest) completionPrefix = rest := by
    simp only [completionText]; exact right_of_append completionPrefix rest
  refine ⟨by rw [ht]; simp, by rw [ht], ?_⟩
  intro before behind
  simp only [insertCompletion, insertText, ht, Nat.min_self, Nat.max_self]
  rw [List.take_left' rfl, List.drop_left' rfl]
  simp

/-- C17 (witness): the prefix `\beg` and the completion `\begin{verse}`. -/
theorem insertCompletion_completes_witness :
    completionText "\\begin{verse}".toList "\\beg".toList =
        ("\\begin{verse}".toList).drop ("\\beg".toList).length ∧
    "\\beg".toList ++ completionText "\\begin{verse}".toList "\\beg".toList =
        "\\begin{verse}".toList ∧
    ∀ before behind : QString,
      (insertCompletion (before ++ "\\beg".toList ++ behind)
        ⟨(before ++ "\\beg".toList).length, (before ++ "\\beg".toList).length⟩
        "\\beg".toList "\\begin{verse}".toList).1 = before ++ "\\begin{verse}".toList ++ behind :=
  insertCompletion_completes "\\begin{verse}".toList "\\beg".toList ⟨"in{verse}".toList, by decide⟩

/-! ### Indentation of ranges -/

theorem stripSpaces_snd (s : QString) : ∀ n, (stripSpaces s n).2 = n + (stripSpaces s 0).2 := by
  induction s with
  | nil => intro n; simp [stripSpaces]
  | cons c s ih =>
    intro n
    by_cases hc : c = ' '
    · subst hc
      simp only [stripSpaces]
      rw [ih (n + 1), ih (0 + 1)]
      omega
    · have h : ∀ m, stripSpaces (c :: s) m = (c :: s, m) := by
        intro m
        unfold stripSpaces
        split
        · rename_i heq; simp only [List.cons.injEq] at heq; exact absurd heq.1 hc
        · rfl
      rw [h n, h 0]; rfl

theorem leadingSpaces_trimText (s : QString) : leadingSpaces (trimText s) = 0 := by
  induction s with
  | nil => simp [leadingSpaces, trimText, stripSpaces]
  | cons c s ih =>
    by_cases hc : c = ' '
    · subst hc; simpa [trimText] using ih
    · have ht : trimText (c :: s) = c :: s := by
        rw [trimText_eq_dropWhile]; simp [List.dropWhile_cons, hc]
      rw [ht]
      simp only [leadingSpaces]
      unfold stripSpaces
      split
      · rename_i heq; simp only [List.cons.injEq] at heq; exact absurd heq.1 hc
      · rfl

theorem leadingSpaces_insertIndent (n : Nat) (s : QString) :
    leadingSpaces (insertIndent n s) = 2 * n + leadingSpaces s := by
  induction n with
  | zero => simp [insertIndent]
  | succ n ih =>
    simp only [leadingSpaces] at ih ⊢
    simp only [insertIndent, stripSpaces]
    rw [stripSpaces_snd, ih]
    omega

/-- A document that `indentSelectionLoop` leaves as it is holds, in every
block of the range, the text that `indentLine` gives that block. -/
theorem indentSelectionLoop_fixed (fuel : Nat) :
    ∀ (d : List QString) (it last : Nat), 1 ≤ fuel → d.length ≤ fuel + it →
      indentSelectionLoop fuel d it last = some d →
      ∀ i, it ≤ i → i ≤ last → i < d.length → indentedText d i = blockText d i := by
  induction fuel with
  | zero => intro d it last h; omega
  | succ fuel ih =>
    intro d it last _ hlen hfix i hi1 hi2 hi3
    have hle : it ≤ last := by omega
    simp only [indentSelectionLoop, hle, if_true, indentLine_at_block_start] at hfix
    have hit : it < d.length := by omega
    by_cases hnext : it + 1 < d.length
    · have hnext1 : it + 1 < (d.set it (indentedText d it)).length := by simpa using hnext
      simp only [hnext1, if_true] at hfix
      obtain ⟨d2, h1, _, _, h4⟩ := indentSelectionLoop_twice fuel (d.set it (indentedText d it))
        (it + 1) last (by omega) (by simp; omega)
      rw [hfix] at h1
      simp only [Option.some.injEq] at h1
      subst h1
      have hcur : indentedText d it = blockText d it := by
        have := h4 it (Nat.lt_succ_self it)
        rw [blockText_set_eq d it _ hit] at this
        exact this.symm
      by_cases hii : i = it
      · subst hii; exact hcur
      · have hd1 : d.set it (indentedText d it) = d := by
          rw [hcur]; exact set_blockText_self d it
        rw [hd1] at hfix
        exact ih d (it + 1) last (by omega) (by omega) hfix i (by omega) hi2 hi3
    · have hnext1 : ¬ it + 1 < (d.set it (indentedText d it)).length := by simpa using hnext
      simp only [hnext1, if_false, Option.some.injEq] at hfix
      have hii : i = it := by omega
      subst hii
      have := congrArg (fun l => blockText l i) hfix
      simp only [blockText_set_eq d i _ hit] at this
      exact this

/-- C18: after `indentSelection`, a line of the range that has a non void
line above it begins with twice as many spaces as the level that the rule of
`indentLine` gives it from the final text of the nearest non void line
above. -/
theorem indentSelection_depth_from_corrected_line (doc d : List QString)
    (anchorBlock positionBlock i j : Nat)
    (hsel : indentSelection doc anchorBlock positionBlock = some d)
    (hlo : min anchorBlock positionBlock ≤ i) (hhi : i ≤ max anchorBlock positionBlock)
    (hi : i < d.length) (hj : j < i) (hnv : isVoid (blockText d j) = false)
    (hvoid : ∀ k, j < k → k < i → isVoid (blockText d k) = true) :
    leadingSpaces (blockText d i) = 2 * indentIndex (blockText d j) (blockText d i) := by
  obtain ⟨d2, h1, h2, h3, _⟩ := indentSelectionLoop_twice (doc.length + 2) doc
    (min anchorBlock positionBlock) (max anchorBlock positionBlock) (by omega) (by omega)
  have hd : d2 = d := by
    simp only [indentSelection] at hsel
    rw [h1] at hsel
    simpa using hsel
  subst hd
  have hfix := indentSelectionLoop_fixed (doc.length + 2) d2 (min anchorBlock positionBlock)
    (max anchorBlock positionBlock) (by omega) (by omega) h2 i hlo hhi hi
  obtain ⟨i', rfl⟩ : ∃ i', i = i' + 1 := ⟨i - 1, by omega⟩
  rw [indentedText_succ, previousNonVoidLine_found d2 (i' + 1) j hj hnv hvoid 0] at hfix
  simp only at hfix
  have := congrArg leadingSpaces hfix
  rw [leadingSpaces_insertIndent, leadingSpaces_trimText] at this
  omega

/-- C18 (witness): a verse of three lines, all selected. -/
theorem indentSelection_depth_from_corrected_line_witness :
    leadingSpaces (blockText ["\\begin{verse}".toList, "  la".toList, "\\end{verse}".toList] 1) =
      2 * indentIndex
        (blockText ["\\begin{verse}".toList, "  la".toList, "\\end{verse}".toList] 0)
        (blockText ["\\begin{verse}".toList, "  la".toList, "\\end{verse}".toList] 1) :=
  indentSelection_depth_from_corrected_line
    ["    \\begin{verse}".toList, "la".toList, "\\end{verse}".toList]
    ["\\begin{verse}".toList, "  la".toList, "\\end{verse}".toList] 0 2 1 0
    (by decide) (by decide) (by decide) (by decide) (by decide) (by decide)
    (by intro k h1 h2; omega)

theorem isVoid_trimText (s : QString) : isVoid (trimText s) = isVoid s := by
  induction s with
  | nil => rfl
  | cons c s ih =>
    by_cases hc : c = ' '
    · subst hc
      simp only [trimText, ih]
      simp only [isVoid, List.all_cons]
      have : isSpace ' ' = true := by decide
      rw [this]; rfl
    · have ht : trimText (c :: s) = c :: s := by
        rw [trimText_eq_dropWhile]; simp [List.dropWhile_cons, hc]
      rw [ht]

theorem containsStr_tab_of_matchTabOpen (s r : QString) (h : matchTabOpen s = some r) :
    containsStr "gtab".toList s = true ∨ containsStr "utab".toList s = true := by
  obtain ⟨x, hx, hs⟩ := matchTabOpen_spec s r h
  rcases hx with hx | hx <;> rcases hs with hs | hs <;> subst hx <;> subst hs
  · right; simp [containsStr, startsWith]
  · right; simp [containsStr, startsWith]
  · left; simp [containsStr, startsWith]
  · left; simp [containsStr, startsWith]

theorem indexIn_none_of_no_tab (re : QString → Option QString) (hre : Headed re) (t : QString)
    (hg : containsStr "gtab".toList t = false) (hu : containsStr "utab".toList t = false) :
    indexIn re t = none := by
  cases h : indexIn re t with
  | none => rfl
  | some c =>
    exfalso
    obtain ⟨pre, s, ht, hs⟩ := indexIn_some re t c h
    cases hm : matchTabOpen s with
    | none => rw [hre s hm] at hs; cases hs
    | some r =>
      rcases containsStr_tab_of_matchTabOpen s r hm with h1 | h1
      · have := containsStr_append_left "gtab".toList pre s h1
        rw [← ht, hg] at this; cases this
      · have := containsStr_append_left "utab".toList pre s h1
        rw [← ht, hu] at this; cases this

/-- C21: for a text that contains neither `gtab` nor `utab`,
`CDiagram::fromString` gives a diagram with the instrument type it had before
the call and with empty chord name, fret and fingering; it is a total function,
which has no error result. -/
theorem fromString_without_tab (self : CDiagram) (str : QString)
    (hg : containsStr "gtab".toList str = false) (hu : containsStr "utab".toList str = false) :
    (self.fromString str).m_type = self.m_type ∧
    (self.fromString str).m_chord = [] ∧
    (self.fromString str).m_fret = [] ∧
    (self.fromString str).m_strings = [] := by
  have h1 := indexIn_none_of_no_tab reChordAt headed_reChordAt str hg hu
  have h2 := indexIn_none_of_no_tab reFretAt headed_reFretAt str hg hu
  have h3 := indexIn_none_of_no_tab reStringsNoFretAt headed_reStringsNoFretAt str hg hu
  simp only [CDiagram.fromString, hg, hu, cap1, h1, h2, h3]
  simp

/-- C21 (witness): the text `\tab*{A}{X02220}` read into a ukulele diagram. -/
theorem fromString_without_tab_witness :
    (CDiagram.fromString ⟨ChordType.UkuleleChord, "C".toList, "3".toList, "0003".toList, false⟩
        "\\tab*{A}{X02220}".toList).m_type = ChordType.UkuleleChord ∧
    (CDiagram.fromString ⟨ChordType.UkuleleChord, "C".toList, "3".toList, "0003".toList, false⟩
        "\\tab*{A}{X02220}".toList).m_chord = [] ∧
    (CDiagram.fromString ⟨ChordType.UkuleleChord, "C".toList, "3".toList, "0003".toList, false⟩
        "\\tab*{A}{X02220}".toList).m_fret = [] ∧
    (CDiagram.fromString ⟨ChordType.UkuleleChord, "C".toList, "3".toList, "0003".toList, false⟩
        "\\tab*{A}{X02220}".toList).m_strings = [] :=
  fromString_without_tab _ _ (by decide) (by decide)

/-! ### The file name of a songbook -/

theorem startsWith_self_append (p : QString) : ∀ s : QString, startsWith (p ++ s) p = true := by
  induction p with
  | nil => intro s; cases s <;> simp [startsWith]
  | cons a p ih => intro s; simp [startsWith, ih]

theorem endsWith_append_self (s p : QString) : endsWith (s ++ p) p = true := by
  simp only [endsWith, List.reverse_append]
  exact startsWith_self_append _ _

/-- C24: after `setFilename(f)` the file name is `f` when `f` ends with `.sb`
and `f` followed by `.sb` otherwise; it ends with `.sb`, and `setFilename`
with the stored file name changes nothing. -/
theorem setFilename_extension (sb : CSongbook) (f : QString) :
    (sb.setFilename f).m_filename
      = (if endsWith f ".sb".toList then f else f ++ ".sb".toList) ∧
    endsWith (sb.setFilename f).m_filename ".sb".toList = true ∧
    (sb.setFilename f).setFilename (sb.setFilename f).m_filename = sb.setFilename f := by
  have h2 : endsWith (f ++ ".sb".toList) ".sb".toList = true := endsWith_append_self _ _
  cases h : endsWith f ".sb".toList with
  | true =>
    have e : sb.setFilename f = { sb with m_filename := f } := by
      simp only [CSongbook.setFilename, h, Bool.not_true]; rfl
    rw [e]
    refine ⟨by simp, h, ?_⟩
    simp only [CSongbook.setFilename, h, Bool.not_true]; rfl
  | false =>
    have e : sb.setFilename f = { sb with m_filename := f ++ ".sb".toList } := by
      simp only [CSongbook.setFilename, h, Bool.not_false]; rfl
    rw [e]
    refine ⟨by simp, h2, ?_⟩
    simp only [CSongbook.setFilename, h2, Bool.not_true]; rfl

/-! ### Void lines above a line -/

theorem blockText_append_lt (front rest : List QString) (k : Nat) (h : k < front.length) :
    blockText (front ++ rest) k = blockText front k := by
  simp [blockText, List.getD_eq_getElem?_getD, List.getElem?_append_left h]

theorem highlightStep_outside (n : Nat) (st : HighlightState) (line : QString)
    (hout : st.environment = false) (hopen : opensEnvironment line = false) :
    (highlightStep n st line).environment = false ∧
    (highlightStep n st line).extraSelections = st.extraSelections := by
  simp only [opensEnvironment] at hopen
  simp only [highlightStep, hopen, hout, Bool.false_eq_true, if_false, Bool.false_and, and_self]

theorem highlightLoop_outside (n : Nat) (lines : List QString) :
    ∀ st : HighlightState, st.environment = false →
      (∀ l ∈ lines, opensEnvironment l = false) →
      (highlightLoop n st lines).environment = false ∧
      (highlightLoop n st lines).extraSelections = st.extraSelections := by
  induction lines with
  | nil => intro st hout _; exact ⟨hout, rfl⟩
  | cons l ls ih =>
    intro st hout h
    obtain ⟨h1, h2⟩ := highlightStep_outside n st l hout (h l (List.mem_cons_self _ _))
    obtain ⟨h3, h4⟩ := ih (highlightStep n st l) h1 (fun x hx => h x (List.mem_cons_of_mem _ hx))
    simp only [highlightLoop, List.foldl_cons] at h3 h4 ⊢
    exact ⟨h3, by rw [h4, h2]⟩

theorem highlightStep_end_outside (n : Nat) (st : HighlightState) (line : QString)
    (hend : containsStr "\\end".toList line = true) :
    (highlightStep n st line).environment = false := by
  unfold highlightStep
  dsimp only
  split_ifs <;> simp_all

/-- C23: in a document where every line with `\begin` contains
`repeatedchords`, whatever end markers it has, the highlighter is outside of
any environment after every line, whatever the number of blocks (a line with
`\begin` and `repeatedchords` does not take it inside), and the extra
selections are the current-line selection alone. -/
theorem highlightEnvironments_repeatedchords (ed : SongCodeEditor)
    (hon : ed.m_environmentsHighlighted = true)
    (h : ∀ l ∈ ed.lines, containsStr "\\begin".toList l = true →
      containsStr "repeatedchords".toList l = true) :
    (∀ n k, (highlightLoop n highlightInit (ed.lines.take k)).environment = false) ∧
    highlightEnvironments ed = [currentLineSelection ed.textCursorBlock] := by
  have hno : ∀ l ∈ ed.lines, opensEnvironment l = false := by
    intro l hl
    simp only [opensEnvironment]
    cases hb : containsStr "\\begin".toList l with
    | false => rfl
    | true => rw [h l hl hb]; rfl
  constructor
  · intro n k
    exact (highlightLoop_outside n (ed.lines.take k) highlightInit rfl
      (fun l hl => hno l (List.mem_of_mem_take hl))).1
  · have := (highlightLoop_outside ed.blocks.length ed.lines highlightInit rfl hno).2
    simp only [highlightEnvironments, hon, Bool.not_true, Bool.false_eq_true, if_false, this]
    rfl

/-- C23 (witness): a document with a repeated-chords block and nothing else. -/
theorem highlightEnvironments_repeatedchords_witness :
    (∀ n k, (highlightLoop n highlightInit
        ((SongCodeEditor.mk ["\\begin{repeatedchords}".toList, "la".toList,
          "\\end{repeatedchords}".toList, []] 1 true []).lines.take k)).environment = false) ∧
    highlightEnvironments (SongCodeEditor.mk ["\\begin{repeatedchords}".toList, "la".toList,
        "\\end{repeatedchords}".toList, []] 1 true []) =
      [currentLineSelection (SongCodeEditor.mk ["\\begin{repeatedchords}".toList, "la".toList,
        "\\end{repeatedchords}".toList, []] 1 true []).textCursorBlock] :=
  highlightEnvironments_repeatedchords
    (SongCodeEditor.mk ["\\begin{repeatedchords}".toList, "la".toList,
      "\\end{repeatedchords}".toList, []] 1 true []) rfl (by decide)

/-! ### Selections behind a line -/

theorem closeCursor_bounds (n K : Nat) (c : BlockCursor) (h1 : K ≤ c.anchor)
    (h2 : c.anchor ≤ c.position) (h3 : c.position < n) :
    K ≤ (((c.nextBlock n MoveMode.KeepAnchor).previousBlock MoveMode.KeepAnchor).nextBlock n
        MoveMode.MoveAnchor).anchor ∧
    (((c.nextBlock n MoveMode.KeepAnchor).previousBlock MoveMode.KeepAnchor).nextBlock n
        MoveMode.MoveAnchor).anchor ≤
      (((c.nextBlock n MoveMode.KeepAnchor).previousBlock MoveMode.KeepAnchor).nextBlock n
        MoveMode.MoveAnchor).position ∧
    (((c.nextBlock n MoveMode.KeepAnchor).previousBlock MoveMode.KeepAnchor).nextBlock n
        MoveMode.MoveAnchor).position < n := by
  obtain ⟨a, p⟩ := c
  simp only at h1 h2 h3
  by_cases hp : p + 1 < n
  · simp only [BlockCursor.nextBlock, hp, if_true, BlockCursor.previousBlock]
    refine ⟨?_, ?_, ?_⟩ <;> first | omega | dsimp only
  · cases p with
    | zero =>
      simp only [BlockCursor.nextBlock, hp, if_false, BlockCursor.previousBlock]
      refine ⟨h1, h2, h3⟩
    | succ q =>
      have hq : q + 1 < n := h3
      simp only [BlockCursor.nextBlock, hp, if_false, BlockCursor.previousBlock, hq, if_true]
      refine ⟨?_, ?_, ?_⟩ <;> first | omega | dsimp only

theorem nextBlock_bounds (n K : Nat) (c : BlockCursor) (mode : MoveMode) (h1 : K ≤ c.anchor)
    (h2 : c.anchor ≤ c.position) (h3 : c.position < n) :
    K ≤ (c.nextBlock n mode).anchor ∧ (c.nextBlock n mode).anchor ≤ (c.nextBlock n mode).position ∧
    (c.nextBlock n mode).position < n := by
  obtain ⟨a, p⟩ := c
  simp only at h1 h2 h3
  by_cases hp : p + 1 < n
  · cases mode <;> simp only [BlockCursor.nextBlock, hp, if_true] <;>
      refine ⟨?_, ?_, ?_⟩ <;> first | omega | dsimp only
  · simp only [BlockCursor.nextBlock, hp, if_false]
    exact ⟨h1, h2, h3⟩

theorem highlightStep_later (n K : Nat) (st : HighlightState) (line : QString)
    (h1 : K ≤ st.cursor.anchor) (h2 : st.cursor.anchor ≤ st.cursor.position)
    (h3 : st.cursor.position < n) :
    (K ≤ (highlightStep n st line).cursor.anchor ∧
      (highlightStep n st line).cursor.anchor ≤ (highlightStep n st line).cursor.position ∧
      (highlightStep n st line).cursor.position < n) ∧
    ∀ s ∈ (highlightStep n st line).extraSelections,
      s ∈ st.extraSelections ∨ (K ≤ s.cursor.anchor ∧ s.cursor.anchor ≤ s.cursor.position) := by
  have hk := nextBlock_bounds n K st.cursor MoveMode.KeepAnchor h1 h2 h3
  have hnew : ∀ env s, s ∈ st.extraSelections ++
      [environmentSelection env (st.cursor.nextBlock n MoveMode.KeepAnchor)] →
      s ∈ st.extraSelections ∨ (K ≤ s.cursor.anchor ∧ s.cursor.anchor ≤ s.cursor.position) := by
    intro env s hs
    rcases List.mem_append.1 hs with hs | hs
    · exact Or.inl hs
    · right
      have : s = environmentSelection env (st.cursor.nextBlock n MoveMode.KeepAnchor) := by
        simpa using hs
      subst this
      exact ⟨hk.1, hk.2.1⟩
  unfold highlightStep
  dsimp only
  split_ifs
  all_goals first
    | exact ⟨closeCursor_bounds n K st.cursor h1 h2 h3, hnew _⟩
    | exact ⟨closeCursor_bounds n K st.cursor h1 h2 h3, fun s hs => Or.inl hs⟩
    | exact ⟨nextBlock_bounds n K st.cursor _ h1 h2 h3, fun s hs => Or.inl hs⟩

theorem highlightLoop_later (n K : Nat) (lines : List QString) :
    ∀ st : HighlightState, K ≤ st.cursor.anchor → st.cursor.anchor ≤ st.cursor.position →
      st.cursor.position < n →
      ∀ s ∈ (highlightLoop n st lines).extraSelections,
        s ∈ st.extraSelections ∨ (K ≤ s.cursor.anchor ∧ s.cursor.anchor ≤ s.cursor.position) := by
  induction lines with
  | nil => intro st _ _ _ s hs; exact Or.inl hs
  | cons l ls ih =>
    intro st h1 h2 h3 s hs
    obtain ⟨⟨a1, a2, a3⟩, hsel⟩ := highlightStep_later n K st l h1 h2 h3
    simp only [highlightLoop, List.foldl_cons] at hs
    rcases ih (highlightStep n st l) a1 a2 a3 s hs with h | h
    · exact hsel s h
    · exact Or.inr h

theorem paints_of_left (s : ExtraSelection) (k j : Nat)
    (h : s.cursor.anchor < s.cursor.position ∧ s.cursor.position ≤ k) (hj : k ≤ j) :
    s.paints j = false := by
  have hne : s.cursor.anchor ≠ s.cursor.position := by omega
  simp only [ExtraSelection.paints, if_neg hne]
  have : ¬ j < max s.cursor.anchor s.cursor.position := by
    rw [Nat.max_def]; split <;> omega
  simp [this]

theorem paints_of_right (s : ExtraSelection) (K j : Nat)
    (h : K ≤ s.cursor.anchor ∧ s.cursor.anchor ≤ s.cursor.position) (hj : j < K) :
    s.paints j = false := by
  simp only [ExtraSelection.paints]
  split
  · simp; omega
  · have : ¬ min s.cursor.anchor s.cursor.position ≤ j := by
      rw [Nat.min_def]; split <;> omega
    simp [this]

theorem highlightStep_no_keyword (n : Nat) (st : HighlightState) (line : QString)
    (h : closingEnvironment line = none) :
    (highlightStep n st line).extraSelections = st.extraSelections := by
  unfold closingEnvironment at h
  unfold highlightStep
  dsimp only
  split_ifs at h ⊢ <;> rfl

theorem highlightLoop_stays_inside (n : Nat) (lines : List QString) :
    ∀ st : HighlightState, st.environment = true →
      (∀ l ∈ lines, containsStr "\\end".toList l = false) →
      (highlightLoop n st lines).environment = true := by
  induction lines with
  | nil => intro st h _; exact h
  | cons l ls ih =>
    intro st h hno
    have hl := hno l (List.mem_cons_self _ _)
    have h1 : (highlightStep n st l).environment = true := by
      simp only [highlightStep, hl, h, Bool.and_false, Bool.false_eq_true, if_false, ite_self]
    have := ih (highlightStep n st l) h1 (fun x hx => hno x (List.mem_cons_of_mem _ hx))
    simpa [highlightLoop] using this

theorem highlightLoop_opened (n : Nat) (st : HighlightState) (body : List QString) (r : QString)
    (hfirst : ∀ l ∈ (body ++ [r]).head?, opensEnvironment l = true)
    (hbody : ∀ l ∈ body, containsStr "\\end".toList l = false) :
    (highlightLoop n st body).environment = true ∨ opensEnvironment r = true := by
  cases body with
  | nil => right; exact hfirst r (by simp)
  | cons b body =>
    left
    have ho : opensEnvironment b = true := hfirst b (by simp)
    have hb := hbody b (List.mem_cons_self _ _)
    simp only [opensEnvironment] at ho
    have h1 : (highlightStep n st b).environment = true := by
      simp only [highlightStep, hb, ho, Bool.and_false, Bool.false_eq_true, if_false, if_true]
    have := highlightLoop_stays_inside n body (highlightStep n st b) h1
      (fun x hx => hbody x (List.mem_cons_of_mem _ hx))
    simpa [highlightLoop] using this

/-- C26 (counterexample): in a document whose first block holds a line
separator, the selection of a chorus closed before a verse covers the block of
`\begin{verse}`, block 3, although the verse contains a repeated-chords block
and is closed behind it. -/
theorem highlightEnvironments_end_without_keyword_counterexample :
    highlightEnvironments
      ⟨[['x', lineSeparator, 'y'], "\\begin{chorus}".toList, "\\end{chorus}".toList,
        "\\begin{verse}".toList, "\\begin{repeatedchords}".toList,
        "\\end{repeatedchords}".toList, "\\end{verse}".toList, []], 0, true, []⟩ =
      [⟨Background.chorusColor, ⟨2, 4⟩⟩, currentLineSelection 0] ∧
    (⟨Background.chorusColor, ⟨2, 4⟩⟩ : ExtraSelection).paints 3 = true := by
  decide

/-- C26 (amended): the first line of a block of lines opens an environment,
and the last line `r` of the block is the first one with an end marker and
contains none of the keywords verse, chorus, bridge and scripture.  Then an
environment is open when `r` is reached, the highlighter is outside behind `r`
and has added no selection for the block; the lines behind `r` up to the next
end line `e`, none of which opens an environment, add none either; and in a
document in which no block holds a line break character, no environment
selection paints a line from the first line of the block to `e`. -/
theorem highlightEnvironments_end_without_keyword (ed : SongCodeEditor)
    (pre body mid post : List QString) (r e : QString)
    (hon : ed.m_environmentsHighlighted = true)
    (hlines : ed.lines = pre ++ (body ++ [r]) ++ (mid ++ [e]) ++ post)
    (hfirst : ∀ l ∈ (body ++ [r]).head?, opensEnvironment l = true)
    (hbody : ∀ l ∈ body, containsStr "\\end".toList l = false)
    (hend : containsStr "\\end".toList r = true)
    (hc : closingEnvironment r = none)
    (hmid : ∀ l ∈ mid ++ [e], opensEnvironment l = false)
    (_he : containsStr "\\end".toList e = true) :
    ((highlightLoop ed.blocks.length highlightInit (pre ++ body)).environment = true ∨
      opensEnvironment r = true) ∧
    ((highlightLoop ed.blocks.length highlightInit (pre ++ (body ++ [r]))).environment = false ∧
      (highlightLoop ed.blocks.length highlightInit (pre ++ (body ++ [r]))).extraSelections =
        (highlightLoop ed.blocks.length highlightInit pre).extraSelections) ∧
    ((highlightLoop ed.blocks.length highlightInit
        (pre ++ (body ++ [r]) ++ (mid ++ [e]))).environment = false ∧
      (highlightLoop ed.blocks.length highlightInit
        (pre ++ (body ++ [r]) ++ (mid ++ [e]))).extraSelections =
        (highlightLoop ed.blocks.length highlightInit pre).extraSelections) ∧
    (oneLinePerBlock ed.blocks = true →
      ∀ s ∈ highlightEnvironments ed, s.background ≠ Background.currentLineColor →
        ∀ j, pre.length ≤ j → j < pre.length + (body.length + 1) + (mid.length + 1) →
          s.paints j = false) := by
  have hlen0 : ed.lines.length =
      pre.length + (body.length + 1) + (mid.length + 1) + post.length := by
    rw [hlines]; simp; omega
  have hun : highlightEnvironments ed =
      (highlightLoop ed.blocks.length highlightInit ed.lines).extraSelections ++
        [currentLineSelection ed.textCursorBlock] := by
    simp only [highlightEnvironments, hon, Bool.not_true, Bool.false_eq_true, if_false]
  have hO : (highlightLoop ed.blocks.length highlightInit (pre ++ body)).environment = true ∨
      opensEnvironment r = true := by
    rw [highlightLoop_append]
    exact highlightLoop_opened _ _ body r hfirst hbody
  have hA : (highlightLoop ed.blocks.length highlightInit (pre ++ (body ++ [r]))).environment
        = false ∧
      (highlightLoop ed.blocks.length highlightInit (pre ++ (body ++ [r]))).extraSelections =
        (highlightLoop ed.blocks.length highlightInit pre).extraSelections := by
    rw [highlightLoop_append, highlightLoop_append]
    refine ⟨highlightStep_end_outside _ _ r hend, ?_⟩
    have h1 := highlightLoop_no_end ed.blocks.length body
      (highlightLoop ed.blocks.length highlightInit pre) hbody
    have h2 := highlightStep_no_keyword ed.blocks.length
      (highlightLoop ed.blocks.length (highlightLoop ed.blocks.length highlightInit pre) body)
      r hc
    simp only [highlightLoop, List.foldl_cons, List.foldl_nil] at h1 h2 ⊢
    rw [h2, h1]
  have hB := highlightLoop_outside ed.blocks.length (mid ++ [e])
    (highlightLoop ed.blocks.length highlightInit (pre ++ (body ++ [r]))) hA.1 hmid
  rw [← highlightLoop_append, hA.2] at hB
  refine ⟨hO, hA, hB, ?_⟩
  intro hplain s hs hbg j hj1 hj2
  obtain ⟨_, hn⟩ := lines_of_editor ed hplain (by
    intro h
    rw [h] at hlen0
    simp only [List.length_singleton] at hlen0
    omega)
  have hlen : ed.blocks.length =
      pre.length + (body.length + 1) + (mid.length + 1) + post.length := by rw [hn, hlen0]
  generalize ed.blocks.length = n at hlen hun hB
  have hinv := highlightLoop_inv n pre 0 highlightInit (by omega) highlightInit_inv
  simp only [Nat.zero_add] at hinv
  rw [hun, hlines, highlightLoop_append] at hs
  rcases List.mem_append.1 hs with hs | hs
  · have hpre : ∀ t ∈ (highlightLoop n highlightInit pre).extraSelections,
        t.paints j = false :=
      fun t ht => paints_of_left t pre.length j ⟨(hinv.2.2.2 t ht).1, (hinv.2.2.2 t ht).2.1⟩ hj1
    by_cases hpost : post = []
    · subst hpost
      simp only [highlightLoop, List.foldl_nil] at hs
      have hB2 := hB.2
      simp only [highlightLoop] at hB2
      rw [hB2] at hs
      exact hpre s hs
    · have hpl : 0 < post.length := List.length_pos.2 hpost
      have hinvK := highlightLoop_inv n (pre ++ (body ++ [r]) ++ (mid ++ [e])) 0 highlightInit
        (by simp; omega) highlightInit_inv
      simp only [Nat.zero_add] at hinvK
      obtain ⟨hKpos, _, hKanc, _⟩ := hinvK
      have hKa := hKanc hB.1
      have hK : (pre ++ (body ++ [r]) ++ (mid ++ [e])).length =
          pre.length + (body.length + 1) + (mid.length + 1) := by simp; omega
      rcases highlightLoop_later n (pre.length + (body.length + 1) + (mid.length + 1)) post
          (highlightLoop n highlightInit (pre ++ (body ++ [r]) ++ (mid ++ [e])))
          (by rw [hKa, hK]) (by rw [hKa, hKpos]) (by rw [hKpos, hK]; omega) s hs with h | h
      · rw [hB.2] at h
        exact hpre s h
      · exact paints_of_right s _ j h hj2
  · have : s = currentLineSelection ed.textCursorBlock := by simpa using hs
    subst this
    exact absurd rfl hbg

/-- C26 (witness): a verse with a repeated-chords block inside, followed by a
chorus. -/
theorem highlightEnvironments_end_without_keyword_witness :
    highlightEnvironments ⟨["\\begin{verse}".toList, "\\begin{repeatedchords}".toList,
        "la".toList, "\\end{repeatedchords}".toList, "la".toList, "\\end{verse}".toList,
        "\\begin{chorus}".toList, "\\end{chorus}".toList, []], 0, true, []⟩ =
      [environmentSelection SongEnvironment.Chorus ⟨6, 8⟩, currentLineSelection 0] ∧
    ∀ s ∈ highlightEnvironments ⟨["\\begin{verse}".toList, "\\begin{repeatedchords}".toList,
        "la".toList, "\\end{repeatedchords}".toList, "la".toList, "\\end{verse}".toList,
        "\\begin{chorus}".toList, "\\end{chorus}".toList, []], 0, true, []⟩,
      s.background ≠ Background.currentLineColor →
      ∀ j, 0 ≤ j → j < 0 + (3 + 1) + (1 + 1) → s.paints j = false :=
  ⟨by decide,
    (highlightEnvironments_end_without_keyword
      ⟨["\\begin{verse}".toList, "\\begin{repeatedchords}".toList,
        "la".toList, "\\end{repeatedchords}".toList, "la".toList, "\\end{verse}".toList,
        "\\begin{chorus}".toList, "\\end{chorus}".toList, []], 0, true, []⟩
      [] ["\\begin{verse}".toList, "\\begin{repeatedchords}".toList, "la".toList]
      ["la".toList] ["\\begin{chorus}".toList, "\\end{chorus}".toList, []]
      "\\end{repeatedchords}".toList "\\end{verse}".toList
      rfl (by decide) (by decide) (by decide) (by decide) (by decide) (by decide)
      (by decide)).2.2.2 (by decide)⟩

/-! ### The selection over a reset of the library -/

theorem songsToSelection_selected (lib : CLibrary) (sb : CSongbook) :
    (sb.songsToSelection lib).m_selectedSongs =
      (List.range sb.m_selectedSongs.length).map
        (fun i => sb.m_songs.contains (lib.relativePaths.getD i [])) := by
  simp only [CSongbook.songsToSelection]
  split <;> simp [CSongbook.uncheckAll]

theorem sourceModelReset_selected (lib : CLibrary) (sb : CSongbook) :
    (sb.sourceModelReset lib).m_selectedSongs =
      (List.range lib.relativePaths.length).map
        (fun i => sb.m_songs.contains (lib.relativePaths.getD i [])) := by
  simp only [CSongbook.sourceModelReset, songsToSelection_selected, appendFalse_length]
  simp

/-- C25: for a songbook whose selection array has one entry per row of the
library, after `sourceModelAboutToBeReset` with the library before the reset
and `sourceModelReset` with the library after it, the selection array has one
entry per row of the new library, and row `i` of the new library is checked if
and only if its relative path is the relative path of a row that was checked
before. -/
theorem selection_survives_reset (oldLib newLib : CLibrary) (sb : CSongbook)
    (hlen : sb.m_selectedSongs.length = oldLib.relativePaths.length) :
    ((sb.sourceModelAboutToBeReset oldLib).sourceModelReset newLib).m_selectedSongs.length =
      newLib.relativePaths.length ∧
    ∀ i, i < newLib.relativePaths.length →
      (((sb.sourceModelAboutToBeReset oldLib).sourceModelReset newLib).isChecked ⟨i, 0⟩ = true ↔
        ∃ k, k < oldLib.relativePaths.length ∧ sb.isChecked ⟨k, 0⟩ = true ∧
          newLib.relativePaths.getD i [] = oldLib.relativePaths.getD k []) := by
  refine ⟨sourceModelReset_length newLib _, ?_⟩
  intro i hi
  simp only [CSongbook.isChecked, sourceModelReset_selected, CSongbook.sourceModelAboutToBeReset,
    CSongbook.songsFromSelection, hlen]
  rw [List.getD_eq_getElem?_getD, List.getElem?_map, List.getElem?_range hi]
  simp only [Option.map_some', Option.getD_some, List.contains_eq_any_beq, List.any_eq_true, beq_iff_eq, List.mem_map,
    List.mem_filter, List.mem_range]
  constructor
  · rintro ⟨x, ⟨k, ⟨hk, hc⟩, hx⟩, hp⟩
    exact ⟨k, hk, hc, by rw [hp, hx]⟩
  · rintro ⟨k, hk, hc, hp⟩
    exact ⟨_, ⟨k, ⟨hk, hc⟩, rfl⟩, hp⟩

/-- C25 (witness): the second of two songs is checked; the new library has
a new song first and the two old songs in the other order. -/
theorem selection_survives_reset_witness :
    ((CSongbook.sourceModelAboutToBeReset ⟨[], [], ["a.sg".toList, "b.sg".toList]⟩
        ⟨[], [], [false, true], [], false, []⟩).sourceModelReset
        ⟨[], [], ["c.sg".toList, "b.sg".toList, "a.sg".toList]⟩).m_selectedSongs.length =
      (CLibrary.mk [] [] ["c.sg".toList, "b.sg".toList, "a.sg".toList]).relativePaths.length ∧
    ∀ i, i < (CLibrary.mk [] [] ["c.sg".toList, "b.sg".toList, "a.sg".toList]).relativePaths.length →
      (((CSongbook.sourceModelAboutToBeReset ⟨[], [], ["a.sg".toList, "b.sg".toList]⟩
        ⟨[], [], [false, true], [], false, []⟩).sourceModelReset
        ⟨[], [], ["c.sg".toList, "b.sg".toList, "a.sg".toList]⟩).isChecked ⟨i, 0⟩ = true ↔
        ∃ k, k < (CLibrary.mk [] [] ["a.sg".toList, "b.sg".toList]).relativePaths.length ∧
          (CSongbook.mk [] [] [false, true] [] false []).isChecked ⟨k, 0⟩ = true ∧
          (CLibrary.mk [] [] ["c.sg".toList, "b.sg".toList, "a.sg".toList]).relativePaths.getD i []
            = (CLibrary.mk [] [] ["a.sg".toList, "b.sg".toList]).relativePaths.getD k []) :=
  selection_survives_reset ⟨[], [], ["a.sg".toList, "b.sg".toList]⟩
    ⟨[], [], ["c.sg".toList, "b.sg".toList, "a.sg".toList]⟩
    ⟨[], [], [false, true], [], false, []⟩ rfl

/-! ### Flag parameters -/

theorem and_two_pow_ne_zero (v k : Nat) : ((v &&& 2 ^ k) != 0) = v.testBit k := by
  rw [Nat.and_two_pow]
  cases h : v.testBit k
  · simp
  · simp

theorem mem_saveFlags (names : List QString) : ∀ (v k : Nat) (x : QString),
    x ∈ saveFlags names v (2 ^ k) ↔
      ∃ i, ∃ h : i < names.length, names.get ⟨i, h⟩ = x ∧ v.testBit (k + i) = true := by
  induction names with
  | nil => intro v k x; simp [saveFlags]
  | cons name rest ih =>
    intro v k x
    have hstep : 2 ^ k * 2 = 2 ^ (k + 1) := by rw [Nat.pow_succ]
    have hrest := ih v (k + 1) x
    simp only [saveFlags, and_two_pow_ne_zero, hstep]
    constructor
    · intro hx
      by_cases hb : v.testBit k = true
      · rw [if_pos hb] at hx
        rcases List.mem_cons.1 hx with hx | hx
        · exact ⟨0, by simp, by simpa using hx.symm, by simpa using hb⟩
        · obtain ⟨i, hi, h1, h2⟩ := hrest.1 hx
          exact ⟨i + 1, by simpa using hi, by simpa using h1, by
            have e : k + (i + 1) = k + 1 + i := by omega
            rw [e]; exact h2⟩
      · rw [if_neg hb] at hx
        obtain ⟨i, hi, h1, h2⟩ := hrest.1 hx
        exact ⟨i + 1, by simpa using hi, by simpa using h1, by
          have e : k + (i + 1) = k + 1 + i := by omega
          rw [e]; exact h2⟩
    · rintro ⟨i, hi, h1, h2⟩
      cases i with
      | zero =>
        have hb : v.testBit k = true := by simpa using h2
        rw [if_pos hb]
        simp only [List.get_eq_getElem, List.getElem_cons_zero] at h1
        rw [h1]; exact List.mem_cons_self _ _
      | succ i =>
        have hi2 : i < rest.length := by simpa using hi
        have hm : x ∈ saveFlags rest v (2 ^ (k + 1)) :=
          hrest.2 ⟨i, hi2, by simpa using h1, by
            have e : k + 1 + i = k + (i + 1) := by omega
            rw [e]; exact h2⟩
        split
        · exact List.mem_cons_of_mem _ hm
        · exact hm

theorem testBit_loadFlags (activatedFlags : List QString) (names : List QString) :
    ∀ (flags k j : Nat),
      (loadFlags activatedFlags names flags (2 ^ k)).testBit j = true ↔
        (flags.testBit j = true ∨
          ∃ i, ∃ h : i < names.length, j = k + i ∧ names.get ⟨i, h⟩ ∈ activatedFlags) := by
  induction names with
  | nil => intro flags k j; simp [loadFlags]
  | cons name rest ih =>
    intro flags k j
    have hstep : 2 ^ k * 2 = 2 ^ (k + 1) := by rw [Nat.pow_succ]
    simp only [loadFlags, hstep, ih]
    have hex : (∃ i, ∃ h : i < (name :: rest).length, j = k + i ∧
        (name :: rest).get ⟨i, h⟩ ∈ activatedFlags) ↔
        ((j = k ∧ name ∈ activatedFlags) ∨
          ∃ i, ∃ h : i < rest.length, j = k + 1 + i ∧ rest.get ⟨i, h⟩ ∈ activatedFlags) := by
      constructor
      · rintro ⟨i, hi, h1, h2⟩
        cases i with
        | zero => left; exact ⟨by simpa using h1, by simpa using h2⟩
        | succ i =>
          right
          exact ⟨i, by simpa using hi, by omega, by simpa using h2⟩
      · rintro (⟨h1, h2⟩ | ⟨i, hi, h1, h2⟩)
        · exact ⟨0, by simp, by simpa using h1, by simpa using h2⟩
        · exact ⟨i + 1, by simpa using hi, by omega, by simpa using h2⟩
    rw [hex]
    by_cases hc : name ∈ activatedFlags
    · have hc2 : activatedFlags.contains name = true := by simpa using hc
      simp only [hc2, if_true, Nat.testBit_or, Nat.testBit_two_pow, Bool.or_eq_true,
        decide_eq_true_eq, hc, and_true]
      constructor
      · rintro ((h | h) | h)
        · exact Or.inl h
        · exact Or.inr (Or.inl h.symm)
        · exact Or.inr (Or.inr h)
      · rintro (h | h | h)
        · exact Or.inl (Or.inl h)
        · exact Or.inl (Or.inr h.symm)
        · exact Or.inr h
    · have hc2 : activatedFlags.contains name = false := by simpa using hc
      simp only [hc2, Bool.false_eq_true, if_false, hc, and_false, false_or]

/-- C30: for a flag parameter with pairwise distinct flag names, thirty at
most, and a value `v` below two to the power of their number, the bit mask
that the flag branch of `CSongbook::load` computes from the names that the flag
branch of `CSongbook::save` takes for `v` is `v` again; a name is among those
of `save` exactly when its bit is set in `v`, and the index of the loops stays
below two to the power of thirty-one. -/
theorem loadFlags_saveFlags (names : List QString) (v : Nat) (hd : names.Nodup)
    (hn : names.length ≤ 30) (hv : v < 2 ^ names.length) :
    loadFlags (saveFlags names v 1) names 0 1 = v ∧
    (∀ i, ∀ h : i < names.length,
      (names.get ⟨i, h⟩ ∈ saveFlags names v 1 ↔ v.testBit i = true)) ∧
    2 ^ names.length < 2 ^ 31 := by
  have hmem : ∀ i, ∀ h : i < names.length,
      (names.get ⟨i, h⟩ ∈ saveFlags names v 1 ↔ v.testBit i = true) := by
    intro i h
    have := mem_saveFlags names v 0 (names.get ⟨i, h⟩)
    simp only [Nat.pow_zero, Nat.zero_add] at this
    rw [this]
    constructor
    · rintro ⟨i2, h2, he, hb⟩
      have : (⟨i2, h2⟩ : Fin names.length) = ⟨i, h⟩ := (List.Nodup.get_inj_iff hd).1 he
      have : i2 = i := by simpa using this
      subst this; exact hb
    · intro hb; exact ⟨i, h, rfl, hb⟩
  refine ⟨?_, hmem, Nat.pow_lt_pow_right (by decide) (by omega)⟩
  apply Nat.eq_of_testBit_eq
  intro j
  have hl := testBit_loadFlags (saveFlags names v 1) names 0 0 j
  simp only [Nat.pow_zero, Nat.zero_testBit, Bool.false_eq_true, false_or, Nat.zero_add] at hl
  have hiff : (loadFlags (saveFlags names v 1) names 0 1).testBit j = true ↔
      v.testBit j = true := by
    rw [hl]
    constructor
    · rintro ⟨i, h, rfl, hm⟩; exact (hmem _ h).1 hm
    · intro hb
      have hj : j < names.length := by
        by_contra hj
        have hvj : v.testBit j = false := by
          apply Nat.testBit_lt_two_pow
          exact Nat.lt_of_lt_of_le hv (Nat.pow_le_pow_right (by decide) (by omega))
        rw [hvj] at hb; cases hb
      exact ⟨j, hj, rfl, (hmem j hj).2 hb⟩
  cases h1 : (loadFlags (saveFlags names v 1) names 0 1).testBit j <;>
    cases h2 : v.testBit j <;> simp_all

/-- C30 (witness): three flags with the first and the third one set. -/
theorem loadFlags_saveFlags_witness :
    loadFlags (saveFlags ["a".toList, "b".toList, "c".toList] 5 1)
        ["a".toList, "b".toList, "c".toList] 0 1 = 5 ∧
    (∀ i, ∀ h : i < ["a".toList, "b".toList, "c".toList].length,
      (["a".toList, "b".toList, "c".toList].get ⟨i, h⟩ ∈
          saveFlags ["a".toList, "b".toList, "c".toList] 5 1 ↔
        Nat.testBit 5 i = true)) ∧
    2 ^ ["a".toList, "b".toList, "c".toList].length < 2 ^ 31 :=
  loadFlags_saveFlags ["a".toList, "b".toList, "c".toList] 5 (by decide) (by decide) (by decide)

/-! ### Comments -/

theorem lineFeedsToBlocks_of_not_mem (l : QString) (h : '\n' ∉ l) : lineFeedsToBlocks l = l := by
  induction l with
  | nil => rfl
  | cons c l ih =>
    have hc : c ≠ '\n' := fun e => h (by rw [e]; exact List.mem_cons_self _ _)
    have hl : '\n' ∉ l := fun e => h (List.mem_cons_of_mem _ e)
    simp only [lineFeedsToBlocks, List.map_cons] at ih ⊢
    rw [ih hl]
    simp [hc]

theorem lineFeedsToBlocks_append (a b : QString) :
    lineFeedsToBlocks (a ++ b) = lineFeedsToBlocks a ++ lineFeedsToBlocks b := by
  simp [lineFeedsToBlocks]

theorem lineFeedsToBlocks_joinSep (ls : List QString) (h : ∀ l ∈ ls, '\n' ∉ l) :
    lineFeedsToBlocks (joinSep "\n".toList ls) = joinSep [paragraphSeparator] ls := by
  induction ls with
  | nil => rfl
  | cons l rest ih =>
    cases rest with
    | nil => exact lineFeedsToBlocks_of_not_mem l (h l (List.mem_cons_self _ _))
    | cons next parts =>
      rw [joinSep_cons_cons, joinSep_cons_cons, lineFeedsToBlocks_append,
        lineFeedsToBlocks_append, ih (fun x hx => h x (List.mem_cons_of_mem _ hx)),
        lineFeedsToBlocks_of_not_mem l (h l (List.mem_cons_self _ _))]
      rfl

theorem selectedText_middle (before sel behind : QString) :
    selectedText (before ++ sel ++ behind)
      { anchor := before.length, position := before.length + sel.length } = sel := by
  simp [selectedText, List.append_assoc]

theorem insertText_middle (before sel behind text : QString) :
    insertText (before ++ sel ++ behind)
      { anchor := before.length, position := before.length + sel.length } text =
      (before ++ text ++ behind,
        { anchor := before.length + text.length, position := before.length + text.length }) := by
  simp only [insertText, Nat.le_add_right, Nat.min_eq_left, Nat.max_eq_right, List.append_assoc]
  rw [List.take_left' rfl]
  have : before ++ (sel ++ behind) = (before ++ sel) ++ behind := by simp
  rw [this, List.drop_left' (by simp)]

theorem dropWhile_append_singleton (p : Char → Bool) (xs : QString) (y : Char) (hy : p y = false) :
    (xs ++ [y]).dropWhile p = xs.dropWhile p ++ [y] := by
  induction xs with
  | nil => simp [List.dropWhile, hy]
  | cons x xs ih =>
    simp only [List.cons_append, List.dropWhile]
    split
    · exact ih
    · rfl

theorem trimmed_percent (l : QString) : trimmed ('%' :: l) = '%' :: withoutTrailingSpace l := by
  have h1 : isSpace '%' = false := by decide
  simp only [trimmed, withoutTrailingSpace]
  rw [List.dropWhile_cons_of_neg (by simp [h1]), List.reverse_cons,
    dropWhile_append_singleton _ _ _ h1]
  simp

theorem dropWhile_reverse_eq_self (p : Char → Bool) (l : QString) :
    (l.reverse.dropWhile p).reverse = l ↔
      (match l.getLast? with
        | some c => p c
        | none => false) = false := by
  rcases List.eq_nil_or_concat l with h | ⟨xs, y, h⟩
  · subst h; simp
  · subst h
    have hlast : (xs.concat y).getLast? = some y := by simp
    have hrev : (xs.concat y).reverse = y :: xs.reverse := by simp
    rw [hlast, hrev]
    cases hy : p y with
    | false => simp [List.dropWhile, hy]
    | true =>
      simp only [List.dropWhile, hy]
      constructor
      · intro he
        have := congrArg List.length he
        have hle := List.Sublist.length_le (List.dropWhile_sublist p (l := xs.reverse))
        simp only [List.length_reverse, List.concat_eq_append, List.length_append,
          List.length_singleton] at this hle
        omega
      · intro he; cases he

theorem withoutTrailingSpace_eq_self (l : QString) :
    withoutTrailingSpace l = l ↔ endsWithSpace l = false :=
  dropWhile_reverse_eq_self isSpace l

theorem not_mem_withoutTrailingSpace (c : Char) (l : QString) (h : c ∉ l) :
    c ∉ withoutTrailingSpace l := by
  intro hm
  apply h
  simp only [withoutTrailingSpace, List.mem_reverse] at hm
  have := (List.dropWhile_sublist isSpace (l := l.reverse)).subset hm
  simpa using this

theorem map_eq_self_iff (f : QString → QString) (ls : List QString) :
    ls.map f = ls ↔ ∀ l ∈ ls, f l = l := by
  induction ls with
  | nil => simp
  | cons a ls ih => simp [ih]

theorem uncommentedSelection_commented (sel : QString) :
    uncommentedSelection (joinSep [paragraphSeparator] (commentedSelection sel)) =
      (splitSep paragraphSeparator sel).map withoutTrailingSpace := by
  have hps : ∀ l ∈ commentedSelection sel, paragraphSeparator ∉ l := by
    intro l hl
    simp only [commentedSelection, List.mem_map] at hl
    obtain ⟨x, hx, rfl⟩ := hl
    intro hm
    rcases List.mem_cons.1 hm with hm | hm
    · revert hm; decide
    · exact mem_splitSep _ _ x hx hm
  have hne : commentedSelection sel ≠ [] := by
    simp [commentedSelection, splitSep_ne_nil]
  simp only [uncommentedSelection]
  rw [splitSep_joinSep _ _ hne hps]
  simp only [commentedSelection, List.map_map]
  apply List.map_congr_left
  intro l _
  simp only [Function.comp, trimmed_percent]
  simp [startsWith]

/-- C27: a selected text `sel` without line feed (the text of a document has
none) between `before` and `behind` is commented, and `uncommentSelection` is
run with the commented text selected.  The list of lines that
`uncommentSelection` builds is the list of the lines of `sel`, each without the
white space at its end, so it has as many lines; the document gets these lines
in the place of `sel`; and the document is the one before the two calls if and
only if no line of `sel` ends with white space. -/
theorem uncommentSelection_commentSelection (before sel behind : QString)
    (c u : QString × TextCursor) (hnl : '\n' ∉ sel)
    (hc : c = commentSelection (before ++ sel ++ behind)
      { anchor := before.length, position := before.length + sel.length })
    (hu : u = uncommentSelection c.1 { anchor := before.length, position := c.2.position }) :
    uncommentedSelection (selectedText c.1 { anchor := before.length, position := c.2.position }) =
      (splitSep paragraphSeparator sel).map withoutTrailingSpace ∧
    (uncommentedSelection
      (selectedText c.1 { anchor := before.length, position := c.2.position })).length =
      (splitSep paragraphSeparator sel).length ∧
    u.1 = before ++
      joinSep [paragraphSeparator] ((splitSep paragraphSeparator sel).map withoutTrailingSpace) ++
      behind ∧
    (u.1 = before ++ sel ++ behind ↔
      ∀ l ∈ splitSep paragraphSeparator sel, endsWithSpace l = false) := by
  have hlines : ∀ l ∈ splitSep paragraphSeparator sel, '\n' ∉ l := by
    intro l hl hm
    apply hnl
    rw [← joinSep_splitSep paragraphSeparator sel]
    generalize splitSep paragraphSeparator sel = ls at hl
    induction ls with
    | nil => cases hl
    | cons a rest ih =>
      cases rest with
      | nil =>
        have : l = a := by simpa using hl
        subst this; exact hm
      | cons next parts =>
        rw [joinSep_cons_cons]
        rcases List.mem_cons.1 hl with hl | hl
        · subst hl; simp [hm]
        · simp only [List.mem_append]; exact Or.inr (ih hl)
  have hcl : ∀ l ∈ commentedSelection sel, '\n' ∉ l := by
    intro l hl
    simp only [commentedSelection, List.mem_map] at hl
    obtain ⟨x, hx, rfl⟩ := hl
    intro hm
    rcases List.mem_cons.1 hm with hm | hm
    · revert hm; decide
    · exact hlines x hx hm
  have hC : c = (before ++ joinSep [paragraphSeparator] (commentedSelection sel) ++ behind,
      { anchor := before.length + (joinSep [paragraphSeparator] (commentedSelection sel)).length,
        position := before.length +
          (joinSep [paragraphSeparator] (commentedSelection sel)).length }) := by
    rw [hc]
    simp only [commentSelection, selectedText_middle]
    rw [lineFeedsToBlocks_joinSep _ hcl, insertText_middle]
  have hsel : selectedText c.1 { anchor := before.length, position := c.2.position } =
      joinSep [paragraphSeparator] (commentedSelection sel) := by
    rw [hC]; exact selectedText_middle _ _ _
  have hun := uncommentedSelection_commented sel
  have hwl : ∀ l ∈ (splitSep paragraphSeparator sel).map withoutTrailingSpace, '\n' ∉ l := by
    intro l hl
    simp only [List.mem_map] at hl
    obtain ⟨x, hx, rfl⟩ := hl
    exact not_mem_withoutTrailingSpace _ _ (hlines x hx)
  have hwp : ∀ l ∈ (splitSep paragraphSeparator sel).map withoutTrailingSpace,
      paragraphSeparator ∉ l := by
    intro l hl
    simp only [List.mem_map] at hl
    obtain ⟨x, hx, rfl⟩ := hl
    exact not_mem_withoutTrailingSpace _ _ (mem_splitSep _ _ x hx)
  have hU : u.1 = before ++
      joinSep [paragraphSeparator] ((splitSep paragraphSeparator sel).map withoutTrailingSpace) ++
      behind := by
    rw [hu]
    simp only [uncommentSelection, hsel, hun]
    rw [lineFeedsToBlocks_joinSep _ hwl, hC, insertText_middle]
  refine ⟨by rw [hsel, hun], by rw [hsel, hun, List.length_map], hU, ?_⟩
  rw [hU]
  constructor
  · intro he
    have h1 : joinSep [paragraphSeparator]
        ((splitSep paragraphSeparator sel).map withoutTrailingSpace) = sel := by
      have h2 := List.append_cancel_right he
      exact List.append_cancel_left h2
    have h3 := congrArg (splitSep paragraphSeparator) h1
    rw [splitSep_joinSep _ _ (by simp [splitSep_ne_nil]) hwp] at h3
    intro l hl
    exact (withoutTrailingSpace_eq_self l).1 ((map_eq_self_iff _ _).1 h3 l hl)
  · intro hall
    have h3 : (splitSep paragraphSeparator sel).map withoutTrailingSpace =
        splitSep paragraphSeparator sel :=
      (map_eq_self_iff _ _).2 (fun l hl => (withoutTrailingSpace_eq_self l).2 (hall l hl))
    rw [h3, joinSep_splitSep]

/-- C27 (witness): the selection runs from inside the first line over a line
with white space at its end into the third line. -/
theorem uncommentSelection_commentSelection_witness :
    uncommentedSelection
      (selectedText
        (commentSelection ("a".toList ++ ['b', paragraphSeparator, ' ', 'c', ' ',
          paragraphSeparator, 'd'] ++ "e".toList)
          { anchor := "a".toList.length, position := "a".toList.length +
            ['b', paragraphSeparator, ' ', 'c', ' ', paragraphSeparator, 'd'].length }).1
        { anchor := "a".toList.length,
          position := (commentSelection ("a".toList ++ ['b', paragraphSeparator, ' ', 'c', ' ',
            paragraphSeparator, 'd'] ++ "e".toList)
            { anchor := "a".toList.length, position := "a".toList.length +
              ['b', paragraphSeparator, ' ', 'c', ' ', paragraphSeparator, 'd'].length
              }).2.position }) =
      ["b".toList, " c".toList, "d".toList] :=
  (uncommentSelection_commentSelection "a".toList
    ['b', paragraphSeparator, ' ', 'c', ' ', paragraphSeparator, 'd'] "e".toList _ _
    (by decide) rfl rfl).1.trans (by decide)

end Songbook
